import Mathlib

/-!
# Verification of the Rex-C tokenizer and serialization format

This development embeds the Rex repository's editor tokenizer (the two
versions of `tokenize` in the highlighting package) and, for the parts of
the Rex-C codec whose implementation exists only as reference
documentation, a model built from that documentation.  Theorems at the end
of the file settle the specification's claims about the digit codec, the
zigzag mapping, the tokenizer, and the encoder/decoder pair.

Conventions: TypeScript strings are embedded as `List Nat` of UTF-16 code
units (the code only ever inspects them through `charCodeAt`/one-character
reads, so unit values are all that matters); machine numbers are `Nat`/`Int`.
-/

namespace Rex

set_option maxHeartbeats 1000000

/-! ## Digit alphabet and prefix decoding (from the tokenizer source) -/

/-- The 64-symbol digit alphabet `0-9 a-z A-Z - _`, as character codes, in
the fixed order of the source's `DIGIT_SET` string literal. -/
def DIGITS : List Nat :=
  (List.range 10).map (fun i => 48 + i) ++
  (List.range 26).map (fun i => 97 + i) ++
  (List.range 26).map (fun i => 65 + i) ++
  [45, 95]

/-- Membership in the digit alphabet, as the source's `DIGIT_SET.has`. -/
def isDigitCode (c : Nat) : Bool := c ∈ DIGITS

/-- Embeds `digitValue` from the tokenizer: character code to digit value,
`-1` for characters outside the alphabet. -/
def digitValue (c : Nat) : Int :=
  if 48 ≤ c ∧ c ≤ 57 then (c : Int) - 48
  else if 97 ≤ c ∧ c ≤ 122 then (c : Int) - 97 + 10
  else if 65 ≤ c ∧ c ≤ 90 then (c : Int) - 65 + 36
  else if c = 45 then 62
  else if c = 95 then 63
  else -1

/-- Embeds the tokenizer's `decodePrefix text start end`: left fold
`v = v*64 + digitValue(text[i])` over the index range `[start, stop)`.
(Renamed from the source's `decodePrefix` for lexical reasons only.) -/
def decodeRun (t : List Nat) (start stop : Nat) : Int :=
  (List.range' start (stop - start)).foldl
    (fun v i => v * 64 + digitValue (t.getD i 0)) 0

/-! ## Tokenizer embedding (the `tokenize` of the highlighting package)

The tokenizer scans a text (a list of UTF-16 code units) and emits
highlighting tokens.  Loops are embedded with an explicit fuel argument
(structural recursion) so that all definitions evaluate by kernel
reduction; sufficiency of the fuel supplied by `tokenize` is proved below
(claim C9).  Token `type` codes are the source's `T` table:
0 byteLength, 1 keyword, 3 variable, 4 number, 5 string, 6 operator,
7 property, 8 decorator, 9 line-drawing art, 10 objectKey, 11 indexData. -/

/-- Embeds the source's `Token` interface. -/
structure Token where
  line : Nat
  char : Nat
  length : Nat
  type : Nat
deriving DecidableEq, Repr

/-- Mutable tokenizer state: position, line/column, emitted tokens, and the
`objectKeyMode` flag. -/
structure LexSt where
  pos : Nat
  line : Nat
  col : Nat
  toks : List Token
  okm : Bool
deriving DecidableEq, Repr

/-- Embeds `advance()`: step one character, tracking line/column. -/
def advance (t : List Nat) (s : LexSt) : LexSt :=
  if t.getD s.pos 0 = 10 then
    { s with pos := s.pos + 1, line := s.line + 1, col := 0 }
  else
    { s with pos := s.pos + 1, col := s.col + 1 }

/-- Embeds `emit(l, c, len, type)`: push a token when `len > 0`. -/
def emit (l c len ty : Nat) (s : LexSt) : LexSt :=
  if 0 < len then { s with toks := s.toks ++ [⟨l, c, len, ty⟩] } else s

/-- Whitespace test of `skipNonCode`. -/
def isWs (c : Nat) : Bool := c = 32 ∨ c = 9 ∨ c = 10 ∨ c = 13

/-- Line-drawing range test (Box Drawing and Block Elements). -/
def isBox (c : Nat) : Bool := 0x2500 ≤ c ∧ c ≤ 0x259f

/-- Scan to the end of the line (the `//` comment loop). -/
def skipToNl (t : List Nat) : Nat → LexSt → LexSt
  | 0, s => s
  | f + 1, s =>
    if s.pos < t.length ∧ t.getD s.pos 0 ≠ 10 then skipToNl t f (advance t s) else s

/-- Scan past a `/*` block comment body (after the opener was consumed). -/
def skipBlock (t : List Nat) : Nat → LexSt → LexSt
  | 0, s => s
  | f + 1, s =>
    if s.pos < t.length then
      if t.getD s.pos 0 = 42 ∧ s.pos + 1 < t.length ∧ t.getD (s.pos + 1) 0 = 47 then
        advance t (advance t s)
      else skipBlock t f (advance t s)
    else s

/-- Scan a contiguous run of line-drawing characters. -/
def boxRun (t : List Nat) : Nat → LexSt → LexSt
  | 0, s => s
  | f + 1, s =>
    if s.pos < t.length ∧ isBox (t.getD s.pos 0) then boxRun t f (advance t s) else s

/-- The annotation branch of `skipNonCode`: process the rest of the line,
emitting each run of line-drawing characters as one token of type 9. -/
def annotLine (t : List Nat) (artLine : Nat) : Nat → LexSt → LexSt
  | 0, s => s
  | f + 1, s =>
    if s.pos < t.length ∧ t.getD s.pos 0 ≠ 10 then
      if isBox (t.getD s.pos 0) then
        let runCol := s.col
        let runStart := s.pos
        let s1 := boxRun t (t.length + 1) s
        annotLine t artLine f (emit artLine runCol (s1.pos - runStart) 9 s1)
      else annotLine t artLine f (advance t s)
    else s

/-- Embeds `skipNonCode()`: skip whitespace, line-drawing annotations and
`//` / `/* */` comments. -/
def skipNonCode (t : List Nat) : Nat → LexSt → LexSt
  | 0, s => s
  | f + 1, s =>
    if s.pos < t.length then
      let c := t.getD s.pos 0
      if isWs c then skipNonCode t f (advance t s)
      else if isBox c then skipNonCode t f (annotLine t s.line (t.length + 1) s)
      else if c = 47 ∧ s.pos + 1 < t.length ∧ t.getD (s.pos + 1) 0 = 47 then
        skipNonCode t f (skipToNl t (t.length + 1) s)
      else if c = 47 ∧ s.pos + 1 < t.length ∧ t.getD (s.pos + 1) 0 = 42 then
        skipNonCode t f (skipBlock t (t.length + 1) (advance t (advance t s)))
      else s
    else s

/-- Scan a maximal run of digit-alphabet characters. -/
def scanDigits (t : List Nat) : Nat → LexSt → LexSt
  | 0, s => s
  | f + 1, s =>
    if s.pos < t.length ∧ isDigitCode (t.getD s.pos 0) then scanDigits t f (advance t s)
    else s

/-- The raw-string content loop of the `,` case: consume up to `n` remaining
characters, emitting the content as one string token (type 5) per line. -/
def rawScan (t : List Nat) : Nat → Nat → Nat → Nat → LexSt → LexSt
  | 0, cLine, cCol, cLen, s => emit cLine cCol cLen 5 s
  | n + 1, cLine, cCol, cLen, s =>
    if s.pos < t.length then
      if t.getD s.pos 0 = 10 then
        let s1 := advance t (emit cLine cCol cLen 5 s)
        rawScan t n s1.line s1.col 0 s1
      else rawScan t n cLine cCol (cLen + 1) (advance t s)
    else emit cLine cCol cLen 5 s

/-- The fixed-width index-data skip: `for (i = 0; i < n && pos < len; i++) advance()`. -/
def dataSkip (t : List Nat) : Nat → LexSt → LexSt
  | 0, s => s
  | n + 1, s => if s.pos < t.length then dataSkip t n (advance t s) else s

/-- Embeds `tryParseIndex()`: inside `[` or `{`, try to read an index header
`count#width` followed by `count * width` characters of index data; rewind
if the `#` is absent.  The single character after `#` is read as the
pointer width itself. -/
def tryParseIndex (t : List Nat) (s : LexSt) : LexSt :=
  let indexStart := s.pos
  let indexLine := s.line
  let indexCol := s.col
  let s1 := scanDigits t (t.length + 1) s
  if s1.pos < t.length ∧ t.getD s1.pos 0 = 35 then
    let count := (decodeRun t indexStart s1.pos).toNat
    let s2 := advance t s1
    let ws :=
      if s2.pos < t.length ∧ isDigitCode (t.getD s2.pos 0) then
        ((digitValue (t.getD s2.pos 0)).toNat, advance t s2)
      else (0, s2)
    let width := ws.1
    let s3 := ws.2
    let s4 := emit indexLine indexCol (s3.pos - indexStart) 8 s3
    if 0 < width then
      let arrLen := count * width
      let arrLine := s4.line
      let arrCol := s4.col
      let arrStart := s4.pos
      let s5 := dataSkip t arrLen s4
      emit arrLine arrCol (s5.pos - arrStart) 11 s5
    else s4
  else
    { s1 with pos := indexStart, line := indexLine, col := indexCol }

/-- The value-starting tags of `VALUE_TAGS` (`+*:%@$^~=([{,?!|&`). -/
def tagOk (c : Nat) : Bool :=
  c ∈ ([43, 42, 58, 37, 64, 36, 94, 126, 61, 40, 91, 123, 44, 63, 33, 124, 38] : List Nat)

/-- Recursion modes of the tokenizer: `parseOneValue`, a container child
loop with its closing delimiter, the object key/value loop, and the
top-level loop. -/
inductive LexMode where
  | one : LexMode
  | loopC (closer : Nat) : LexMode
  | loopO (isKey : Bool) : LexMode
  | main : LexMode
deriving DecidableEq, Repr

/-- Embeds `parseOneValue()` together with its container/object/top-level
`while` loops (modes `loopC`/`loopO`/`main`), with explicit fuel; `none`
means the fuel ran out, which claim C9 shows never happens for the fuel
supplied by `tokenize`. -/
def run (t : List Nat) : Nat → LexMode → LexSt → Option LexSt
  | 0, _, _ => none
  | f + 1, .one, s0 =>
    let s := skipNonCode t (t.length + 1) s0
    if s.pos ≥ t.length then some s
    else
      let first := t.getD s.pos 0
      if first = 41 ∨ first = 93 ∨ first = 125 then some s
      else
        let pStart := s.pos
        let pLine := s.line
        let pCol := s.col
        let s1 := scanDigits t (t.length + 1) s
        if s1.pos ≥ t.length then some s1
        else
          let tag := t.getD s1.pos 0
          if ¬ tagOk tag then some s1
          else
            let tLine := s1.line
            let tCol := s1.col
            if tag = 63 ∨ tag = 33 ∨ tag = 124 ∨ tag = 38 then
              -- control-flow containers ?( !( |( &(
              if s1.pos + 1 < t.length ∧ t.getD (s1.pos + 1) 0 = 40 then
                let s2 := emit pLine pCol (s1.pos - pStart) 0 s1
                let s3 := advance t (advance t s2)
                let s4 := emit tLine tCol 2 1 s3
                match run t f (.loopC 41) s4 with
                | none => none
                | some s5 =>
                  some (if s5.pos < t.length ∧ t.getD s5.pos 0 = 41 then advance t s5 else s5)
              else some s1
            else if tag = 40 then
              -- call container
              let s2 := emit pLine pCol (s1.pos - pStart) 0 s1
              let s3 := advance t s2
              match run t f (.loopC 41) s3 with
              | none => none
              | some s5 =>
                some (if s5.pos < t.length ∧ t.getD s5.pos 0 = 41 then advance t s5 else s5)
            else if tag = 91 then
              -- array container, with optional index header
              let s2 := emit pLine pCol (s1.pos - pStart) 0 s1
              let s3 := tryParseIndex t (skipNonCode t (t.length + 1) (advance t s2))
              match run t f (.loopC 93) s3 with
              | none => none
              | some s5 =>
                some (if s5.pos < t.length ∧ t.getD s5.pos 0 = 93 then advance t s5 else s5)
            else if tag = 123 then
              -- object container, with optional index header
              let s2 := emit pLine pCol (s1.pos - pStart) 0 s1
              let s3 := tryParseIndex t (skipNonCode t (t.length + 1) (advance t s2))
              match run t f (.loopO true) s3 with
              | none => none
              | some s5 =>
                some (if s5.pos < t.length ∧ t.getD s5.pos 0 = 125 then advance t s5 else s5)
            else if tag = 44 then
              -- raw string container: consume the declared byte count
              let byteLen := (decodeRun t pStart s1.pos).toNat
              let s2 := emit pLine pCol (s1.pos - pStart) 0 s1
              let s3 := advance t s2
              let s4 := emit tLine tCol 1 5 s3
              some (rawScan t byteLen s4.line s4.col 0 s4)
            else if tag = 61 then
              -- set operator: place then value
              let s2 := emit pLine pCol (s1.pos - pStart) 0 s1
              let s3 := advance t s2
              let s4 := emit tLine tCol 1 6 s3
              match run t f .one s4 with
              | none => none
              | some s5 => run t f .one s5
            else if tag = 126 then
              -- delete operator: place
              let s2 := emit pLine pCol (s1.pos - pStart) 0 s1
              let s3 := advance t s2
              let s4 := emit tLine tCol 1 6 s3
              run t f .one s4
            else if tag = 42 then
              -- decimal: emit, then parse the significand
              let s2 := advance t s1
              let s3 := emit pLine pCol (s2.pos - pStart) 4 s2
              run t f .one s3
            else
              -- simple scalars: + : % @ $ ^
              let s2 := advance t s1
              let ty :=
                if tag = 43 then 4
                else if tag = 58 then (if s2.okm then 10 else 5)
                else if tag = 37 then 1
                else if tag = 64 then 7
                else if tag = 36 then 3
                else 6
              some (emit pLine pCol (s2.pos - pStart) ty s2)
  | f + 1, .loopC closer, s =>
    if s.pos < t.length then
      let s1 := skipNonCode t (t.length + 1) s
      if s1.pos ≥ t.length ∨ t.getD s1.pos 0 = closer then some s1
      else
        let prev := s1.pos
        match run t f .one s1 with
        | none => none
        | some s2 => run t f (.loopC closer) (if s2.pos = prev then advance t s2 else s2)
    else some s
  | f + 1, .loopO isKey, s =>
    if s.pos < t.length then
      let s1 := skipNonCode t (t.length + 1) s
      if s1.pos ≥ t.length ∨ t.getD s1.pos 0 = 125 then some s1
      else
        let prev := s1.pos
        let saved := s1.okm
        match run t f .one { s1 with okm := isKey } with
        | none => none
        | some s2 =>
          let s2' := { s2 with okm := saved }
          run t f (.loopO (!isKey)) (if s2'.pos = prev then advance t s2' else s2')
    else some s
  | f + 1, .main, s =>
    if s.pos < t.length then
      let s1 := skipNonCode t (t.length + 1) s
      if s1.pos ≥ t.length then some s1
      else
        let prev := s1.pos
        match run t f .one s1 with
        | none => none
        | some s2 => run t f .main (if s2.pos = prev then advance t s2 else s2)
    else some s

/-- Embeds `parseOneValue()` proper. -/
def parseOneValue (t : List Nat) (f : Nat) (s : LexSt) : Option LexSt :=
  run t f .one s

/-- The tag dispatch of `parseOneValue`, abstracted over the state after
`skipNonCode` (`sA`) and after the digit-prefix scan (`s1`); definitionally
equal to the corresponding piece of `run` (see `run_one_eq`), introduced so
proofs can case on the dispatch without expanding the scanner terms. -/
def runDisp (t : List Nat) (f : Nat) (sA s1 : LexSt) : Option LexSt :=
  if sA.pos ≥ t.length then some sA
  else if t.getD sA.pos 0 = 41 ∨ t.getD sA.pos 0 = 93 ∨ t.getD sA.pos 0 = 125 then some sA
  else if s1.pos ≥ t.length then some s1
  else if ¬ tagOk (t.getD s1.pos 0) then some s1
  else if t.getD s1.pos 0 = 63 ∨ t.getD s1.pos 0 = 33 ∨ t.getD s1.pos 0 = 124 ∨
      t.getD s1.pos 0 = 38 then
    if s1.pos + 1 < t.length ∧ t.getD (s1.pos + 1) 0 = 40 then
      match run t f (.loopC 41) (emit s1.line s1.col 2 1 (advance t (advance t
          (emit sA.line sA.col (s1.pos - sA.pos) 0 s1)))) with
      | none => none
      | some s5 =>
        some (if s5.pos < t.length ∧ t.getD s5.pos 0 = 41 then advance t s5 else s5)
    else some s1
  else if t.getD s1.pos 0 = 40 then
    match run t f (.loopC 41) (advance t (emit sA.line sA.col (s1.pos - sA.pos) 0 s1)) with
    | none => none
    | some s5 =>
      some (if s5.pos < t.length ∧ t.getD s5.pos 0 = 41 then advance t s5 else s5)
  else if t.getD s1.pos 0 = 91 then
    match run t f (.loopC 93) (tryParseIndex t (skipNonCode t (t.length + 1)
        (advance t (emit sA.line sA.col (s1.pos - sA.pos) 0 s1)))) with
    | none => none
    | some s5 =>
      some (if s5.pos < t.length ∧ t.getD s5.pos 0 = 93 then advance t s5 else s5)
  else if t.getD s1.pos 0 = 123 then
    match run t f (.loopO true) (tryParseIndex t (skipNonCode t (t.length + 1)
        (advance t (emit sA.line sA.col (s1.pos - sA.pos) 0 s1)))) with
    | none => none
    | some s5 =>
      some (if s5.pos < t.length ∧ t.getD s5.pos 0 = 125 then advance t s5 else s5)
  else if t.getD s1.pos 0 = 44 then
    some (rawScan t (decodeRun t sA.pos s1.pos).toNat
      (emit s1.line s1.col 1 5 (advance t (emit sA.line sA.col (s1.pos - sA.pos) 0 s1))).line
      (emit s1.line s1.col 1 5 (advance t (emit sA.line sA.col (s1.pos - sA.pos) 0 s1))).col 0
      (emit s1.line s1.col 1 5 (advance t (emit sA.line sA.col (s1.pos - sA.pos) 0 s1))))
  else if t.getD s1.pos 0 = 61 then
    match run t f .one (emit s1.line s1.col 1 6 (advance t
        (emit sA.line sA.col (s1.pos - sA.pos) 0 s1))) with
    | none => none
    | some s5 => run t f .one s5
  else if t.getD s1.pos 0 = 126 then
    run t f .one (emit s1.line s1.col 1 6 (advance t
      (emit sA.line sA.col (s1.pos - sA.pos) 0 s1)))
  else if t.getD s1.pos 0 = 42 then
    run t f .one (emit sA.line sA.col ((advance t s1).pos - sA.pos) 4 (advance t s1))
  else
    some (emit sA.line sA.col ((advance t s1).pos - sA.pos)
      (if t.getD s1.pos 0 = 43 then 4
       else if t.getD s1.pos 0 = 58 then (if (advance t s1).okm then 10 else 5)
       else if t.getD s1.pos 0 = 37 then 1
       else if t.getD s1.pos 0 = 64 then 7
       else if t.getD s1.pos 0 = 36 then 3
       else 6) (advance t s1))

/-- The whole tokenizer with its fuel (claim C9 shows it suffices). -/
def tokenizeO (t : List Nat) : Option (List Token) :=
  (run t (2 * t.length + 4) .main ⟨0, 0, 0, [], false⟩).map LexSt.toks

/-- Embeds `tokenize(text)`. -/
def tokenize (t : List Nat) : List Token :=
  (tokenizeO t).getD []

/-! ## Zigzag mapping (modelled from the spec)

Modelled from the spec: the codec implementation is absent from the
repository sources (only the format documentation describes it); zigzag is
given there as `zz(n) = n>=0 ? 2n : -2n-1` and
`unzz(z) = z even ? z/2 : -(z+1)/2`. -/

/-- Zigzag encode: signed to unsigned. -/
def zz (n : Int) : Int := if 0 ≤ n then 2 * n else -2 * n - 1

/-- Zigzag decode: unsigned to signed. -/
def unzz (z : Int) : Int := if z % 2 = 0 then z / 2 else -((z + 1) / 2)

/-! ## The Rex-C value model (modelled from the spec)

Modelled from the spec: the Value data model of §3 — scalars, places,
containers, operators and control-flow forms.  Pointers are deliberately
not a variant: the spec calls them an encoding-only artifact that never
surfaces as a value.  The arity constraints the format documents
(When/Unless take a condition, a then-branch and an optional else; Alt/All
take at least one expression; Set takes exactly a place and a value;
Delete exactly a place) are intrinsic to the constructors.  Child lists
are the mutually-inductive `VList`/`PList`/`VOpt` so that all recursion
stays structural. -/

mutual
inductive Value where
  | integer (n : Int)
  | decimal (p s : Int)
  | bare (cs : List (Fin 64))
  | raw (bs : List Nat)
  | opcode (n : Nat)
  | ref (n : Nat)
  | varv (cs : List (Fin 64))
  | arr (vs : VList)
  | obj (ps : PList)
  | call (vs : VList)
  | setv (pl v : Value)
  | delv (pl : Value)
  | whenv (c th : Value) (e : VOpt)
  | unlessv (c th : Value) (e : VOpt)
  | altv (h : Value) (tl : VList)
  | allv (h : Value) (tl : VList)
inductive VList where
  | nil
  | cons (v : Value) (vs : VList)
inductive PList where
  | nil
  | cons (k v : Value) (ps : PList)
inductive VOpt where
  | onone
  | osome (v : Value)
end

deriving instance DecidableEq for Value
deriving instance DecidableEq for VList
deriving instance DecidableEq for PList
deriving instance DecidableEq for VOpt

/-- Digit value sequence (base-64 big-endian, minimal, zero = empty) with
fuel for structural recursion; `digitsOf` supplies sufficient fuel. -/
def digitsGo : Nat → Nat → List Nat
  | 0, _ => []
  | f + 1, n => if n = 0 then [] else digitsGo f (n / 64) ++ [n % 64]

/-- Canonical digit values of `n` (most significant first). -/
def digitsOf (n : Nat) : List Nat := digitsGo n n

/-- Digit value to character code, through the alphabet table. -/
def alphaCode (d : Nat) : Nat := DIGITS.getD d 0

/-- Canonical digit characters of `n`. -/
def digitsN (n : Nat) : List Nat := (digitsOf n).map alphaCode

/-- Canonical digit characters of a zigzagged integer. -/
def digitsZ (n : Int) : List Nat := digitsN (zz n).toNat

/-- The numeric value of a digit value sequence (left fold). -/
def valOf (ds : List Nat) : Nat := ds.foldl (fun a d => a * 64 + d) 0

/-- Containers need a byte-length prefix in skip positions; scalars and the
raw string never do (spec §4.6). -/
def isCont : Value → Bool
  | .arr _ | .obj _ | .call _ | .setv _ _ | .delv _
  | .whenv _ _ _ | .unlessv _ _ _ | .altv _ _ | .allv _ _ => true
  | _ => false

/-- Opener/closer byte count of a container (what a byte-length prefix
does not cover). -/
def overhead : Value → Nat
  | .arr _ | .obj _ | .call _ => 2
  | .setv _ _ | .delv _ => 1
  | .whenv _ _ _ | .unlessv _ _ _ | .altv _ _ | .allv _ _ => 3
  | _ => 0

/-- Add the byte-length prefix to already-encoded bytes when the value is a
container (the skip-position policy of spec §4.6). -/
def prefIf (v : Value) (e : List Nat) : List Nat :=
  if isCont v then digitsN (e.length - overhead v) ++ e else e

/-! ## Encoder (modelled from the spec)

Modelled from the spec: the Rex-C encoder of §4.2–§4.6 — scalar tokens
`<digits><tag>`, containers with delimiters, the skip-prefix policy table.
The deduplication and indexing thresholds are encoder policy (spec §9);
this encoder takes both thresholds as never met, so output contains no
pointers and no indexes (the dedup emission algorithm of §4.4 is modelled
separately below for its pointer invariants). -/

mutual
def enc : Value → List Nat
  | .integer n => digitsZ n ++ [43]
  | .decimal p s => digitsZ p ++ 42 :: (digitsZ s ++ [43])
  | .bare cs => cs.map (fun d => alphaCode d.val) ++ [58]
  | .raw bs => digitsN bs.length ++ 44 :: bs
  | .opcode n => digitsN n ++ [37]
  | .ref n => digitsN n ++ [64]
  | .varv cs => cs.map (fun d => alphaCode d.val) ++ [36]
  | .arr vs => 91 :: (encElems vs ++ [93])
  | .obj ps => 123 :: (encPairs ps ++ [125])
  | .call vs => 40 :: (encArgs vs ++ [41])
  | .setv pl v => 61 :: (enc pl ++ enc v)
  | .delv pl => 126 :: enc pl
  | .whenv c th e => 63 :: 40 :: (enc c ++ prefIf th (enc th) ++ encOpt e ++ [41])
  | .unlessv c th e => 33 :: 40 :: (enc c ++ prefIf th (enc th) ++ encOpt e ++ [41])
  | .altv h tl => 124 :: 40 :: (enc h ++ encElems tl ++ [41])
  | .allv h tl => 38 :: 40 :: (enc h ++ encElems tl ++ [41])
def encElems : VList → List Nat
  | .nil => []
  | .cons v vs => prefIf v (enc v) ++ encElems vs
def encArgs : VList → List Nat
  | .nil => []
  | .cons v vs => enc v ++ encArgs vs
def encPairs : PList → List Nat
  | .nil => []
  | .cons k v ps => enc k ++ prefIf v (enc v) ++ encPairs ps
def encOpt : VOpt → List Nat
  | .onone => []
  | .osome v => prefIf v (enc v)
end

/-- Skip-position encoding of one value. -/
def encS (v : Value) : List Nat := prefIf v (enc v)

/-! `sz` is the fuel the decoder needs for a value (claim C1's proof
bounds it by the encoding length). -/

mutual
def sz : Value → Nat
  | .integer _ | .bare _ | .raw _ | .opcode _ | .ref _ | .varv _ => 1
  | .decimal _ _ => 2
  | .arr vs => 1 + szL vs
  | .obj ps => 1 + szP ps
  | .call vs => 1 + szL vs
  | .setv pl v => 1 + sz pl + sz v
  | .delv pl => 1 + sz pl
  | .whenv c th e => 3 + sz c + sz th + szO e
  | .unlessv c th e => 3 + sz c + sz th + szO e
  | .altv h tl => 2 + sz h + szL tl
  | .allv h tl => 2 + sz h + szL tl
def szL : VList → Nat
  | .nil => 1
  | .cons v vs => 1 + sz v + szL vs
def szP : PList → Nat
  | .nil => 1
  | .cons k v ps => 2 + sz k + sz v + szP ps
def szO : VOpt → Nat
  | .onone => 1
  | .osome v => 2 + sz v
end

/-- Convert a decoded child list back to the model's list spine. -/
def VList.ofList : List Value → VList
  | [] => .nil
  | v :: vs => .cons v (VList.ofList vs)

/-- The model's list spine as a `List`. -/
def VList.toList : VList → List Value
  | .nil => []
  | .cons v vs => v :: VList.toList vs

/-- Re-pair the alternating key/value items of an object body; odd item
counts are a decode error. -/
def pairUp : List Value → Option PList
  | [] => some .nil
  | _ :: [] => none
  | k :: v :: r => (pairUp r).map (PList.cons k v)

/-! ## Decoder (modelled from the spec)

Modelled from the spec: the decoder of §4.2/§4.3/§4.7 — one token per
value, maximal digit run then tag dispatch, containers parsed to the
matching closer (a byte-length prefix before an opener is read as a digit
run and skipped — the decoder recurses rather than fast-skipping),
pointers resolved transparently forward with a chain check, arity checks
on control flow and Set/Delete, `none` for every decode error of §7. -/

/-- First index at or after `p` that does not hold a digit character. -/
def digEndGo (buf : List Nat) : Nat → Nat → Nat
  | 0, p => p
  | f + 1, p => if p < buf.length ∧ isDigitCode (buf.getD p 0) then digEndGo buf f (p + 1) else p

/-- End of the maximal digit run starting at `p`. -/
def digEnd (buf : List Nat) (p : Nat) : Nat := digEndGo buf (buf.length + 1) p

/-- Fin-64 digit value of an alphabet character (used for bare string and
variable content). -/
def digit64 (c : Nat) : Fin 64 := ⟨(digitValue c).toNat % 64, Nat.mod_lt _ (by omega)⟩

/-- The content characters of a run, as digit values. -/
def runVals (buf : List Nat) (p q : Nat) : List (Fin 64) :=
  (List.range' p (q - p)).map (fun i => digit64 (buf.getD i 0))

mutual
/-- Decode one value at byte offset `p`: `some (v, next)` or a decode
error.  Fuel decreases at every recursive call; `decode` supplies enough
(claim C1's proof shows the encoding length suffices). -/
def decOne (buf : List Nat) : Nat → Nat → Option (Value × Nat)
  | 0, _ => none
  | f + 1, p =>
    let q := digEnd buf p
    if q < buf.length then
      let c := buf.getD q 0
      if c = 43 then some (.integer (unzz (decodeRun buf p q)), q + 1)
      else if c = 42 then
        match decOne buf f (q + 1) with
        | some (.integer s, r) => some (.decimal (unzz (decodeRun buf p q)) s, r)
        | _ => none
      else if c = 58 then some (.bare (runVals buf p q), q + 1)
      else if c = 37 then some (.opcode (decodeRun buf p q).toNat, q + 1)
      else if c = 64 then some (.ref (decodeRun buf p q).toNat, q + 1)
      else if c = 36 then some (.varv (runVals buf p q), q + 1)
      else if c = 94 then
        let tgt := q + 1 + (decodeRun buf p q).toNat
        if tgt < buf.length then
          let qt := digEnd buf tgt
          if qt < buf.length ∧ buf.getD qt 0 = 94 then none
          else
            match decOne buf f tgt with
            | some (v, _) => some (v, q + 1)
            | none => none
        else none
      else if c = 44 then
        let n := (decodeRun buf p q).toNat
        if q + 1 + n ≤ buf.length then
          some (.raw ((List.range' (q + 1) n).map (fun i => buf.getD i 0)), q + 1 + n)
        else none
      else if c = 91 then
        match decSeq buf 93 f (q + 1) with
        | some (l, r) => some (.arr (VList.ofList l), r)
        | none => none
      else if c = 123 then
        match decSeq buf 125 f (q + 1) with
        | some (l, r) =>
          match pairUp l with
          | some ps => some (.obj ps, r)
          | none => none
        | none => none
      else if c = 40 then
        match decSeq buf 41 f (q + 1) with
        | some (l, r) => some (.call (VList.ofList l), r)
        | none => none
      else if c = 61 then
        match decOne buf f (q + 1) with
        | some (pl, r1) =>
          match decOne buf f r1 with
          | some (v, r2) => some (.setv pl v, r2)
          | none => none
        | none => none
      else if c = 126 then
        match decOne buf f (q + 1) with
        | some (pl, r) => some (.delv pl, r)
        | none => none
      else if c = 63 ∨ c = 33 ∨ c = 124 ∨ c = 38 then
        if q + 1 < buf.length ∧ buf.getD (q + 1) 0 = 40 then
          match decSeq buf 41 f (q + 2) with
          | some (l, r) =>
            if c = 63 ∨ c = 33 then
              match l with
              | [cnd, th] =>
                some (if c = 63 then .whenv cnd th .onone else .unlessv cnd th .onone, r)
              | [cnd, th, e] =>
                some (if c = 63 then .whenv cnd th (.osome e) else .unlessv cnd th (.osome e), r)
              | _ => none
            else
              match l with
              | [] => none
              | h :: tl =>
                some (if c = 124 then .altv h (VList.ofList tl) else .allv h (VList.ofList tl), r)
          | none => none
        else none
      else none
    else none

/-- Decode the children of a container body until its closing delimiter. -/
def decSeq (buf : List Nat) (closer : Nat) : Nat → Nat → Option (List Value × Nat)
  | 0, _ => none
  | f + 1, p =>
    if p < buf.length then
      if buf.getD p 0 = closer then some ([], p + 1)
      else
        match decOne buf f p with
        | some (v, r) =>
          match decSeq buf closer f r with
          | some (l, r2) => some (v :: l, r2)
          | none => none
        | none => none
    else none
end

/-- Decode a whole buffer: one value consuming the entire input (the fuel
is sufficient for any encoder output — claim C1's proof bounds the fuel a
value needs by twice its encoding length). -/
def decode (buf : List Nat) : Option Value :=
  match decOne buf (2 * buf.length + 1) 0 with
  | some (v, r) => if r = buf.length then some v else none
  | none => none

/-- One encoded child in a container body: plain (`false`) or in a skip
position (`true`, byte-length-prefixed when a container). -/
def segB (b : Bool) (v : Value) : List Nat :=
  if b then prefIf v (enc v) else enc v

/-- Concatenated encoding of a container body, as a list of children each
tagged with its skip-position flag. -/
def concatSegs : List (Bool × Value) → List Nat
  | [] => []
  | (b, v) :: r => segB b v ++ concatSegs r

/-- Object bodies flatten to alternating bare keys and prefixed values. -/
def flatP : PList → List (Bool × Value)
  | .nil => []
  | .cons k v r => (false, k) :: (true, v) :: flatP r

/-- The optional else branch as a (possibly empty) segment list. -/
def optSegs : VOpt → List (Bool × Value)
  | .onone => []
  | .osome v => [(true, v)]

/-- Tagged segments of a value list. -/
def segsOf (b : Bool) : VList → List (Bool × Value)
  | .nil => []
  | .cons v vs => (b, v) :: segsOf b vs

/-- Fuel the decoder's child-sequence loop needs for a segment list. -/
def szSegs : List (Bool × Value) → Nat
  | [] => 1
  | (_, v) :: r => 1 + sz v + szSegs r

/-! ## Dedup emission (modelled from the spec)

Modelled from the spec: the pointer-deduplication emission of §4.4 — a
candidate subvalue's bytes are placed at its canonical occurrence, every
other occurrence becomes a forward pointer, and no pointer ever targets
another pointer.  `emitD` walks the tree with later siblings first, so a
value's canonical occurrence is the last one in serialization order and
is already present (to the right) whenever a pointer to it is emitted;
`resolveItems` then resolves each pointer's byte offset from the sizes of
the already-resolved chunks between the pointer and its target, the
relocation pass of §4.4/§9.  The candidate set `cand` is the encoder
policy parameter of §9, arbitrary here. -/

/-- Serialization items before pointer-offset resolution: literal token
bytes (`m` marks the canonical occurrence of a dedup candidate) or an
unresolved pointer. -/
inductive Item where
  | lit (bs : List Nat) (m : Option Value)
  | ptr (tgt : Value)

deriving instance DecidableEq for Item

/-- Emission state: the items already emitted (these follow, in final
order, everything still to be emitted) and the values whose canonical
occurrence is among them. -/
structure EmSt where
  items : List Item
  seen : List Value

/-- The emission-side invariant behind the pointer guarantees: every
literal item is nonempty and does not begin with the pointer tag `94`;
every seen value has a marked canonical literal among the items; and every
pointer item has, further to the right (a larger index is later in the
serialized buffer), a literal item marked as its target's canonical
occurrence. -/
def EmOK (st : EmSt) : Prop :=
  (∀ bs m, Item.lit bs m ∈ st.items → bs ≠ [] ∧ bs.headD 0 ≠ 94) ∧
  (∀ w ∈ st.seen, ∃ bs, Item.lit bs (some w) ∈ st.items) ∧
  (∀ i tgt, i < st.items.length → st.items.getD i (.lit [] none) = .ptr tgt →
    ∃ j, i < j ∧ j < st.items.length ∧
      ∃ bs, st.items.getD j (.lit [] none) = Item.lit bs (some tgt))

mutual
/-- Emit `v` in front of the already-emitted state: a pointer when `v` is a
candidate whose canonical occurrence is already placed, its literal
serialization otherwise. -/
def emitV (cand : Value → Bool) : Value → EmSt → EmSt
  | v, st =>
    if cand v ∧ st.seen.any (fun w => w == v) then
      ⟨.ptr v :: st.items, st.seen⟩
    else
      let m : Option Value := if cand v then some v else none
      let seen1 := fun (st1 : EmSt) => if cand v then v :: st1.seen else st1.seen
      match v with
      | .arr vs =>
        let st1 := emitVL cand vs ⟨.lit [93] none :: st.items, st.seen⟩
        ⟨.lit [91] m :: st1.items, seen1 st1⟩
      | .obj ps =>
        let st1 := emitPL cand ps ⟨.lit [125] none :: st.items, st.seen⟩
        ⟨.lit [123] m :: st1.items, seen1 st1⟩
      | .call vs =>
        let st1 := emitVL cand vs ⟨.lit [41] none :: st.items, st.seen⟩
        ⟨.lit [40] m :: st1.items, seen1 st1⟩
      | .setv pl w =>
        let st1 := emitV cand pl (emitV cand w st)
        ⟨.lit [61] m :: st1.items, seen1 st1⟩
      | .delv pl =>
        let st1 := emitV cand pl st
        ⟨.lit [126] m :: st1.items, seen1 st1⟩
      | .whenv c th e =>
        let st1 := emitV cand c (emitV cand th (emitVO cand e ⟨.lit [41] none :: st.items, st.seen⟩))
        ⟨.lit [63, 40] m :: st1.items, seen1 st1⟩
      | .unlessv c th e =>
        let st1 := emitV cand c (emitV cand th (emitVO cand e ⟨.lit [41] none :: st.items, st.seen⟩))
        ⟨.lit [33, 40] m :: st1.items, seen1 st1⟩
      | .altv h tl =>
        let st1 := emitV cand h (emitVL cand tl ⟨.lit [41] none :: st.items, st.seen⟩)
        ⟨.lit [124, 40] m :: st1.items, seen1 st1⟩
      | .allv h tl =>
        let st1 := emitV cand h (emitVL cand tl ⟨.lit [41] none :: st.items, st.seen⟩)
        ⟨.lit [38, 40] m :: st1.items, seen1 st1⟩
      | w => ⟨.lit (enc w) m :: st.items, if cand v then v :: st.seen else st.seen⟩
def emitVL (cand : Value → Bool) : VList → EmSt → EmSt
  | .nil, st => st
  | .cons v vs, st => emitV cand v (emitVL cand vs st)
def emitPL (cand : Value → Bool) : PList → EmSt → EmSt
  | .nil, st => st
  | .cons k v ps, st => emitV cand k (emitV cand v (emitPL cand ps st))
def emitVO (cand : Value → Bool) : VOpt → EmSt → EmSt
  | .onone, st => st
  | .osome v, st => emitV cand v st
end

/-- A resolved chunk: the bytes of one token, with the canonical marker
carried over from its item. -/
def chunkBytes (c : List Nat × Option Value) : List Nat := c.1

/-- Byte distance from the front of `cs` to the first chunk marked as the
canonical occurrence of `v`. -/
def offsetTo (v : Value) : List (List Nat × Option Value) → Nat
  | [] => 0
  | c :: rest => if c.2 = some v then 0 else c.1.length + offsetTo v rest

/-- Resolve pointer offsets right to left: each item's bytes depend only on
the chunks that follow it. -/
def resolveItems : List Item → List (List Nat × Option Value)
  | [] => []
  | .lit bs m :: rest => (bs, m) :: resolveItems rest
  | .ptr v :: rest =>
    let cs := resolveItems rest
    (digitsN (offsetTo v cs) ++ [94], none) :: cs

/-- The dedup items of a whole value. -/
def dedupItems (cand : Value → Bool) (v : Value) : List Item :=
  (emitV cand v ⟨[], []⟩).items

/-- The encoder output with dedup pointers, as bytes. -/
def dedupEncode (cand : Value → Bool) (v : Value) : List Nat :=
  ((resolveItems (dedupItems cand v)).map (fun c => c.1)).flatten

/-- Total byte size of the first `n` chunks (the byte offset of chunk `n`
in the rendered output). -/
def chunkPos (cs : List (List Nat × Option Value)) (n : Nat) : Nat :=
  ((cs.take n).map (fun c => c.1.length)).sum

/-- The slice of character codes `[p, p+k)` of a text. -/
def sliceD (t : List Nat) (p k : Nat) : List Nat :=
  (List.range' p k).map (fun i => t.getD i 0)

/-- The (line, column) coordinates of byte position `p` of a text — what
the tokenizer's `line`/`col` counters track. -/
def lcAt (t : List Nat) : Nat → Nat × Nat
  | 0 => (0, 0)
  | p + 1 =>
    if t.getD p 0 = 10 then ((lcAt t p).1 + 1, 0) else ((lcAt t p).1, (lcAt t p).2 + 1)

/-- A well-formed emitted token: positive length, and its span starts at a
real position of the text and stays inside it. -/
def TokOK (t : List Nat) (tok : Token) : Prop :=
  1 ≤ tok.length ∧ ∃ p, lcAt t p = (tok.line, tok.char) ∧ p + tok.length ≤ t.length

/-- Tokenizer state invariant: the position is in bounds, the line/column
counters agree with the position, and every emitted token is well formed. -/
def Inv (t : List Nat) (s : LexSt) : Prop :=
  s.pos ≤ t.length ∧ lcAt t s.pos = (s.line, s.col) ∧ ∀ tok ∈ s.toks, TokOK t tok

/-- What every tokenizer step guarantees: the position moves weakly
forward and stays in bounds, tokens are only appended, and the
`objectKeyMode` flag is untouched. -/
def StepOK (t : List Nat) (s s' : LexSt) : Prop :=
  s.pos ≤ s'.pos ∧ s'.okm = s.okm ∧ s.toks <+: s'.toks ∧
    (s.pos ≤ t.length → s'.pos ≤ t.length)

/-- Fuel sufficient for `run` as a function of the remaining distance to
the end of the text (claim C9). -/
def fuelNeed : LexMode → Nat → Nat
  | .one, d => 2 * d + 1
  | _, d => 2 * d + 2

/-!
# Theorems

Helper lemmas first, then one theorem per claim (witnesses and
counterexamples next to their claims).
-/

/-! ## Digit alphabet lemmas -/

theorem mem_DIGITS {c : Nat} :
    c ∈ DIGITS ↔ (48 ≤ c ∧ c ≤ 57) ∨ (97 ≤ c ∧ c ≤ 122) ∨ (65 ≤ c ∧ c ≤ 90) ∨ c = 45 ∨ c = 95 := by
  simp only [DIGITS, List.mem_append, List.mem_map, List.mem_range, List.mem_cons,
    List.mem_singleton, List.not_mem_nil, or_false]
  constructor
  · rintro (((⟨i, hi, rfl⟩ | ⟨i, hi, rfl⟩) | ⟨i, hi, rfl⟩) | h | h) <;> omega
  · rintro (⟨h1, h2⟩ | ⟨h1, h2⟩ | ⟨h1, h2⟩ | rfl | rfl)
    · exact .inl (.inl (.inl ⟨c - 48, by omega, by omega⟩))
    · exact .inl (.inl (.inr ⟨c - 97, by omega, by omega⟩))
    · exact .inl (.inr ⟨c - 65, by omega, by omega⟩)
    · exact .inr (.inl rfl)
    · exact .inr (.inr rfl)

theorem digitValue_agrees_not_mem {c : Nat} (h : c ∉ DIGITS) : digitValue c = -1 := by
  rw [mem_DIGITS] at h
  push_neg at h
  unfold digitValue
  split
  · omega
  · split
    · omega
    · split
      · omega
      · split
        · omega
        · split
          · omega
          · rfl

theorem digitValue_mem_bounds {c : Nat} (h : c ∈ DIGITS) :
    0 ≤ digitValue c ∧ digitValue c < 64 := by
  rw [mem_DIGITS] at h
  unfold digitValue
  split <;> [omega; split] <;> [omega; split] <;> [omega; split] <;> [omega; split] <;> omega

theorem digitValue_alphaCode : ∀ d, d < 64 → digitValue (alphaCode d) = (d : Int) := by decide

theorem alphaCode_mem : ∀ d, d < 64 → alphaCode d ∈ DIGITS := by decide

theorem digitValue_indexOf_mem : ∀ c ∈ DIGITS, digitValue c = (DIGITS.indexOf c : Int) := by
  decide

/-! ## Canonical digit string lemmas -/

theorem digitsGo_fuel : ∀ n f₁ f₂, n ≤ f₁ → n ≤ f₂ → digitsGo f₁ n = digitsGo f₂ n := by
  intro n
  induction n using Nat.strong_induction_on with
  | _ n ih =>
    intro f₁ f₂ h₁ h₂
    match f₁, f₂ with
    | 0, 0 => rfl
    | 0, g + 1 =>
      interval_cases n
      simp [digitsGo]
    | g + 1, 0 =>
      interval_cases n
      simp [digitsGo]
    | g₁ + 1, g₂ + 1 =>
      by_cases hn : n = 0
      · simp [digitsGo, hn]
      · have hd : n / 64 < n := Nat.div_lt_self (by omega) (by omega)
        simp only [digitsGo, hn, if_false]
        rw [ih (n / 64) hd g₁ (n / 64) (by omega) (le_refl _),
          ih (n / 64) hd g₂ (n / 64) (by omega) (le_refl _)]

theorem digitsOf_pos {n : Nat} (h : n ≠ 0) :
    digitsOf n = digitsOf (n / 64) ++ [n % 64] := by
  obtain ⟨m, rfl⟩ : ∃ m, n = m + 1 := ⟨n - 1, by omega⟩
  simp only [digitsOf, digitsGo, h, if_false]
  rw [digitsGo_fuel ((m + 1) / 64) m ((m + 1) / 64)
    (by have := Nat.div_lt_self (show 0 < m + 1 by omega) (show 1 < 64 by omega); omega)
    (le_refl _)]

theorem digitsOf_lt : ∀ n d, d ∈ digitsOf n → d < 64 := by
  intro n
  induction n using Nat.strong_induction_on with
  | _ n ih =>
    intro d hd
    by_cases hn : n = 0
    · subst hn; simp [digitsOf, digitsGo] at hd
    · rw [digitsOf_pos hn] at hd
      rcases List.mem_append.mp hd with h | h
      · exact ih (n / 64) (Nat.div_lt_self (by omega) (by omega)) d h
      · simp only [List.mem_singleton] at h
        subst h
        exact Nat.mod_lt _ (by omega)

theorem valOf_append_singleton (l : List Nat) (d : Nat) :
    valOf (l ++ [d]) = 64 * valOf l + d := by
  simp [valOf, List.foldl_append, Nat.mul_comm]

theorem valOf_digitsOf : ∀ n, valOf (digitsOf n) = n := by
  intro n
  induction n using Nat.strong_induction_on with
  | _ n ih =>
    by_cases hn : n = 0
    · subst hn; rfl
    · rw [digitsOf_pos hn, valOf_append_singleton,
        ih (n / 64) (Nat.div_lt_self (by omega) (by omega))]
      omega

/-! ## `decodeRun` lemmas -/

theorem decodeRun_eq_slice (t : List Nat) (p q : Nat) :
    decodeRun t p q = (sliceD t p (q - p)).foldl (fun v c => v * 64 + digitValue c) 0 := by
  rw [decodeRun, sliceD, List.foldl_map]

theorem decodeRun_self (t : List Nat) (p : Nat) : decodeRun t p p = 0 := by
  simp [decodeRun]

theorem sliceD_append (pre l post : List Nat) :
    sliceD (pre ++ l ++ post) pre.length l.length = l := by
  induction l generalizing pre with
  | nil => rfl
  | cons d l' ih =>
    have hcons : sliceD (pre ++ d :: l' ++ post) pre.length (d :: l').length =
        (pre ++ d :: l' ++ post).getD pre.length 0 ::
          sliceD (pre ++ d :: l' ++ post) (pre.length + 1) l'.length := by
      simp [sliceD, List.range'_succ]
    rw [hcons]
    have hh : (pre ++ d :: l' ++ post).getD pre.length 0 = d := by
      rw [List.append_assoc, List.getD_append_right _ _ _ _ (le_refl _)]
      simp
    have ht : sliceD (pre ++ d :: l' ++ post) (pre.length + 1) l'.length = l' := by
      have h2 : pre ++ d :: l' ++ post = (pre ++ [d]) ++ l' ++ post := by simp
      have h3 : pre.length + 1 = (pre ++ [d]).length := by simp
      rw [h2, h3]
      exact ih (pre ++ [d])
    rw [hh, ht]

theorem foldl_digitValue_alphaCode (ds : List Nat) (hd : ∀ d ∈ ds, d < 64) (a : Nat) :
    (ds.map alphaCode).foldl (fun v c => v * 64 + digitValue c) (a : Int) =
      ((ds.foldl (fun x d => x * 64 + d) a : Nat) : Int) := by
  induction ds generalizing a with
  | nil => rfl
  | cons d ds' ih =>
    simp only [List.map_cons, List.foldl_cons]
    rw [digitValue_alphaCode d (hd d (by simp)),
      show (a : Int) * 64 + d = ((a * 64 + d : Nat) : Int) by push_cast; ring]
    exact ih (fun x hx => hd x (by simp [hx])) _

theorem decodeRun_render (pre post : List Nat) (ds : List Nat) (hd : ∀ d ∈ ds, d < 64) :
    decodeRun (pre ++ ds.map alphaCode ++ post) pre.length (pre.length + ds.length) =
      (valOf ds : Int) := by
  rw [decodeRun_eq_slice]
  have h1 : pre.length + ds.length - pre.length = (ds.map alphaCode).length := by simp
  rw [h1, sliceD_append pre (ds.map alphaCode) post]
  exact foldl_digitValue_alphaCode ds hd 0

theorem decodeRun_digitsN (pre post : List Nat) (n : Nat) :
    decodeRun (pre ++ digitsN n ++ post) pre.length (pre.length + (digitsN n).length) =
      (n : Int) := by
  have h := decodeRun_render pre post (digitsOf n) (digitsOf_lt n)
  rw [valOf_digitsOf] at h
  simpa [digitsN] using h

/-! ## Claim C3 -/

/-- C3: for every run of alphabet characters, digit decoding is the
big-endian base-64 left fold `v = v*64 + digit_value(c)`, where
`digit_value` maps the 64 symbols in fixed order `0-9, a-z, A-Z, -, _`
(the order of the `DIGITS` table) to the values 0 through 63, and the
empty digit run decodes to 0. -/
theorem digit_fold_spec (t : List Nat) (p q : Nat)
    (hall : ∀ k, p ≤ k → k < q → t.getD k 0 ∈ DIGITS) :
    decodeRun t p q =
      (sliceD t p (q - p)).foldl (fun v c => v * 64 + (DIGITS.indexOf c : Int)) 0 ∧
    (∀ d, d < 64 → digitValue (DIGITS.getD d 0) = (d : Int)) ∧
    decodeRun t p p = 0 := by
  refine ⟨?_, digitValue_alphaCode, decodeRun_self t p⟩
  rw [decodeRun_eq_slice]
  apply List.foldl_ext
  intro a c hc
  obtain ⟨i, hi, rfl⟩ := List.mem_map.mp hc
  have hm := List.mem_range'_1.mp hi
  rw [digitValue_indexOf_mem _ (hall i hm.1 (by omega))]

/-- Witness for C3 at the concrete run `"1k"` (decoding to 84). -/
theorem digit_fold_spec_witness :
    (∀ k, 0 ≤ k → k < 2 → ([49, 107] : List Nat).getD k 0 ∈ DIGITS) ∧
    (decodeRun [49, 107] 0 2 =
      (sliceD [49, 107] 0 2).foldl (fun v c => v * 64 + (DIGITS.indexOf c : Int)) 0 ∧
    (∀ d, d < 64 → digitValue (DIGITS.getD d 0) = (d : Int)) ∧
    decodeRun [49, 107] 0 0 = 0) :=
  ⟨by decide, digit_fold_spec [49, 107] 0 2 (by decide)⟩

/-! ## Claim C4 (corrected)

The claim says decoding a digit run fails with an `InvalidDigit` error when
a character lies outside the alphabet.  The tokenizer's `decodePrefix`
(embedded as `decodeRun`) has no error channel at all: `digitValue` returns
the sentinel `-1` for out-of-alphabet characters and `decodePrefix` folds
that sentinel into a numeric result. -/

/-- C4 counterexample: on the one-character run `"."` (code 46, outside the
alphabet) the digit decoder returns the numeric value `-1` — it does not
fail. -/
theorem decodeRun_no_error_counterexample :
    decodeRun [46] 0 1 = -1 ∧ (46 : Nat) ∉ DIGITS := by decide

/-- C4 amended: for every character outside the 64-symbol alphabet,
`digitValue` returns the sentinel `-1` (and decoding a run containing it
folds the sentinel into a numeric result instead of failing); alphabet
characters always get a value in `[0, 64)`. -/
theorem digitValue_sentinel (c : Nat) (h : c ∉ DIGITS) :
    digitValue c = -1 ∧ decodeRun [c] 0 1 = -1 ∧
    ∀ c' ∈ DIGITS, 0 ≤ digitValue c' ∧ digitValue c' < 64 := by
  refine ⟨digitValue_agrees_not_mem h, ?_, fun c' hc' => digitValue_mem_bounds hc'⟩
  show (List.range' 0 1).foldl (fun v i => v * 64 + digitValue (([c] : List Nat).getD i 0)) 0 = -1
  simp [List.range', digitValue_agrees_not_mem h]

/-- Witness for C4's amended theorem at `c = 46`. -/
theorem digitValue_sentinel_witness :
    digitValue 46 = -1 ∧ decodeRun [46] 0 1 = -1 ∧
    ∀ c' ∈ DIGITS, 0 ≤ digitValue c' ∧ digitValue c' < 64 :=
  digitValue_sentinel 46 (by decide)

/-! ## Claim C5 -/

/-- C5: the zigzag mapping is a bijection between signed and unsigned
integers — `unzz (zz n) = n` for every integer, `zz (unzz z) = z` for
every non-negative `z` — with `zz`/`unzz` exactly as specified, and the
encoder applies the same `zz` both to integer values and to decimal
powers. -/
theorem zigzag_bijection :
    (∀ n : Int, unzz (zz n) = n) ∧
    (∀ z : Int, 0 ≤ z → zz (unzz z) = z) ∧
    (∀ n : Int, enc (.integer n) = digitsN (zz n).toNat ++ [43]) ∧
    (∀ p s : Int,
      enc (.decimal p s) = digitsN (zz p).toNat ++ 42 :: (digitsN (zz s).toNat ++ [43])) := by
  refine ⟨fun n => ?_, fun z hz => ?_, fun n => ?_, fun p s => ?_⟩
  · unfold zz unzz; split <;> split <;> omega
  · unfold zz unzz; split <;> split <;> omega
  · simp [enc, digitsZ]
  · simp [enc, digitsZ]

/-- Witness for C5 at `n = -42` and `z = 84`. -/
theorem zigzag_bijection_witness :
    unzz (zz (-42)) = -42 ∧ (0 ≤ (84 : Int)) ∧ zz (unzz 84) = 84 :=
  ⟨zigzag_bijection.1 (-42), by decide, zigzag_bijection.2.1 84 (by decide)⟩

/-! ## Tokenizer step lemmas -/

theorem advance_pos (t : List Nat) (s : LexSt) : (advance t s).pos = s.pos + 1 := by
  unfold advance; split <;> rfl

theorem advance_toks (t : List Nat) (s : LexSt) : (advance t s).toks = s.toks := by
  unfold advance; split <;> rfl

theorem advance_okm (t : List Nat) (s : LexSt) : (advance t s).okm = s.okm := by
  unfold advance; split <;> rfl

theorem emit_pos (l c len ty : Nat) (s : LexSt) : (emit l c len ty s).pos = s.pos := by
  unfold emit; split <;> rfl

theorem emit_line (l c len ty : Nat) (s : LexSt) : (emit l c len ty s).line = s.line := by
  unfold emit; split <;> rfl

theorem emit_col (l c len ty : Nat) (s : LexSt) : (emit l c len ty s).col = s.col := by
  unfold emit; split <;> rfl

theorem emit_okm (l c len ty : Nat) (s : LexSt) : (emit l c len ty s).okm = s.okm := by
  unfold emit; split <;> rfl

theorem emit_toks (l c len ty : Nat) (s : LexSt) :
    (emit l c len ty s).toks = s.toks ++ if 0 < len then [⟨l, c, len, ty⟩] else [] := by
  unfold emit; split <;> simp

theorem stepOK_refl (t : List Nat) (s : LexSt) : StepOK t s s :=
  ⟨le_refl _, rfl, List.prefix_refl _, fun h => h⟩

theorem stepOK_trans {t : List Nat} {s s' s'' : LexSt}
    (h1 : StepOK t s s') (h2 : StepOK t s' s'') : StepOK t s s'' :=
  ⟨le_trans h1.1 h2.1, h2.2.1.trans h1.2.1, h1.2.2.1.trans h2.2.2.1,
    fun h => h2.2.2.2 (h1.2.2.2 h)⟩

theorem stepOK_advance {t : List Nat} {s : LexSt} (h : s.pos < t.length) :
    StepOK t s (advance t s) := by
  refine ⟨by rw [advance_pos]; omega, advance_okm t s, by rw [advance_toks],
    fun _ => by rw [advance_pos]; omega⟩

theorem stepOK_emit (t : List Nat) (l c len ty : Nat) (s : LexSt) :
    StepOK t s (emit l c len ty s) := by
  refine ⟨by rw [emit_pos], emit_okm .., by rw [emit_toks]; exact List.prefix_append _ _,
    fun h => by rw [emit_pos]; exact h⟩

theorem skipToNl_stepOK (t : List Nat) : ∀ f s, StepOK t s (skipToNl t f s) := by
  intro f
  induction f with
  | zero => intro s; exact stepOK_refl t s
  | succ f ih =>
    intro s
    simp only [skipToNl]
    split
    · exact stepOK_trans (stepOK_advance (by omega)) (ih _)
    · exact stepOK_refl t s

theorem skipBlock_stepOK (t : List Nat) : ∀ f s, StepOK t s (skipBlock t f s) := by
  intro f
  induction f with
  | zero => intro s; exact stepOK_refl t s
  | succ f ih =>
    intro s
    simp only [skipBlock]
    split
    · split
      · next h hh =>
        exact stepOK_trans (stepOK_advance h)
          (stepOK_advance (by rw [advance_pos]; omega))
      · exact stepOK_trans (stepOK_advance (by omega)) (ih _)
    · exact stepOK_refl t s

theorem boxRun_stepOK (t : List Nat) : ∀ f s, StepOK t s (boxRun t f s) := by
  intro f
  induction f with
  | zero => intro s; exact stepOK_refl t s
  | succ f ih =>
    intro s
    simp only [boxRun]
    split
    · exact stepOK_trans (stepOK_advance (by omega)) (ih _)
    · exact stepOK_refl t s

theorem annotLine_stepOK (t : List Nat) (al : Nat) : ∀ f s, StepOK t s (annotLine t al f s) := by
  intro f
  induction f with
  | zero => intro s; exact stepOK_refl t s
  | succ f ih =>
    intro s
    simp only [annotLine]
    split
    · split
      · exact stepOK_trans (boxRun_stepOK t _ s)
          (stepOK_trans (stepOK_emit ..) (ih _))
      · exact stepOK_trans (stepOK_advance (by omega)) (ih _)
    · exact stepOK_refl t s

theorem skipNonCode_stepOK (t : List Nat) : ∀ f s, StepOK t s (skipNonCode t f s) := by
  intro f
  induction f with
  | zero => intro s; exact stepOK_refl t s
  | succ f ih =>
    intro s
    simp only [skipNonCode]
    split
    · next h =>
      split
      · exact stepOK_trans (stepOK_advance h) (ih _)
      · split
        · exact stepOK_trans (annotLine_stepOK t _ _ s) (ih _)
        · split
          · exact stepOK_trans (skipToNl_stepOK t _ s) (ih _)
          · split
            · next hb =>
              exact stepOK_trans (stepOK_advance h)
                (stepOK_trans (stepOK_advance (by rw [advance_pos]; omega))
                  (stepOK_trans (skipBlock_stepOK t _ _) (ih _)))
            · exact stepOK_refl t s
    · exact stepOK_refl t s

theorem scanDigits_stepOK (t : List Nat) : ∀ f s, StepOK t s (scanDigits t f s) := by
  intro f
  induction f with
  | zero => intro s; exact stepOK_refl t s
  | succ f ih =>
    intro s
    simp only [scanDigits]
    split
    · exact stepOK_trans (stepOK_advance (by omega)) (ih _)
    · exact stepOK_refl t s

theorem rawScan_stepOK (t : List Nat) : ∀ n cl cc cn s, StepOK t s (rawScan t n cl cc cn s) := by
  intro n
  induction n with
  | zero => intro cl cc cn s; exact stepOK_emit ..
  | succ n ih =>
    intro cl cc cn s
    simp only [rawScan]
    split
    · next h =>
      split
      · exact stepOK_trans (stepOK_emit ..)
          (stepOK_trans (stepOK_advance (by rw [emit_pos]; omega)) (ih ..))
      · exact stepOK_trans (stepOK_advance h) (ih ..)
    · exact stepOK_emit ..

theorem dataSkip_stepOK (t : List Nat) : ∀ n s, StepOK t s (dataSkip t n s) := by
  intro n
  induction n with
  | zero => intro s; exact stepOK_refl t s
  | succ n ih =>
    intro s
    simp only [dataSkip]
    split
    · exact stepOK_trans (stepOK_advance (by omega)) (ih _)
    · exact stepOK_refl t s

theorem tryParseIndex_stepOK (t : List Nat) (s : LexSt) : StepOK t s (tryParseIndex t s) := by
  simp only [tryParseIndex]
  set s1 := scanDigits t (t.length + 1) s with hs1
  split
  · next hc =>
    set s2 := advance t s1 with hs2
    set s3 := (if s2.pos < t.length ∧ isDigitCode (t.getD s2.pos 0) = true then
        ((digitValue (t.getD s2.pos 0)).toNat, advance t s2) else ((0 : Nat), s2)) with hs3
    have A : StepOK t s s1 := scanDigits_stepOK t _ s
    have B : StepOK t s1 s2 := stepOK_advance hc.1
    have C : StepOK t s2 s3.2 := by
      rw [hs3]
      split
      · next h2 => exact stepOK_advance h2.1
      · exact stepOK_refl t s2
    refine stepOK_trans A (stepOK_trans B (stepOK_trans C ?_))
    split
    · exact stepOK_trans (stepOK_emit ..) (stepOK_trans (dataSkip_stepOK ..) (stepOK_emit ..))
    · exact stepOK_emit ..
  · have h1 := scanDigits_stepOK t (t.length + 1) s
    exact ⟨le_refl _, h1.2.1, h1.2.2.1, fun h => h⟩

/-! ## Tokenizer invariant lemmas -/

theorem lcAt_advance {t : List Nat} {s : LexSt} (h : lcAt t s.pos = (s.line, s.col)) :
    lcAt t (s.pos + 1) = ((advance t s).line, (advance t s).col) := by
  unfold advance
  split <;> simp_all [lcAt]

theorem advance_line_ne10 {t : List Nat} (s : LexSt) (h : t.getD s.pos 0 ≠ 10) :
    (advance t s).line = s.line := by
  unfold advance
  split
  · next h2 => exact absurd h2 h
  · rfl

theorem advance_inv {t : List Nat} {s : LexSt} (hp : s.pos < t.length) (h : Inv t s) :
    Inv t (advance t s) :=
  ⟨by rw [advance_pos]; omega,
   by rw [advance_pos]; exact lcAt_advance h.2.1,
   by rw [advance_toks]; exact h.2.2⟩

theorem emit_inv {t : List Nat} {l c len ty : Nat} {s : LexSt}
    (htok : 0 < len → ∃ p, lcAt t p = (l, c) ∧ p + len ≤ t.length) (h : Inv t s) :
    Inv t (emit l c len ty s) := by
  refine ⟨by rw [emit_pos]; exact h.1, by rw [emit_pos, emit_line, emit_col]; exact h.2.1, ?_⟩
  rw [emit_toks]
  intro tok hm
  rcases List.mem_append.mp hm with hm | hm
  · exact h.2.2 tok hm
  · split at hm
    · next hlen =>
      rw [List.mem_singleton] at hm
      subst hm
      exact ⟨hlen, htok hlen⟩
    · simp at hm

theorem skipToNl_inv (t : List Nat) : ∀ f (s : LexSt), Inv t s → Inv t (skipToNl t f s) := by
  intro f
  induction f with
  | zero => exact fun s h => h
  | succ f ih =>
    intro s h
    simp only [skipToNl]
    split
    · exact ih _ (advance_inv (by omega) h)
    · exact h

theorem skipBlock_inv (t : List Nat) : ∀ f (s : LexSt), Inv t s → Inv t (skipBlock t f s) := by
  intro f
  induction f with
  | zero => exact fun s h => h
  | succ f ih =>
    intro s h
    simp only [skipBlock]
    split
    · split
      · next h1 h2 =>
        exact advance_inv (by rw [advance_pos]; omega) (advance_inv h1 h)
      · exact ih _ (advance_inv (by omega) h)
    · exact h

theorem boxRun_inv (t : List Nat) : ∀ f (s : LexSt), Inv t s → Inv t (boxRun t f s) := by
  intro f
  induction f with
  | zero => exact fun s h => h
  | succ f ih =>
    intro s h
    simp only [boxRun]
    split
    · exact ih _ (advance_inv (by omega) h)
    · exact h

theorem boxRun_line (t : List Nat) : ∀ f (s : LexSt), (boxRun t f s).line = s.line := by
  intro f
  induction f with
  | zero => exact fun s => rfl
  | succ f ih =>
    intro s
    simp only [boxRun]
    split
    · next h =>
      rw [ih _, advance_line_ne10]
      have hb : isBox (t.getD s.pos 0) = true := h.2
      simp only [isBox, decide_eq_true_eq] at hb
      omega
    · rfl

theorem annotLine_inv (t : List Nat) (al : Nat) :
    ∀ f (s : LexSt), s.line = al → Inv t s → Inv t (annotLine t al f s) := by
  intro f
  induction f with
  | zero => exact fun s _ h => h
  | succ f ih =>
    intro s hline h
    simp only [annotLine]
    split
    · next hg =>
      split
      · next hbox =>
        have hb := boxRun_inv t (t.length + 1) s h
        have hbl := boxRun_line t (t.length + 1) s
        have hbs := boxRun_stepOK t (t.length + 1) s
        refine ih _ ?_ (emit_inv ?_ hb)
        · rw [emit_line, hbl, hline]
        · intro hlen
          refine ⟨s.pos, ?_, ?_⟩
          · rw [h.2.1]
            rw [hline]
          · have := hb.1
            omega
      · refine ih _ ?_ (advance_inv (by omega) h)
        · rw [advance_line_ne10 s (by tauto), hline]
    · exact h

theorem skipNonCode_inv (t : List Nat) :
    ∀ f (s : LexSt), Inv t s → Inv t (skipNonCode t f s) := by
  intro f
  induction f with
  | zero => exact fun s h => h
  | succ f ih =>
    intro s h
    simp only [skipNonCode]
    split
    · next hp =>
      split
      · exact ih _ (advance_inv hp h)
      · split
        · exact ih _ (annotLine_inv t s.line (t.length + 1) s rfl h)
        · split
          · exact ih _ (skipToNl_inv t (t.length + 1) s h)
          · split
            · next hb =>
              exact ih _ (skipBlock_inv t (t.length + 1) _
                (advance_inv (by rw [advance_pos]; omega) (advance_inv hp h)))
            · exact h
    · exact h

theorem scanDigits_inv (t : List Nat) : ∀ f (s : LexSt), Inv t s → Inv t (scanDigits t f s) := by
  intro f
  induction f with
  | zero => exact fun s h => h
  | succ f ih =>
    intro s h
    simp only [scanDigits]
    split
    · exact ih _ (advance_inv (by omega) h)
    · exact h

theorem dataSkip_inv (t : List Nat) : ∀ n (s : LexSt), Inv t s → Inv t (dataSkip t n s) := by
  intro n
  induction n with
  | zero => exact fun s h => h
  | succ n ih =>
    intro s h
    simp only [dataSkip]
    split
    · exact ih _ (advance_inv (by omega) h)
    · exact h

theorem rawScan_inv (t : List Nat) :
    ∀ n cl cc cn (s : LexSt), cn ≤ s.pos → lcAt t (s.pos - cn) = (cl, cc) → Inv t s →
      Inv t (rawScan t n cl cc cn s) := by
  intro n
  induction n with
  | zero =>
    intro cl cc cn s hcn hlc h
    exact emit_inv (fun hlen => ⟨s.pos - cn, hlc, by have := h.1; omega⟩) h
  | succ n ih =>
    intro cl cc cn s hcn hlc h
    simp only [rawScan]
    split
    · next hp =>
      split
      · have he : Inv t (emit cl cc cn 5 s) :=
          emit_inv (fun hlen => ⟨s.pos - cn, hlc, by omega⟩) h
        have ha : Inv t (advance t (emit cl cc cn 5 s)) :=
          advance_inv (by rw [emit_pos]; omega) he
        refine ih _ _ _ _ (by omega) ?_ ha
        · rw [Nat.sub_zero]
          exact ha.2.1
      · refine ih _ _ _ _ (by rw [advance_pos]; omega) ?_ (advance_inv hp h)
        · rw [advance_pos]
          have hs : s.pos + 1 - (cn + 1) = s.pos - cn := by omega
          rw [hs, hlc]
    · exact emit_inv (fun hlen => ⟨s.pos - cn, hlc, by have := h.1; omega⟩) h

theorem condAdvance_stepOK (t : List Nat) (cl : Nat) (s5 : LexSt) :
    StepOK t s5 (if s5.pos < t.length ∧ t.getD s5.pos 0 = cl then advance t s5 else s5) := by
  split
  · next h => exact stepOK_advance h.1
  · exact stepOK_refl t s5

theorem condAdvance_inv (t : List Nat) (cl : Nat) (s5 : LexSt) (h : Inv t s5) :
    Inv t (if s5.pos < t.length ∧ t.getD s5.pos 0 = cl then advance t s5 else s5) := by
  split
  · next h2 => exact advance_inv h2.1 h
  · exact h

theorem preEmit_inv {t : List Nat} {pS l c ty : Nat} {s1 : LexSt} (hp : pS ≤ s1.pos)
    (hl : s1.pos ≤ t.length) (hlc : lcAt t pS = (l, c)) (hI : Inv t s1) :
    Inv t (emit l c (s1.pos - pS) ty s1) :=
  emit_inv (fun _ => ⟨pS, hlc, by omega⟩) hI

theorem tryParseIndex_inv (t : List Nat) (s : LexSt) (h : Inv t s) :
    Inv t (tryParseIndex t s) := by
  simp only [tryParseIndex]
  set s1 := scanDigits t (t.length + 1) s with hs1
  have hInv1 : Inv t s1 := scanDigits_inv t _ s h
  have hso1 : StepOK t s s1 := scanDigits_stepOK t _ s
  split
  · next hc =>
    set s2 := advance t s1 with hs2
    have hInv2 : Inv t s2 := advance_inv hc.1 hInv1
    set s3 := (if s2.pos < t.length ∧ isDigitCode (t.getD s2.pos 0) = true then
        ((digitValue (t.getD s2.pos 0)).toNat, advance t s2) else ((0 : Nat), s2)) with hs3
    have hInv3 : Inv t s3.2 := by
      rw [hs3]
      split
      · next h2 => exact advance_inv h2.1 hInv2
      · exact hInv2
    have hpos3 : s.pos ≤ s3.2.pos := by
      have h1 := hso1.1
      have h2 : s1.pos ≤ s2.pos := by rw [hs2, advance_pos]; omega
      have h3 : s2.pos ≤ s3.2.pos := by
        rw [hs3]
        split
        · dsimp only
          have hadv := advance_pos t s2
          omega
        · exact le_refl _
      omega
    have hInv4 : Inv t (emit s.line s.col (s3.2.pos - s.pos) 8 s3.2) := by
      refine emit_inv (fun hlen => ⟨s.pos, ?_, ?_⟩) hInv3
      · exact h.2.1
      · have := hInv3.1
        omega
    split
    · set s4 := emit s.line s.col (s3.2.pos - s.pos) 8 s3.2 with hs4
      set s5 := dataSkip t ((decodeRun t s.pos s1.pos).toNat * s3.1) s4 with hs5
      have hInv5 : Inv t s5 := dataSkip_inv t _ s4 hInv4
      have hso5 : StepOK t s4 s5 := dataSkip_stepOK t _ s4
      refine emit_inv (fun hlen => ⟨s4.pos, ?_, ?_⟩) hInv5
      · exact hInv4.2.1
      · have := hInv5.1
        have := hso5.1
        omega
    · exact hInv4
  · exact ⟨h.1, h.2.1, fun tok hm => hInv1.2.2 tok hm⟩

/-! ## The tokenizer's main recursion: monotonicity and invariant -/

theorem run_one_eq (t : List Nat) (f : Nat) (s0 : LexSt) :
    run t (f + 1) .one s0 =
      runDisp t f (skipNonCode t (t.length + 1) s0)
        (scanDigits t (t.length + 1) (skipNonCode t (t.length + 1) s0)) := rfl

theorem runDisp_ok {t : List Nat} {f : Nat} {sA s1 s' : LexSt}
    (hc1 : StepOK t sA s1) (hi1 : Inv t sA → Inv t s1)
    (ih : ∀ m s s2, run t f m s = some s2 → StepOK t s s2 ∧ (Inv t s → Inv t s2))
    (h : runDisp t f sA s1 = some s') :
    StepOK t sA s' ∧ (Inv t sA → Inv t s') := by
  unfold runDisp at h
  by_cases hb1 : sA.pos ≥ t.length
  · rw [if_pos hb1, Option.some_inj] at h
    subst h
    exact ⟨stepOK_refl t sA, fun hi => hi⟩
  rw [if_neg hb1] at h
  by_cases hb2 : t.getD sA.pos 0 = 41 ∨ t.getD sA.pos 0 = 93 ∨ t.getD sA.pos 0 = 125
  · rw [if_pos hb2, Option.some_inj] at h
    subst h
    exact ⟨stepOK_refl t sA, fun hi => hi⟩
  rw [if_neg hb2] at h
  by_cases hb3 : s1.pos ≥ t.length
  · rw [if_pos hb3, Option.some_inj] at h
    subst h
    exact ⟨hc1, hi1⟩
  rw [if_neg hb3] at h
  have hs1len : s1.pos < t.length := by omega
  have hs1pos : sA.pos ≤ s1.pos := hc1.1
  by_cases hb4 : ¬ tagOk (t.getD s1.pos 0)
  · rw [if_pos hb4, Option.some_inj] at h
    subst h
    exact ⟨hc1, hi1⟩
  rw [if_neg hb4] at h
  by_cases hb5 : t.getD s1.pos 0 = 63 ∨ t.getD s1.pos 0 = 33 ∨ t.getD s1.pos 0 = 124 ∨
      t.getD s1.pos 0 = 38
  · rw [if_pos hb5] at h
    by_cases hp : s1.pos + 1 < t.length ∧ t.getD (s1.pos + 1) 0 = 40
    · rw [if_pos hp] at h
      split at h
      · simp at h
      · next s5 heq =>
        rw [Option.some_inj] at h
        subst h
        refine ⟨stepOK_trans hc1 (stepOK_trans (stepOK_emit ..)
          (stepOK_trans (stepOK_advance (by rw [emit_pos]; omega))
            (stepOK_trans (stepOK_advance (by rw [advance_pos, emit_pos]; omega))
              (stepOK_trans (stepOK_emit ..)
                (stepOK_trans (ih _ _ _ heq).1 (condAdvance_stepOK ..)))))), fun hi => ?_⟩
        have hI1 := hi1 hi
        have hIE1 : Inv t (emit sA.line sA.col (s1.pos - sA.pos) 0 s1) :=
          preEmit_inv hs1pos (le_of_lt hs1len) hi.2.1 hI1
        have hIA1 := advance_inv (by rw [emit_pos]; omega) hIE1
        have hIA2 := advance_inv (by rw [advance_pos, emit_pos]; omega) hIA1
        have hIE2 : Inv t (emit s1.line s1.col 2 1 (advance t (advance t
            (emit sA.line sA.col (s1.pos - sA.pos) 0 s1)))) :=
          emit_inv (fun _ => ⟨s1.pos, hI1.2.1, by omega⟩) hIA2
        exact condAdvance_inv _ _ _ ((ih _ _ _ heq).2 hIE2)
    · rw [if_neg hp, Option.some_inj] at h
      subst h
      exact ⟨hc1, hi1⟩
  rw [if_neg hb5] at h
  by_cases hb6 : t.getD s1.pos 0 = 40
  · rw [if_pos hb6] at h
    split at h
    · simp at h
    · next s5 heq =>
      rw [Option.some_inj] at h
      subst h
      refine ⟨stepOK_trans hc1 (stepOK_trans (stepOK_emit ..)
        (stepOK_trans (stepOK_advance (by rw [emit_pos]; omega))
          (stepOK_trans (ih _ _ _ heq).1 (condAdvance_stepOK ..)))), fun hi => ?_⟩
      have hI1 := hi1 hi
      have hIE1 : Inv t (emit sA.line sA.col (s1.pos - sA.pos) 0 s1) :=
        preEmit_inv hs1pos (le_of_lt hs1len) hi.2.1 hI1
      have hIA1 := advance_inv (by rw [emit_pos]; omega) hIE1
      exact condAdvance_inv _ _ _ ((ih _ _ _ heq).2 hIA1)
  rw [if_neg hb6] at h
  by_cases hb7 : t.getD s1.pos 0 = 91
  · rw [if_pos hb7] at h
    split at h
    · simp at h
    · next s5 heq =>
      rw [Option.some_inj] at h
      subst h
      refine ⟨stepOK_trans hc1 (stepOK_trans (stepOK_emit ..)
        (stepOK_trans (stepOK_advance (by rw [emit_pos]; omega))
          (stepOK_trans (skipNonCode_stepOK ..)
            (stepOK_trans (tryParseIndex_stepOK ..)
              (stepOK_trans (ih _ _ _ heq).1 (condAdvance_stepOK ..)))))), fun hi => ?_⟩
      have hI1 := hi1 hi
      have hIE1 : Inv t (emit sA.line sA.col (s1.pos - sA.pos) 0 s1) :=
        preEmit_inv hs1pos (le_of_lt hs1len) hi.2.1 hI1
      have hIA1 := advance_inv (by rw [emit_pos]; omega) hIE1
      have hItpi := tryParseIndex_inv t _ (skipNonCode_inv t (t.length + 1) _ hIA1)
      exact condAdvance_inv _ _ _ ((ih _ _ _ heq).2 hItpi)
  rw [if_neg hb7] at h
  by_cases hb8 : t.getD s1.pos 0 = 123
  · rw [if_pos hb8] at h
    split at h
    · simp at h
    · next s5 heq =>
      rw [Option.some_inj] at h
      subst h
      refine ⟨stepOK_trans hc1 (stepOK_trans (stepOK_emit ..)
        (stepOK_trans (stepOK_advance (by rw [emit_pos]; omega))
          (stepOK_trans (skipNonCode_stepOK ..)
            (stepOK_trans (tryParseIndex_stepOK ..)
              (stepOK_trans (ih _ _ _ heq).1 (condAdvance_stepOK ..)))))), fun hi => ?_⟩
      have hI1 := hi1 hi
      have hIE1 : Inv t (emit sA.line sA.col (s1.pos - sA.pos) 0 s1) :=
        preEmit_inv hs1pos (le_of_lt hs1len) hi.2.1 hI1
      have hIA1 := advance_inv (by rw [emit_pos]; omega) hIE1
      have hItpi := tryParseIndex_inv t _ (skipNonCode_inv t (t.length + 1) _ hIA1)
      exact condAdvance_inv _ _ _ ((ih _ _ _ heq).2 hItpi)
  rw [if_neg hb8] at h
  by_cases hb9 : t.getD s1.pos 0 = 44
  · rw [if_pos hb9, Option.some_inj] at h
    subst h
    refine ⟨stepOK_trans hc1 (stepOK_trans (stepOK_emit ..)
      (stepOK_trans (stepOK_advance (by rw [emit_pos]; omega))
        (stepOK_trans (stepOK_emit ..) (rawScan_stepOK ..)))), fun hi => ?_⟩
    have hI1 := hi1 hi
    have hIE1 : Inv t (emit sA.line sA.col (s1.pos - sA.pos) 0 s1) :=
      preEmit_inv hs1pos (le_of_lt hs1len) hi.2.1 hI1
    have hIA1 := advance_inv (by rw [emit_pos]; omega) hIE1
    have hIE2 : Inv t (emit s1.line s1.col 1 5 (advance t
        (emit sA.line sA.col (s1.pos - sA.pos) 0 s1))) :=
      emit_inv (fun _ => ⟨s1.pos, hI1.2.1, by omega⟩) hIA1
    refine rawScan_inv t _ _ _ _ _ (by omega) ?_ hIE2
    rw [Nat.sub_zero]
    exact hIE2.2.1
  rw [if_neg hb9] at h
  by_cases hb10 : t.getD s1.pos 0 = 61
  · rw [if_pos hb10] at h
    split at h
    · simp at h
    · next s5 heq =>
      have c5 := ih _ _ _ heq
      have c6 := ih _ _ _ h
      refine ⟨stepOK_trans hc1 (stepOK_trans (stepOK_emit ..)
        (stepOK_trans (stepOK_advance (by rw [emit_pos]; omega))
          (stepOK_trans (stepOK_emit ..) (stepOK_trans c5.1 c6.1)))), fun hi => ?_⟩
      have hI1 := hi1 hi
      have hIE1 : Inv t (emit sA.line sA.col (s1.pos - sA.pos) 0 s1) :=
        preEmit_inv hs1pos (le_of_lt hs1len) hi.2.1 hI1
      have hIA1 := advance_inv (by rw [emit_pos]; omega) hIE1
      have hIE2 : Inv t (emit s1.line s1.col 1 6 (advance t
          (emit sA.line sA.col (s1.pos - sA.pos) 0 s1))) :=
        emit_inv (fun _ => ⟨s1.pos, hI1.2.1, by omega⟩) hIA1
      exact c6.2 (c5.2 hIE2)
  rw [if_neg hb10] at h
  by_cases hb11 : t.getD s1.pos 0 = 126
  · rw [if_pos hb11] at h
    have c5 := ih _ _ _ h
    refine ⟨stepOK_trans hc1 (stepOK_trans (stepOK_emit ..)
      (stepOK_trans (stepOK_advance (by rw [emit_pos]; omega))
        (stepOK_trans (stepOK_emit ..) c5.1))), fun hi => ?_⟩
    have hI1 := hi1 hi
    have hIE1 : Inv t (emit sA.line sA.col (s1.pos - sA.pos) 0 s1) :=
      preEmit_inv hs1pos (le_of_lt hs1len) hi.2.1 hI1
    have hIA1 := advance_inv (by rw [emit_pos]; omega) hIE1
    have hIE2 : Inv t (emit s1.line s1.col 1 6 (advance t
        (emit sA.line sA.col (s1.pos - sA.pos) 0 s1))) :=
      emit_inv (fun _ => ⟨s1.pos, hI1.2.1, by omega⟩) hIA1
    exact c5.2 hIE2
  rw [if_neg hb11] at h
  by_cases hb12 : t.getD s1.pos 0 = 42
  · rw [if_pos hb12] at h
    have c5 := ih _ _ _ h
    refine ⟨stepOK_trans hc1 (stepOK_trans (stepOK_advance hs1len)
      (stepOK_trans (stepOK_emit ..) c5.1)), fun hi => ?_⟩
    have hI1 := hi1 hi
    have hIA1 := advance_inv hs1len hI1
    have hIE1 : Inv t (emit sA.line sA.col ((advance t s1).pos - sA.pos) 4 (advance t s1)) :=
      preEmit_inv (by rw [advance_pos]; omega)
        (by rw [advance_pos]; omega) hi.2.1 hIA1
    exact c5.2 hIE1
  rw [if_neg hb12, Option.some_inj] at h
  subst h
  refine ⟨stepOK_trans hc1 (stepOK_trans (stepOK_advance hs1len) (stepOK_emit ..)),
    fun hi => ?_⟩
  have hI1 := hi1 hi
  have hIA1 := advance_inv hs1len hI1
  exact preEmit_inv (by rw [advance_pos]; omega)
    (by rw [advance_pos]; omega) hi.2.1 hIA1

theorem run_ok (t : List Nat) :
    ∀ f m s s', run t f m s = some s' → StepOK t s s' ∧ (Inv t s → Inv t s') := by
  intro f
  induction f with
  | zero => intro m s s' h; simp [run] at h
  | succ f ih =>
    intro m s0 s' h
    match m with
    | .one =>
      rw [run_one_eq] at h
      have hd := runDisp_ok (scanDigits_stepOK t (t.length + 1) _)
        (scanDigits_inv t (t.length + 1) _) ih h
      exact ⟨stepOK_trans (skipNonCode_stepOK t (t.length + 1) s0) hd.1,
        fun hi => hd.2 (skipNonCode_inv t (t.length + 1) s0 hi)⟩
    | .loopC closer =>
      simp only [run] at h
      split at h
      · next hp =>
        set s1 := skipNonCode t (t.length + 1) s0 with hs1def
        have cA : StepOK t s0 s1 := skipNonCode_stepOK t _ s0
        have iA : Inv t s0 → Inv t s1 := skipNonCode_inv t _ s0
        split at h
        · simp only [Option.some.injEq] at h
          subst h
          exact ⟨cA, iA⟩
        · next hex =>
          split at h
          · simp at h
          · next s2 heq =>
            have c2 := ih _ _ _ heq
            have c3 := ih _ _ _ h
            have hs1len : s1.pos < t.length := by
              rcases not_or.mp hex with ⟨hx, _⟩
              omega
            have cmid : StepOK t s2 (if s2.pos = s1.pos then advance t s2 else s2) := by
              split
              · next he => exact stepOK_advance (by omega)
              · exact stepOK_refl t s2
            have imid : Inv t s2 → Inv t (if s2.pos = s1.pos then advance t s2 else s2) := by
              split
              · next he => exact advance_inv (by omega)
              · exact fun hi => hi
            exact ⟨stepOK_trans cA (stepOK_trans c2.1 (stepOK_trans cmid c3.1)),
              fun hi => c3.2 (imid (c2.2 (iA hi)))⟩
      · simp only [Option.some.injEq] at h
        subst h
        exact ⟨stepOK_refl t s0, fun hi => hi⟩
    | .loopO isKey =>
      simp only [run] at h
      split at h
      · next hp =>
        set s1 := skipNonCode t (t.length + 1) s0 with hs1def
        have cA : StepOK t s0 s1 := skipNonCode_stepOK t _ s0
        have iA : Inv t s0 → Inv t s1 := skipNonCode_inv t _ s0
        split at h
        · simp only [Option.some.injEq] at h
          subst h
          exact ⟨cA, iA⟩
        · next hex =>
          split at h
          · simp at h
          · next s2 heq =>
            have c2 := ih _ _ _ heq
            have c3 := ih _ _ _ h
            have hs1len : s1.pos < t.length := by
              rcases not_or.mp hex with ⟨hx, _⟩
              omega
            have c2p : s1.pos ≤ s2.pos := c2.1.1
            have c2b : s1.pos ≤ t.length → s2.pos ≤ t.length := c2.1.2.2.2
            have cmid : StepOK t { s2 with okm := s1.okm }
                (if s2.pos = s1.pos then advance t { s2 with okm := s1.okm }
                 else { s2 with okm := s1.okm }) := by
              split
              · next he => exact stepOK_advance (by simp only []; omega)
              · exact stepOK_refl t _
            have imid : Inv t { s2 with okm := s1.okm } →
                Inv t (if s2.pos = s1.pos then advance t { s2 with okm := s1.okm }
                  else { s2 with okm := s1.okm }) := by
              split
              · next he => exact advance_inv (by simp only []; omega)
              · exact fun hi => hi
            refine ⟨?_, fun hi => ?_⟩
            · -- assemble StepOK through the okm save/restore
              have k1 : StepOK t s1 { s2 with okm := s1.okm } := by
                have := c2.1
                exact ⟨this.1, rfl, this.2.2.1, this.2.2.2⟩
              exact stepOK_trans cA (stepOK_trans k1 (stepOK_trans cmid c3.1))
            · have hI1 := iA hi
              have hI2 : Inv t { s2 with okm := s1.okm } := by
                have : Inv t { s1 with okm := isKey } := hI1
                exact c2.2 this
              exact c3.2 (imid hI2)
      · simp only [Option.some.injEq] at h
        subst h
        exact ⟨stepOK_refl t s0, fun hi => hi⟩
    | .main =>
      simp only [run] at h
      split at h
      · next hp =>
        set s1 := skipNonCode t (t.length + 1) s0 with hs1def
        have cA : StepOK t s0 s1 := skipNonCode_stepOK t _ s0
        have iA : Inv t s0 → Inv t s1 := skipNonCode_inv t _ s0
        split at h
        · simp only [Option.some.injEq] at h
          subst h
          exact ⟨cA, iA⟩
        · next hex =>
          split at h
          · simp at h
          · next s2 heq =>
            have c2 := ih _ _ _ heq
            have c3 := ih _ _ _ h
            have hs1len : s1.pos < t.length := by omega
            have cmid : StepOK t s2 (if s2.pos = s1.pos then advance t s2 else s2) := by
              split
              · next he => exact stepOK_advance (by omega)
              · exact stepOK_refl t s2
            have imid : Inv t s2 → Inv t (if s2.pos = s1.pos then advance t s2 else s2) := by
              split
              · next he => exact advance_inv (by omega)
              · exact fun hi => hi
            exact ⟨stepOK_trans cA (stepOK_trans c2.1 (stepOK_trans cmid c3.1)),
              fun hi => c3.2 (imid (c2.2 (iA hi)))⟩
      · simp only [Option.some.injEq] at h
        subst h
        exact ⟨stepOK_refl t s0, fun hi => hi⟩

/-! ## Tokenizer fuel sufficiency (claim C9) -/

theorem runDisp_isSome {t : List Nat} {f : Nat} {sA s1 : LexSt}
    (hc1 : StepOK t sA s1)
    (ihS : ∀ m s, fuelNeed m (t.length - s.pos) ≤ f → (run t f m s).isSome)
    (ihM : ∀ m s s2, run t f m s = some s2 → StepOK t s s2 ∧ (Inv t s → Inv t s2))
    (hfuel : 2 * (t.length - sA.pos) + 1 ≤ f + 1) :
    (runDisp t f sA s1).isSome := by
  unfold runDisp
  by_cases hb1 : sA.pos ≥ t.length
  · rw [if_pos hb1]; rfl
  rw [if_neg hb1]
  by_cases hb2 : t.getD sA.pos 0 = 41 ∨ t.getD sA.pos 0 = 93 ∨ t.getD sA.pos 0 = 125
  · rw [if_pos hb2]; rfl
  rw [if_neg hb2]
  by_cases hb3 : s1.pos ≥ t.length
  · rw [if_pos hb3]; rfl
  rw [if_neg hb3]
  have hs1len : s1.pos < t.length := by omega
  have hs1pos : sA.pos ≤ s1.pos := hc1.1
  have hsAlen : sA.pos < t.length := by omega
  by_cases hb4 : ¬ tagOk (t.getD s1.pos 0)
  · rw [if_pos hb4]; rfl
  rw [if_neg hb4]
  by_cases hb5 : t.getD s1.pos 0 = 63 ∨ t.getD s1.pos 0 = 33 ∨ t.getD s1.pos 0 = 124 ∨
      t.getD s1.pos 0 = 38
  · rw [if_pos hb5]
    by_cases hp : s1.pos + 1 < t.length ∧ t.getD (s1.pos + 1) 0 = 40
    · rw [if_pos hp]
      have hpos4 : (emit s1.line s1.col 2 1 (advance t (advance t
          (emit sA.line sA.col (s1.pos - sA.pos) 0 s1)))).pos = s1.pos + 2 := by
        rw [emit_pos, advance_pos, advance_pos, emit_pos]
      have h4 : (run t f (.loopC 41) (emit s1.line s1.col 2 1 (advance t (advance t
          (emit sA.line sA.col (s1.pos - sA.pos) 0 s1))))).isSome := by
        refine ihS _ _ ?_
        rw [hpos4]
        show 2 * (t.length - (s1.pos + 2)) + 2 ≤ f
        omega
      obtain ⟨s5, hs5⟩ := Option.isSome_iff_exists.mp h4
      rw [hs5]
      rfl
    · rw [if_neg hp]; rfl
  rw [if_neg hb5]
  by_cases hb6 : t.getD s1.pos 0 = 40
  · rw [if_pos hb6]
    have hpos3 : (advance t (emit sA.line sA.col (s1.pos - sA.pos) 0 s1)).pos = s1.pos + 1 := by
      rw [advance_pos, emit_pos]
    have h4 : (run t f (.loopC 41)
        (advance t (emit sA.line sA.col (s1.pos - sA.pos) 0 s1))).isSome := by
      refine ihS _ _ ?_
      rw [hpos3]
      show 2 * (t.length - (s1.pos + 1)) + 2 ≤ f
      omega
    obtain ⟨s5, hs5⟩ := Option.isSome_iff_exists.mp h4
    rw [hs5]
    rfl
  rw [if_neg hb6]
  by_cases hb7 : t.getD s1.pos 0 = 91
  · rw [if_pos hb7]
    have hpos3 : s1.pos + 1 ≤ (tryParseIndex t (skipNonCode t (t.length + 1)
        (advance t (emit sA.line sA.col (s1.pos - sA.pos) 0 s1)))).pos := by
      have h1 := (skipNonCode_stepOK t (t.length + 1)
        (advance t (emit sA.line sA.col (s1.pos - sA.pos) 0 s1))).1
      have h2 := (tryParseIndex_stepOK t (skipNonCode t (t.length + 1)
        (advance t (emit sA.line sA.col (s1.pos - sA.pos) 0 s1)))).1
      rw [advance_pos, emit_pos] at h1
      omega
    have h4 : (run t f (.loopC 93) (tryParseIndex t (skipNonCode t (t.length + 1)
        (advance t (emit sA.line sA.col (s1.pos - sA.pos) 0 s1))))).isSome := by
      refine ihS _ _ ?_
      show 2 * (t.length - _) + 2 ≤ f
      omega
    obtain ⟨s5, hs5⟩ := Option.isSome_iff_exists.mp h4
    rw [hs5]
    rfl
  rw [if_neg hb7]
  by_cases hb8 : t.getD s1.pos 0 = 123
  · rw [if_pos hb8]
    have hpos3 : s1.pos + 1 ≤ (tryParseIndex t (skipNonCode t (t.length + 1)
        (advance t (emit sA.line sA.col (s1.pos - sA.pos) 0 s1)))).pos := by
      have h1 := (skipNonCode_stepOK t (t.length + 1)
        (advance t (emit sA.line sA.col (s1.pos - sA.pos) 0 s1))).1
      have h2 := (tryParseIndex_stepOK t (skipNonCode t (t.length + 1)
        (advance t (emit sA.line sA.col (s1.pos - sA.pos) 0 s1)))).1
      rw [advance_pos, emit_pos] at h1
      omega
    have h4 : (run t f (.loopO true) (tryParseIndex t (skipNonCode t (t.length + 1)
        (advance t (emit sA.line sA.col (s1.pos - sA.pos) 0 s1))))).isSome := by
      refine ihS _ _ ?_
      show 2 * (t.length - _) + 2 ≤ f
      omega
    obtain ⟨s5, hs5⟩ := Option.isSome_iff_exists.mp h4
    rw [hs5]
    rfl
  rw [if_neg hb8]
  by_cases hb9 : t.getD s1.pos 0 = 44
  · rw [if_pos hb9]; rfl
  rw [if_neg hb9]
  by_cases hb10 : t.getD s1.pos 0 = 61
  · rw [if_pos hb10]
    have hpos4 : (emit s1.line s1.col 1 6 (advance t
        (emit sA.line sA.col (s1.pos - sA.pos) 0 s1))).pos = s1.pos + 1 := by
      rw [emit_pos, advance_pos, emit_pos]
    have h4 : (run t f .one (emit s1.line s1.col 1 6 (advance t
        (emit sA.line sA.col (s1.pos - sA.pos) 0 s1)))).isSome := by
      refine ihS _ _ ?_
      rw [hpos4]
      show 2 * (t.length - (s1.pos + 1)) + 1 ≤ f
      omega
    obtain ⟨s5, hs5⟩ := Option.isSome_iff_exists.mp h4
    rw [hs5]
    have hmono := (ihM _ _ _ hs5).1.1
    rw [hpos4] at hmono
    refine ihS _ _ ?_
    show 2 * (t.length - s5.pos) + 1 ≤ f
    omega
  rw [if_neg hb10]
  by_cases hb11 : t.getD s1.pos 0 = 126
  · rw [if_pos hb11]
    have hpos4 : (emit s1.line s1.col 1 6 (advance t
        (emit sA.line sA.col (s1.pos - sA.pos) 0 s1))).pos = s1.pos + 1 := by
      rw [emit_pos, advance_pos, emit_pos]
    refine ihS _ _ ?_
    rw [hpos4]
    show 2 * (t.length - (s1.pos + 1)) + 1 ≤ f
    omega
  rw [if_neg hb11]
  by_cases hb12 : t.getD s1.pos 0 = 42
  · rw [if_pos hb12]
    have hpos3 : (emit sA.line sA.col ((advance t s1).pos - sA.pos) 4 (advance t s1)).pos =
        s1.pos + 1 := by
      rw [emit_pos, advance_pos]
    refine ihS _ _ ?_
    rw [hpos3]
    show 2 * (t.length - (s1.pos + 1)) + 1 ≤ f
    omega
  rw [if_neg hb12]
  rfl

theorem run_isSome (t : List Nat) :
    ∀ f m s, fuelNeed m (t.length - s.pos) ≤ f → (run t f m s).isSome := by
  intro f
  induction f with
  | zero =>
    intro m s h
    exfalso
    cases m <;> simp [fuelNeed] at h
  | succ f ih =>
    intro m s0 h
    match m with
    | .one =>
      rw [run_one_eq]
      refine runDisp_isSome (scanDigits_stepOK t (t.length + 1) _) ih (run_ok t f) ?_
      have h1 := (skipNonCode_stepOK t (t.length + 1) s0).1
      simp only [fuelNeed] at h
      omega
    | .loopC closer =>
      simp only [run]
      split
      · next hp =>
        split
        · rfl
        · next hex =>
          have hs1pos := (skipNonCode_stepOK t (t.length + 1) s0).1
          have hs1len : (skipNonCode t (t.length + 1) s0).pos < t.length := by
            rcases not_or.mp hex with ⟨hx, _⟩
            omega
          simp only [fuelNeed] at h
          have h1 : (run t f .one (skipNonCode t (t.length + 1) s0)).isSome := by
            refine ih _ _ ?_
            show 2 * (t.length - _) + 1 ≤ f
            omega
          obtain ⟨s2, hs2⟩ := Option.isSome_iff_exists.mp h1
          rw [hs2]
          have hmono := (run_ok t f _ _ _ hs2).1.1
          show (run t f (.loopC closer)
            (if s2.pos = (skipNonCode t (t.length + 1) s0).pos then advance t s2
             else s2)).isSome
          split
          · next heq =>
            refine ih _ _ ?_
            show 2 * (t.length - (advance t s2).pos) + 2 ≤ f
            rw [advance_pos]
            omega
          · next hne =>
            refine ih _ _ ?_
            show 2 * (t.length - s2.pos) + 2 ≤ f
            omega
      · rfl
    | .loopO isKey =>
      simp only [run]
      split
      · next hp =>
        split
        · rfl
        · next hex =>
          have hs1pos := (skipNonCode_stepOK t (t.length + 1) s0).1
          have hs1len : (skipNonCode t (t.length + 1) s0).pos < t.length := by
            rcases not_or.mp hex with ⟨hx, _⟩
            omega
          simp only [fuelNeed] at h
          have h1 : (run t f .one
              { skipNonCode t (t.length + 1) s0 with okm := isKey }).isSome := by
            refine ih _ _ ?_
            show 2 * (t.length - (skipNonCode t (t.length + 1) s0).pos) + 1 ≤ f
            omega
          obtain ⟨s2, hs2⟩ := Option.isSome_iff_exists.mp h1
          rw [hs2]
          have hmono2 : (skipNonCode t (t.length + 1) s0).pos ≤ s2.pos :=
            (run_ok t f _ _ _ hs2).1.1
          show (run t f (.loopO (!isKey))
            (if ({ s2 with okm := (skipNonCode t (t.length + 1) s0).okm } : LexSt).pos =
                (skipNonCode t (t.length + 1) s0).pos then
              advance t { s2 with okm := (skipNonCode t (t.length + 1) s0).okm }
             else { s2 with okm := (skipNonCode t (t.length + 1) s0).okm })).isSome
          split
          · next heq =>
            refine ih _ _ ?_
            show 2 * (t.length -
              (advance t { s2 with okm := (skipNonCode t (t.length + 1) s0).okm }).pos) + 2 ≤ f
            rw [advance_pos]
            show 2 * (t.length - (s2.pos + 1)) + 2 ≤ f
            have heq2 : s2.pos = (skipNonCode t (t.length + 1) s0).pos := heq
            omega
          · next hne =>
            refine ih _ _ ?_
            show 2 * (t.length - s2.pos) + 2 ≤ f
            have hne2 : ¬ s2.pos = (skipNonCode t (t.length + 1) s0).pos := hne
            omega
      · rfl
    | .main =>
      simp only [run]
      split
      · next hp =>
        split
        · rfl
        · next hex =>
          have hs1pos := (skipNonCode_stepOK t (t.length + 1) s0).1
          have hs1len : (skipNonCode t (t.length + 1) s0).pos < t.length := by omega
          simp only [fuelNeed] at h
          have h1 : (run t f .one (skipNonCode t (t.length + 1) s0)).isSome := by
            refine ih _ _ ?_
            show 2 * (t.length - _) + 1 ≤ f
            omega
          obtain ⟨s2, hs2⟩ := Option.isSome_iff_exists.mp h1
          rw [hs2]
          have hmono := (run_ok t f _ _ _ hs2).1.1
          show (run t f .main
            (if s2.pos = (skipNonCode t (t.length + 1) s0).pos then advance t s2
             else s2)).isSome
          split
          · next heq =>
            refine ih _ _ ?_
            show 2 * (t.length - (advance t s2).pos) + 2 ≤ f
            rw [advance_pos]
            omega
          · next hne =>
            refine ih _ _ ?_
            show 2 * (t.length - s2.pos) + 2 ≤ f
            omega
      · rfl

/-! ## Scanner exactness lemmas -/

theorem isDigitCode_ne10 {c : Nat} (h : isDigitCode c) : c ≠ 10 := by
  simp only [isDigitCode, decide_eq_true_eq] at h
  rw [mem_DIGITS] at h
  omega

theorem advance_ne10 {t : List Nat} (s : LexSt) (h : t.getD s.pos 0 ≠ 10) :
    advance t s = { s with pos := s.pos + 1, col := s.col + 1 } := by
  unfold advance
  split
  · next h2 => exact absurd h2 h
  · rfl

theorem skipNonCode_noop (t : List Nat) (f : Nat) (s : LexSt) (hp : s.pos < t.length)
    (h1 : ¬ isWs (t.getD s.pos 0)) (h2 : ¬ isBox (t.getD s.pos 0))
    (h3 : t.getD s.pos 0 ≠ 47) :
    skipNonCode t (f + 1) s = s := by
  simp only [skipNonCode]
  rw [if_pos hp, if_neg (by simpa using h1), if_neg (by simpa using h2),
    if_neg (by intro hc; exact h3 hc.1), if_neg (by intro hc; exact h3 hc.1)]

theorem scanDigits_exact (t : List Nat) :
    ∀ f (p q : Nat) (s : LexSt), s.pos = p → p ≤ q → q ≤ t.length →
      (∀ k, p ≤ k → k < q → isDigitCode (t.getD k 0)) →
      (q = t.length ∨ ¬ isDigitCode (t.getD q 0)) →
      q - p < f →
      scanDigits t f s = { s with pos := q, col := s.col + (q - p) } := by
  intro f
  induction f with
  | zero => intro p q s _ _ _ _ _ hf; omega
  | succ f ih =>
    intro p q s hpos hpq hql hdig hstop hf
    by_cases hq : p = q
    · subst hq
      have hguard : ¬ (s.pos < t.length ∧ isDigitCode (t.getD s.pos 0) = true) := by
        rcases hstop with hs | hs
        · omega
        · intro hc
          rw [hpos] at hc
          exact hs hc.2
      simp only [scanDigits]
      rw [if_neg hguard]
      subst hpos
      simp
    · have hlt : p < q := by omega
      have hdp : isDigitCode (t.getD p 0) := hdig p (le_refl _) hlt
      simp only [scanDigits]
      rw [if_pos (by rw [hpos]; exact ⟨by omega, hdp⟩)]
      have hadv : advance t s = { s with pos := s.pos + 1, col := s.col + 1 } :=
        advance_ne10 s (by rw [hpos]; exact isDigitCode_ne10 hdp)
      rw [hadv]
      have := ih (p + 1) q { s with pos := s.pos + 1, col := s.col + 1 }
        (by simp [hpos]) (by omega) hql
        (fun k hk1 hk2 => hdig k (by omega) hk2) hstop (by omega)
      rw [this]
      have hc : s.col + 1 + (q - (p + 1)) = s.col + (q - p) := by omega
      simp [hc]

theorem dataSkip_pos_toks (t : List Nat) :
    ∀ n (s : LexSt), s.pos + n ≤ t.length →
      (dataSkip t n s).pos = s.pos + n ∧ (dataSkip t n s).toks = s.toks := by
  intro n
  induction n with
  | zero => intro s h; exact ⟨rfl, rfl⟩
  | succ n ih =>
    intro s h
    simp only [dataSkip]
    rw [if_pos (by omega)]
    have := ih (advance t s) (by rw [advance_pos]; omega)
    rw [this.1, this.2, advance_pos, advance_toks]
    exact ⟨by omega, rfl⟩

theorem rawScan_pos (t : List Nat) :
    ∀ n cl cc cn (s : LexSt), s.pos + n ≤ t.length →
      (rawScan t n cl cc cn s).pos = s.pos + n := by
  intro n
  induction n with
  | zero => intro cl cc cn s h; simp only [rawScan]; rw [emit_pos]; omega
  | succ n ih =>
    intro cl cc cn s h
    simp only [rawScan]
    rw [if_pos (by omega)]
    split
    · rw [ih _ _ _ _ (by rw [advance_pos, emit_pos]; omega), advance_pos, emit_pos]
      omega
    · rw [ih _ _ _ _ (by rw [advance_pos]; omega), advance_pos]
      omega

/-! ## Claim C9 -/

/-- C9: `tokenize` terminates and returns a token list for every finite
input, however malformed: the fueled embedding of its loops never runs out
of the fuel `tokenize` supplies, because every loop iteration strictly
advances the position (a position where `parseOneValue` consumes nothing
is skipped by one character). -/
theorem tokenize_total (t : List Nat) :
    ∃ toks, tokenizeO t = some toks ∧ tokenize t = toks := by
  have h := run_isSome t (2 * t.length + 4) .main ⟨0, 0, 0, [], false⟩
    (by simp only [fuelNeed]; omega)
  obtain ⟨s, hs⟩ := Option.isSome_iff_exists.mp h
  refine ⟨s.toks, ?_, ?_⟩
  · rw [tokenizeO, hs]
    rfl
  · rw [tokenize, tokenizeO, hs]
    rfl

/-! ## Claim C10 -/

/-- C10: every token returned by `tokenize` has length at least 1 (the
`emit` guard drops zero-length tokens) and non-negative line/char fields,
and its span starts at a real position of the input text and stays inside
it. -/
theorem tokenize_tokens_wf (t : List Nat) (tok : Token) (hm : tok ∈ tokenize t) :
    1 ≤ tok.length ∧ 0 ≤ tok.line ∧ 0 ≤ tok.char ∧
    ∃ p, lcAt t p = (tok.line, tok.char) ∧ p + tok.length ≤ t.length := by
  have h := run_isSome t (2 * t.length + 4) .main ⟨0, 0, 0, [], false⟩
    (by simp only [fuelNeed]; omega)
  obtain ⟨s, hs⟩ := Option.isSome_iff_exists.mp h
  have hInv : Inv t s :=
    (run_ok t _ _ _ _ hs).2 ⟨Nat.zero_le _, rfl, fun tok hm => absurd hm (List.not_mem_nil tok)⟩
  rw [tokenize, tokenizeO, hs] at hm
  have htok := hInv.2.2 tok hm
  exact ⟨htok.1, Nat.zero_le _, Nat.zero_le _, htok.2⟩

/-- Witness for C10 on the input `"1+"`, whose single token is the number
token of length 2 at line 0, column 0. -/
theorem tokenize_tokens_wf_witness :
    (⟨0, 0, 2, 4⟩ : Token) ∈ tokenize [49, 43] ∧
    (1 ≤ (⟨0, 0, 2, 4⟩ : Token).length ∧ 0 ≤ (⟨0, 0, 2, 4⟩ : Token).line ∧
      0 ≤ (⟨0, 0, 2, 4⟩ : Token).char ∧
      ∃ p, lcAt [49, 43] p = ((⟨0, 0, 2, 4⟩ : Token).line, (⟨0, 0, 2, 4⟩ : Token).char) ∧
        p + (⟨0, 0, 2, 4⟩ : Token).length ≤ ([49, 43] : List Nat).length) :=
  ⟨by decide, tokenize_tokens_wf [49, 43] ⟨0, 0, 2, 4⟩ (by decide)⟩

/-! ## Claim C6 (corrected)

The claim says the index header encodes the pointer width 1-biased as
`width - 1` and that the width is one of 1, 2, 3.  The current tokenizer's
`tryParseIndex` reads the single digit after `#` as the width itself
(value 0 meaning no index data) and accepts any digit value as a width;
only the `count × width` size of the index data holds as claimed.  (The
older `|`-modifier tokenizer in the same file is the one that decodes its
prefix 1-biased as `width = prefix + 1`.) -/

/-- C6 counterexample: on the index header `"2#5"` followed by ten data
characters, `tryParseIndex` reads width 5 — the data consumed is
`2 * 5 = 10` characters ending at position 13, not `2 * (5+1)` as the
1-biased reading would require, and 5 is outside the claimed set
`{1,2,3}`. -/
theorem tryParseIndex_counterexample :
    (tryParseIndex [50, 35, 53, 97, 97, 97, 97, 97, 97, 97, 97, 97, 97]
        ⟨0, 0, 0, [], false⟩).pos = 13 ∧
    (tryParseIndex [50, 35, 53, 97, 97, 97, 97, 97, 97, 97, 97, 97, 97]
        ⟨0, 0, 0, [], false⟩).toks = [⟨0, 0, 3, 8⟩, ⟨0, 3, 10, 11⟩] ∧
    (13 : Nat) ≠ 3 + 2 * (5 + 1) ∧ ¬ ((5 : Nat) = 1 ∨ (5 : Nat) = 2 ∨ (5 : Nat) = 3) := by
  refine ⟨?_, ?_, by omega, by omega⟩ <;> decide

/-- C6 amended: inside `[` or `{`, an index header is count digits, `#`,
and one digit giving the pointer width directly; when the width digit is
positive, exactly `count × width` characters of index data follow (here
fully present), emitted as one index-data token after the header token.
No 1-bias is applied and no `{1,2,3}` restriction is enforced. -/
theorem tryParseIndex_header_spec (t : List Nat) (s : LexSt) (i0 i1 : Nat)
    (hpos : s.pos = i0) (hle : i0 ≤ i1)
    (hdig : ∀ k, i0 ≤ k → k < i1 → isDigitCode (t.getD k 0))
    (hhash : t.getD i1 0 = 35)
    (hlen1 : i1 + 1 < t.length)
    (hwc : isDigitCode (t.getD (i1 + 1) 0))
    (hw : 0 < (digitValue (t.getD (i1 + 1) 0)).toNat)
    (hroom : i1 + 2 + (decodeRun t i0 i1).toNat * (digitValue (t.getD (i1 + 1) 0)).toNat
      ≤ t.length) :
    (tryParseIndex t s).pos =
      i1 + 2 + (decodeRun t i0 i1).toNat * (digitValue (t.getD (i1 + 1) 0)).toNat ∧
    (tryParseIndex t s).toks = s.toks ++ [⟨s.line, s.col, i1 + 2 - i0, 8⟩] ++
      (if 0 < (decodeRun t i0 i1).toNat * (digitValue (t.getD (i1 + 1) 0)).toNat then
        [⟨s.line, s.col + (i1 + 2 - i0),
          (decodeRun t i0 i1).toNat * (digitValue (t.getD (i1 + 1) 0)).toNat, 11⟩]
       else []) := by
  have h35 : ¬ isDigitCode (t.getD i1 0) := by rw [hhash]; decide
  have hs1 : scanDigits t (t.length + 1) s = { s with pos := i1, col := s.col + (i1 - i0) } :=
    scanDigits_exact t (t.length + 1) i0 i1 s hpos hle (by omega) hdig (Or.inr h35) (by omega)
  simp only [tryParseIndex]
  rw [hs1]
  rw [if_pos (show ({ s with pos := i1, col := s.col + (i1 - i0) } : LexSt).pos < t.length ∧
      t.getD ({ s with pos := i1, col := s.col + (i1 - i0) } : LexSt).pos 0 = 35 from
    ⟨by dsimp only; omega, by dsimp only; exact hhash⟩)]
  have e1 : advance t ({ s with pos := i1, col := s.col + (i1 - i0) } : LexSt) =
      { s with pos := i1 + 1, col := s.col + (i1 - i0) + 1 } := by
    rw [advance_ne10 _ (by dsimp only; rw [hhash]; omega)]
  rw [e1]
  rw [if_pos (show ({ s with pos := i1 + 1, col := s.col + (i1 - i0) + 1 } : LexSt).pos <
      t.length ∧
      isDigitCode
        (t.getD ({ s with pos := i1 + 1, col := s.col + (i1 - i0) + 1 } : LexSt).pos 0) =
        true from
    ⟨by dsimp only; omega, by dsimp only; exact hwc⟩)]
  have e2 : advance t ({ s with pos := i1 + 1, col := s.col + (i1 - i0) + 1 } : LexSt) =
      { s with pos := i1 + 2, col := s.col + (i1 - i0) + 2 } := by
    rw [advance_ne10 _ (by dsimp only; exact isDigitCode_ne10 hwc)]
  rw [e2]
  dsimp only
  rw [hpos]
  rw [if_pos hw]
  have hemit : emit s.line s.col (i1 + 2 - i0) 8
      ({ s with pos := i1 + 2, col := s.col + (i1 - i0) + 2 } : LexSt) =
      ({ s with
          pos := i1 + 2
          col := s.col + (i1 - i0) + 2
          toks := s.toks ++ [⟨s.line, s.col, i1 + 2 - i0, 8⟩] } : LexSt) := by
    unfold emit
    rw [if_pos (by omega)]
  rw [hemit]
  have hds := dataSkip_pos_toks t
    ((decodeRun t i0 i1).toNat * (digitValue (t.getD (i1 + 1) 0)).toNat)
    ({ s with
        pos := i1 + 2
        col := s.col + (i1 - i0) + 2
        toks := s.toks ++ [⟨s.line, s.col, i1 + 2 - i0, 8⟩] } : LexSt)
    (by dsimp only; omega)
  rw [emit_toks, emit_pos, hds.1, hds.2]
  dsimp only
  constructor
  · rfl
  · have hcol : s.col + (i1 - i0) + 2 = s.col + (i1 + 2 - i0) := by omega
    rw [hcol]
    have harith : i1 + 2 + (decodeRun t i0 i1).toNat *
        (digitValue (t.getD (i1 + 1) 0)).toNat - (i1 + 2) =
        (decodeRun t i0 i1).toNat * (digitValue (t.getD (i1 + 1) 0)).toNat := by
      omega
    rw [harith]

/-- Witness for C6's amended theorem on the header `"2#5"` with ten data
characters. -/
theorem tryParseIndex_header_spec_witness :
    (((⟨0, 0, 0, [], false⟩ : LexSt).pos = 0) ∧
      (0 : Nat) ≤ 1 ∧
      (∀ k, 0 ≤ k → k < 1 →
        isDigitCode (([50, 35, 53, 97, 97, 97, 97, 97, 97, 97, 97, 97, 97] : List Nat).getD k 0)) ∧
      ([50, 35, 53, 97, 97, 97, 97, 97, 97, 97, 97, 97, 97] : List Nat).getD 1 0 = 35) ∧
    (tryParseIndex [50, 35, 53, 97, 97, 97, 97, 97, 97, 97, 97, 97, 97]
      ⟨0, 0, 0, [], false⟩).pos =
      1 + 2 + (decodeRun [50, 35, 53, 97, 97, 97, 97, 97, 97, 97, 97, 97, 97] 0 1).toNat *
        (digitValue (([50, 35, 53, 97, 97, 97, 97, 97, 97, 97, 97, 97, 97] : List Nat).getD
          (1 + 1) 0)).toNat :=
  ⟨⟨rfl, by omega, by decide, by decide⟩,
    (tryParseIndex_header_spec [50, 35, 53, 97, 97, 97, 97, 97, 97, 97, 97, 97, 97]
      ⟨0, 0, 0, [], false⟩ 0 1 rfl (by omega) (by decide) (by decide) (by decide)
      (by decide) (by decide) (by decide)).1⟩

/-! ## Claim C7 -/

/-- C7: the raw-string container `,` carries its mandatory byte-length
prefix and no closing delimiter: a reader positioned at the digit prefix
consumes the prefix, the `,` tag, and then exactly the declared number of
characters as string content — the resulting position is independent of
what those characters are, so no closer is sought; and the modelled
encoder declares exactly the byte length of the body it writes after the
`,`. -/
theorem rawstring_consumes (t : List Nat) (f : Nat) (s : LexSt) (d0 d1 : Nat)
    (hpos : s.pos = d0) (hle : d0 ≤ d1)
    (hdig : ∀ k, d0 ≤ k → k < d1 → isDigitCode (t.getD k 0))
    (hcomma : t.getD d1 0 = 44)
    (hlen : d1 < t.length)
    (hroom : d1 + 1 + (decodeRun t d0 d1).toNat ≤ t.length) :
    (∃ s', parseOneValue t (f + 1) s = some s' ∧
      s'.pos = d1 + 1 + (decodeRun t d0 d1).toNat) ∧
    (∀ bs : List Nat, enc (.raw bs) = digitsN bs.length ++ 44 :: bs ∧
      decodeRun (enc (.raw bs)) 0 (digitsN bs.length).length = (bs.length : Int)) := by
  constructor
  · -- the tokenizer side
    have hc0 : t.getD d0 0 = 44 ∨ t.getD d0 0 ∈ DIGITS := by
      by_cases he : d0 = d1
      · subst he; exact Or.inl hcomma
      · exact Or.inr (by
          have := hdig d0 (le_refl _) (by omega)
          simpa [isDigitCode] using this)
    have hc0facts : ¬ isWs (t.getD d0 0) ∧ ¬ isBox (t.getD d0 0) ∧ t.getD d0 0 ≠ 47 ∧
        ¬ (t.getD d0 0 = 41 ∨ t.getD d0 0 = 93 ∨ t.getD d0 0 = 125) := by
      rcases hc0 with hc | hc
      · rw [hc]; refine ⟨by decide, by decide, by decide, by decide⟩
      · rw [mem_DIGITS] at hc
        simp only [isWs, isBox, decide_eq_true_eq]
        refine ⟨by omega, by omega, by omega, by omega⟩
    have hsA : skipNonCode t (t.length + 1) s = s := by
      refine skipNonCode_noop t t.length s (by omega) ?_ ?_ ?_ <;> rw [hpos]
      · exact hc0facts.1
      · exact hc0facts.2.1
      · exact hc0facts.2.2.1
    have h44 : ¬ isDigitCode (t.getD d1 0) := by rw [hcomma]; decide
    have hs1 : scanDigits t (t.length + 1) s =
        { s with pos := d1, col := s.col + (d1 - d0) } :=
      scanDigits_exact t (t.length + 1) d0 d1 s hpos hle (by omega) hdig (Or.inr h44)
        (by omega)
    rw [parseOneValue, run_one_eq, hsA, hs1]
    unfold runDisp
    rw [if_neg (by omega)]
    rw [if_neg (by rw [hpos]; exact hc0facts.2.2.2)]
    rw [if_neg (show ¬ (({ s with pos := d1, col := s.col + (d1 - d0) } : LexSt).pos ≥
      t.length) by dsimp only; omega)]
    rw [if_neg (show
      ¬ ¬ tagOk (t.getD ({ s with pos := d1, col := s.col + (d1 - d0) } : LexSt).pos 0) =
        true by
      dsimp only; rw [hcomma]; decide)]
    rw [if_neg (by dsimp only; rw [hcomma]; decide)]
    rw [if_neg (by dsimp only; rw [hcomma]; decide)]
    rw [if_neg (by dsimp only; rw [hcomma]; decide)]
    rw [if_neg (by dsimp only; rw [hcomma]; decide)]
    rw [if_pos (by dsimp only; rw [hcomma])]
    refine ⟨_, rfl, ?_⟩
    have hE : (emit ({ s with pos := d1, col := s.col + (d1 - d0) } : LexSt).line
        ({ s with pos := d1, col := s.col + (d1 - d0) } : LexSt).col 1 5
        (advance t (emit s.line s.col
          (({ s with pos := d1, col := s.col + (d1 - d0) } : LexSt).pos - s.pos) 0
          ({ s with pos := d1, col := s.col + (d1 - d0) } : LexSt)))).pos = d1 + 1 := by
      rw [emit_pos, advance_pos, emit_pos]
    rw [rawScan_pos t _ _ _ _ _ (by rw [hE]; dsimp only; rw [hpos]; omega), hE]
    dsimp only
    rw [hpos]
  · intro bs
    refine ⟨by simp [enc], ?_⟩
    have h := decodeRun_digitsN [] (44 :: bs) bs.length
    simp only [List.nil_append, List.length_nil, Nat.zero_add] at h
    simpa [enc] using h

/-- Witness for C7 on the input `"b,hello world"` (prefix `b` = 11 bytes
of content): the reader ends at position 13. -/
theorem rawstring_consumes_witness :
    ((⟨0, 0, 0, [], false⟩ : LexSt).pos = 0 ∧ (0 : Nat) ≤ 1 ∧
      ([98, 44, 104, 101, 108, 108, 111, 32, 119, 111, 114, 108, 100] : List Nat).getD 1 0 =
        44 ∧
      1 + 1 + (decodeRun [98, 44, 104, 101, 108, 108, 111, 32, 119, 111, 114, 108, 100]
        0 1).toNat ≤ 13) ∧
    ∃ s', parseOneValue [98, 44, 104, 101, 108, 108, 111, 32, 119, 111, 114, 108, 100] 3
        ⟨0, 0, 0, [], false⟩ = some s' ∧
      s'.pos = 1 + 1 + (decodeRun [98, 44, 104, 101, 108, 108, 111, 32, 119, 111, 114, 108,
        100] 0 1).toNat :=
  ⟨⟨rfl, by omega, by decide, by decide⟩,
    (rawstring_consumes [98, 44, 104, 101, 108, 108, 111, 32, 119, 111, 114, 108, 100] 2
      ⟨0, 0, 0, [], false⟩ 0 1 rfl (by omega) (by decide) (by decide) (by decide)
      (by decide)).1⟩

/-! ## Round-trip groundwork: zigzag, positions, digit runs -/

theorem zz_nonneg (n : Int) : 0 ≤ zz n := by
  unfold zz; split <;> omega

theorem zz_toNat (n : Int) : ((zz n).toNat : Int) = zz n :=
  Int.toNat_of_nonneg (zz_nonneg n)

theorem unzz_zz (n : Int) : unzz (zz n) = n := by
  unfold zz unzz; split <;> split <;> omega

theorem isDigitCode_iff {c : Nat} : isDigitCode c = true ↔ c ∈ DIGITS := by
  simp [isDigitCode]

theorem digitsN_mem {n : Nat} : ∀ x ∈ digitsN n, x ∈ DIGITS := by
  intro x hx
  obtain ⟨d, hd, rfl⟩ := List.mem_map.mp hx
  exact alphaCode_mem d (digitsOf_lt n d hd)

theorem digitsN_digit {n : Nat} : ∀ x ∈ digitsN n, isDigitCode x = true := by
  intro x hx; exact isDigitCode_iff.mpr (digitsN_mem x hx)

theorem alphaMap_mem (cs : List (Fin 64)) :
    ∀ x ∈ cs.map (fun d => alphaCode d.val), x ∈ DIGITS := by
  intro x hx
  obtain ⟨d, _, rfl⟩ := List.mem_map.mp hx
  exact alphaCode_mem d.val d.isLt

theorem alphaMap_digit (cs : List (Fin 64)) :
    ∀ x ∈ cs.map (fun d => alphaCode d.val), isDigitCode x = true := by
  intro x hx; exact isDigitCode_iff.mpr (alphaMap_mem cs x hx)

theorem getD_append_at (pre l post : List Nat) (i : Nat) (h : i < l.length) :
    (pre ++ l ++ post).getD (pre.length + i) 0 = l.getD i 0 := by
  rw [List.append_assoc, List.getD_append_right _ _ _ _ (Nat.le_add_right _ _)]
  rw [Nat.add_sub_cancel_left]
  exact List.getD_append _ _ _ _ h

theorem getD_head (A l B : List Nat) (h : l ≠ []) :
    (A ++ l ++ B).getD A.length 0 = l.headD 0 := by
  cases l with
  | nil => exact absurd rfl h
  | cons c t =>
    have := getD_append_at A (c :: t) B 0 (by simp)
    simpa using this

/-! ## Round-trip groundwork: digit-run end positions -/

theorem digEndGo_stop (buf : List Nat) :
    ∀ f p q, p ≤ q → q ≤ buf.length → q - p < f →
      (∀ k, p ≤ k → k < q → isDigitCode (buf.getD k 0) = true) →
      ¬(q < buf.length ∧ isDigitCode (buf.getD q 0) = true) →
      digEndGo buf f p = q := by
  intro f
  induction f with
  | zero => intro p q h1 _ h3 _ _; omega
  | succ f ih =>
    intro p q hpq hql hf hdig hstop
    by_cases hp : p = q
    · subst hp
      simp only [digEndGo]
      rw [if_neg hstop]
    · have hplt : p < q := lt_of_le_of_ne hpq hp
      simp only [digEndGo]
      rw [if_pos ⟨by omega, hdig p (le_refl p) hplt⟩]
      exact ih (p + 1) q (by omega) hql (by omega)
        (fun k hk1 hk2 => hdig k (by omega) hk2) hstop

theorem digEnd_stop (buf : List Nat) (p q : Nat) (hpq : p ≤ q) (hql : q ≤ buf.length)
    (hdig : ∀ k, p ≤ k → k < q → isDigitCode (buf.getD k 0) = true)
    (hstop : ¬(q < buf.length ∧ isDigitCode (buf.getD q 0) = true)) :
    digEnd buf p = q :=
  digEndGo_stop buf (buf.length + 1) p q hpq hql (by omega) hdig hstop

theorem digEnd_tag (pre ds : List Nat) (c : Nat) (rest : List Nat)
    (hd : ∀ d ∈ ds, isDigitCode d = true) (hc : isDigitCode c = false) :
    digEnd (pre ++ ds ++ c :: rest) pre.length = pre.length + ds.length := by
  apply digEnd_stop
  · omega
  · simp only [List.length_append, List.length_cons]; omega
  · intro k hk1 hk2
    have hi : k - pre.length < ds.length := by omega
    have heq : pre.length + (k - pre.length) = k := by omega
    rw [show k = pre.length + (k - pre.length) by omega,
      getD_append_at pre ds (c :: rest) _ hi]
    have : ds.getD (k - pre.length) 0 ∈ ds := by
      rw [List.getD_eq_getElem ds 0 hi]
      exact List.getElem_mem hi
    exact hd _ this
  · intro hcon
    have hh : (pre ++ ds ++ c :: rest).getD (pre.length + ds.length) 0 = c := by
      have := getD_head (pre ++ ds) (c :: rest) [] (by simp)
      simpa using this
    rw [hh] at hcon
    rw [hc] at hcon
    simp at hcon

/-! ## Round-trip groundwork: content renderings -/

theorem digit64_alphaCode : ∀ d : Fin 64, digit64 (alphaCode d.val) = d := by decide

theorem runVals_eq_slice (buf : List Nat) (p q : Nat) :
    runVals buf p q = (sliceD buf p (q - p)).map digit64 := by
  rw [runVals, sliceD, List.map_map]
  rfl

theorem runVals_render (pre post : List Nat) (cs : List (Fin 64)) :
    runVals (pre ++ cs.map (fun d => alphaCode d.val) ++ post) pre.length
      (pre.length + cs.length) = cs := by
  rw [runVals_eq_slice, Nat.add_sub_cancel_left]
  rw [show cs.length = (cs.map (fun d => alphaCode d.val)).length by simp]
  rw [sliceD_append pre (cs.map (fun d => alphaCode d.val)) post]
  rw [List.map_map]
  have : (digit64 ∘ fun d => alphaCode d.val) = id := by
    funext d
    exact digit64_alphaCode d
  rw [this, List.map_id]

/-! ## Round-trip groundwork: encoding heads -/

theorem enc_ne_nil : ∀ v, enc v ≠ [] := by
  intro v
  cases v <;> simp [enc]

theorem headD_run_tag (ds : List Nat) (c : Nat) (t : List Nat)
    (hds : ∀ x ∈ ds, x ∈ DIGITS) :
    (ds ++ c :: t).headD 0 ∈ DIGITS ∨ (ds ++ c :: t).headD 0 = c := by
  cases ds with
  | nil => right; rfl
  | cons d ds' => left; exact hds d (by simp)

theorem enc_headD_mem (v : Value) :
    (enc v).headD 0 ∈ DIGITS ∨
      (enc v).headD 0 ∈ ([43, 42, 58, 44, 37, 64, 36, 91, 123, 40, 61, 126, 63,
        33, 124, 38] : List Nat) := by
  cases v with
  | integer n =>
    rcases headD_run_tag (digitsZ n) 43 [] digitsN_mem with h | h
    · left; simpa [enc] using h
    · right; rw [enc]; rw [show digitsZ n ++ [43] = digitsZ n ++ 43 :: [] from rfl, h]; decide
  | decimal p s =>
    rcases headD_run_tag (digitsZ p) 42 (digitsZ s ++ [43]) digitsN_mem with h | h
    · left; simpa [enc] using h
    · right; rw [enc, h]; decide
  | bare cs =>
    rcases headD_run_tag (cs.map (fun d => alphaCode d.val)) 58 [] (alphaMap_mem cs) with h | h
    · left; simpa [enc] using h
    · right
      rw [enc, show cs.map (fun d => alphaCode d.val) ++ [58] =
        cs.map (fun d => alphaCode d.val) ++ 58 :: [] from rfl, h]
      decide
  | raw bs =>
    rcases headD_run_tag (digitsN bs.length) 44 bs digitsN_mem with h | h
    · left; simpa [enc] using h
    · right; rw [enc, h]; decide
  | opcode n =>
    rcases headD_run_tag (digitsN n) 37 [] digitsN_mem with h | h
    · left; simpa [enc] using h
    · right; rw [enc, show digitsN n ++ [37] = digitsN n ++ 37 :: [] from rfl, h]; decide
  | ref n =>
    rcases headD_run_tag (digitsN n) 64 [] digitsN_mem with h | h
    · left; simpa [enc] using h
    · right; rw [enc, show digitsN n ++ [64] = digitsN n ++ 64 :: [] from rfl, h]; decide
  | varv cs =>
    rcases headD_run_tag (cs.map (fun d => alphaCode d.val)) 36 [] (alphaMap_mem cs) with h | h
    · left; simpa [enc] using h
    · right
      rw [enc, show cs.map (fun d => alphaCode d.val) ++ [36] =
        cs.map (fun d => alphaCode d.val) ++ 36 :: [] from rfl, h]
      decide
  | arr vs => right; rw [show (enc (.arr vs)).headD 0 = 91 from rfl]; decide
  | obj ps => right; rw [show (enc (.obj ps)).headD 0 = 123 from rfl]; decide
  | call vs => right; rw [show (enc (.call vs)).headD 0 = 40 from rfl]; decide
  | setv pl v => right; rw [show (enc (.setv pl v)).headD 0 = 61 from rfl]; decide
  | delv pl => right; rw [show (enc (.delv pl)).headD 0 = 126 from rfl]; decide
  | whenv c th e => right; rw [show (enc (.whenv c th e)).headD 0 = 63 from rfl]; decide
  | unlessv c th e => right; rw [show (enc (.unlessv c th e)).headD 0 = 33 from rfl]; decide
  | altv h tl => right; rw [show (enc (.altv h tl)).headD 0 = 124 from rfl]; decide
  | allv h tl => right; rw [show (enc (.allv h tl)).headD 0 = 38 from rfl]; decide

theorem DIGITS_not_closer : ∀ c ∈ DIGITS, ¬(c = 41 ∨ c = 93 ∨ c = 125) := by decide

theorem tags_not_closer :
    ∀ c ∈ ([43, 42, 58, 44, 37, 64, 36, 91, 123, 40, 61, 126, 63, 33, 124, 38] : List Nat),
      ¬(c = 41 ∨ c = 93 ∨ c = 125) := by decide

theorem enc_headD_not_closer (v : Value) :
    ¬((enc v).headD 0 = 41 ∨ (enc v).headD 0 = 93 ∨ (enc v).headD 0 = 125) := by
  rcases enc_headD_mem v with h | h
  · exact DIGITS_not_closer _ h
  · exact tags_not_closer _ h

theorem segB_ne_nil (b : Bool) (v : Value) : segB b v ≠ [] := by
  rw [segB]
  cases b with
  | false => simpa using enc_ne_nil v
  | true =>
    rw [if_pos rfl, prefIf]
    by_cases hc : isCont v = true
    · rw [if_pos hc]
      simp [enc_ne_nil v]
    · rw [if_neg hc]
      exact enc_ne_nil v

theorem segB_headD_not_closer (b : Bool) (v : Value) :
    ¬((segB b v).headD 0 = 41 ∨ (segB b v).headD 0 = 93 ∨ (segB b v).headD 0 = 125) := by
  rw [segB]
  cases b with
  | false => simpa using enc_headD_not_closer v
  | true =>
    rw [if_pos rfl, prefIf]
    by_cases hcv : isCont v = true
    · rw [if_pos hcv]
      rcases hds : digitsN ((enc v).length - overhead v) with _ | ⟨d, ds⟩
      · simpa using enc_headD_not_closer v
      · have hd : d ∈ DIGITS := by
          apply digitsN_mem
          rw [hds]
          simp
        simpa using DIGITS_not_closer d hd
    · rw [if_neg hcv]
      exact enc_headD_not_closer v

/-! ## Round-trip groundwork: segment views of container bodies -/

theorem vlist_spine_ind (P : VList → Prop) (h0 : P .nil)
    (h1 : ∀ v vs, P vs → P (.cons v vs)) : ∀ vs, P vs := by
  have key : ∀ n vs, szL vs ≤ n → P vs := by
    intro n
    induction n with
    | zero => intro vs h; cases vs <;> simp only [szL] at h <;> omega
    | succ n ih =>
      intro vs h
      cases vs with
      | nil => exact h0
      | cons v vs =>
        simp only [szL] at h
        exact h1 v vs (ih vs (by omega))
  intro vs
  exact key (szL vs) vs (le_refl _)

theorem plist_spine_ind (P : PList → Prop) (h0 : P .nil)
    (h1 : ∀ k v ps, P ps → P (.cons k v ps)) : ∀ ps, P ps := by
  have key : ∀ n ps, szP ps ≤ n → P ps := by
    intro n
    induction n with
    | zero => intro ps h; cases ps <;> simp only [szP] at h <;> omega
    | succ n ih =>
      intro ps h
      cases ps with
      | nil => exact h0
      | cons k v ps =>
        simp only [szP] at h
        exact h1 k v ps (ih ps (by omega))
  intro ps
  exact key (szP ps) ps (le_refl _)

theorem segB_true (v : Value) : segB true v = prefIf v (enc v) := rfl

theorem segB_false (v : Value) : segB false v = enc v := rfl

theorem encElems_segs : ∀ vs, encElems vs = concatSegs (segsOf true vs) := by
  intro vs
  induction vs using vlist_spine_ind with
  | h0 => rfl
  | h1 v vs ih => rw [encElems, segsOf, concatSegs, segB_true, ih]

theorem encArgs_segs : ∀ vs, encArgs vs = concatSegs (segsOf false vs) := by
  intro vs
  induction vs using vlist_spine_ind with
  | h0 => rfl
  | h1 v vs ih => rw [encArgs, segsOf, concatSegs, segB_false, ih]

theorem encPairs_segs : ∀ ps, encPairs ps = concatSegs (flatP ps) := by
  intro ps
  induction ps using plist_spine_ind with
  | h0 => rfl
  | h1 k v ps ih =>
    rw [encPairs, flatP, concatSegs, concatSegs, segB_false, segB_true, ih,
      List.append_assoc]

theorem encOpt_segs : ∀ e, encOpt e = concatSegs (optSegs e) := by
  intro e
  cases e with
  | onone => rfl
  | osome v => rw [encOpt, optSegs, concatSegs, concatSegs, segB_true, List.append_nil]

theorem szSegs_segsOf (b : Bool) : ∀ vs, szSegs (segsOf b vs) = szL vs := by
  intro vs
  induction vs using vlist_spine_ind with
  | h0 => rfl
  | h1 v vs ih => rw [segsOf, szSegs, szL, ih]

theorem szSegs_flatP : ∀ ps, szSegs (flatP ps) = szP ps := by
  intro ps
  induction ps using plist_spine_ind with
  | h0 => rfl
  | h1 k v ps ih => rw [flatP, szSegs, szSegs, szP, ih]; omega

theorem szSegs_optSegs : ∀ e, szSegs (optSegs e) = szO e := by
  intro e
  cases e with
  | onone => rfl
  | osome v => rw [optSegs, szSegs, szSegs, szO]; omega

theorem mapSnd_segsOf (b : Bool) : ∀ vs, (segsOf b vs).map Prod.snd = VList.toList vs := by
  intro vs
  induction vs using vlist_spine_ind with
  | h0 => rfl
  | h1 v vs ih => rw [segsOf, List.map_cons, ih, VList.toList]

theorem ofList_toList : ∀ vs, VList.ofList (VList.toList vs) = vs := by
  intro vs
  induction vs using vlist_spine_ind with
  | h0 => rfl
  | h1 v vs ih => rw [VList.toList, VList.ofList, ih]

theorem pairUp_flatP : ∀ ps, pairUp ((flatP ps).map Prod.snd) = some ps := by
  intro ps
  induction ps using plist_spine_ind with
  | h0 => rfl
  | h1 k v ps ih => rw [flatP, List.map_cons, List.map_cons, pairUp, ih]; rfl

/-! ## Round-trip groundwork: decoder fuel bounded by encoding length -/

theorem prefIf_len_ge (v : Value) (e : List Nat) : e.length ≤ (prefIf v e).length := by
  rw [prefIf]
  split
  · simp
  · exact le_refl _

theorem szBound :
    ∀ n : Nat,
      (∀ v : Value, sz v ≤ n → sz v + 1 ≤ 2 * (enc v).length) ∧
      (∀ vs : VList, szL vs ≤ n →
        szL vs ≤ 2 + 2 * (encElems vs).length ∧ szL vs ≤ 2 + 2 * (encArgs vs).length) ∧
      (∀ ps : PList, szP ps ≤ n → szP ps ≤ 2 + 2 * (encPairs ps).length) ∧
      (∀ e : VOpt, szO e ≤ n → szO e ≤ 1 + 2 * (encOpt e).length) := by
  intro n
  induction n using Nat.strong_induction_on with
  | _ n ih =>
  refine ⟨?_, ?_, ?_, ?_⟩
  · intro v hv
    cases v with
    | integer m => simp [sz, enc]
    | decimal p s => simp [sz, enc]; omega
    | bare cs => simp [sz, enc]
    | raw bs => simp [sz, enc]; omega
    | opcode m => simp [sz, enc]
    | ref m => simp [sz, enc]
    | varv cs => simp [sz, enc]
    | arr vs =>
      simp only [sz] at hv ⊢
      have hL := ((ih (n - 1) (by omega)).2.1 vs (by omega)).1
      simp only [enc, List.length_cons, List.length_append, List.length_nil]
      omega
    | obj ps =>
      simp only [sz] at hv ⊢
      have hP := (ih (n - 1) (by omega)).2.2.1 ps (by omega)
      simp only [enc, List.length_cons, List.length_append, List.length_nil]
      omega
    | call vs =>
      simp only [sz] at hv ⊢
      have hL := ((ih (n - 1) (by omega)).2.1 vs (by omega)).2
      simp only [enc, List.length_cons, List.length_append, List.length_nil]
      omega
    | setv pl v =>
      simp only [sz] at hv ⊢
      have h1 := (ih (n - 1) (by omega)).1 pl (by omega)
      have h2 := (ih (n - 1) (by omega)).1 v (by omega)
      simp only [enc, List.length_cons, List.length_append, List.length_nil]
      omega
    | delv pl =>
      simp only [sz] at hv ⊢
      have h1 := (ih (n - 1) (by omega)).1 pl (by omega)
      simp only [enc, List.length_cons, List.length_append, List.length_nil]
      omega
    | whenv c th e =>
      simp only [sz] at hv ⊢
      have h1 := (ih (n - 1) (by omega)).1 c (by omega)
      have h2 := (ih (n - 1) (by omega)).1 th (by omega)
      have h3 := (ih (n - 1) (by omega)).2.2.2 e (by omega)
      have h4 := prefIf_len_ge th (enc th)
      simp only [enc, List.length_cons, List.length_append, List.length_nil]
      omega
    | unlessv c th e =>
      simp only [sz] at hv ⊢
      have h1 := (ih (n - 1) (by omega)).1 c (by omega)
      have h2 := (ih (n - 1) (by omega)).1 th (by omega)
      have h3 := (ih (n - 1) (by omega)).2.2.2 e (by omega)
      have h4 := prefIf_len_ge th (enc th)
      simp only [enc, List.length_cons, List.length_append, List.length_nil]
      omega
    | altv h tl =>
      simp only [sz] at hv ⊢
      have h1 := (ih (n - 1) (by omega)).1 h (by omega)
      have h2 := ((ih (n - 1) (by omega)).2.1 tl (by omega)).1
      simp only [enc, List.length_cons, List.length_append, List.length_nil]
      omega
    | allv h tl =>
      simp only [sz] at hv ⊢
      have h1 := (ih (n - 1) (by omega)).1 h (by omega)
      have h2 := ((ih (n - 1) (by omega)).2.1 tl (by omega)).1
      simp only [enc, List.length_cons, List.length_append, List.length_nil]
      omega
  · intro vs hvs
    cases vs with
    | nil => simp [szL, encElems, encArgs]
    | cons v vs =>
      simp only [szL] at hvs ⊢
      have h1 := (ih (n - 1) (by omega)).1 v (by omega)
      have h2 := (ih (n - 1) (by omega)).2.1 vs (by omega)
      have h3 := prefIf_len_ge v (enc v)
      constructor
      · simp only [encElems, List.length_append]
        omega
      · simp only [encArgs, List.length_append]
        omega
  · intro ps hps
    cases ps with
    | nil => simp [szP, encPairs]
    | cons k v ps =>
      simp only [szP] at hps ⊢
      have h1 := (ih (n - 1) (by omega)).1 k (by omega)
      have h2 := (ih (n - 1) (by omega)).1 v (by omega)
      have h3 := (ih (n - 1) (by omega)).2.2.1 ps (by omega)
      have h4 := prefIf_len_ge v (enc v)
      simp only [encPairs, List.length_append]
      omega
  · intro e he
    cases e with
    | onone => simp [szO, encOpt]
    | osome v =>
      simp only [szO] at he ⊢
      have h1 := (ih (n - 1) (by omega)).1 v (by omega)
      have h2 := prefIf_len_ge v (enc v)
      simp only [encOpt]
      omega

theorem sz_lt_twice (v : Value) : sz v + 1 ≤ 2 * (enc v).length :=
  (szBound (sz v)).1 v (le_refl _)

theorem not_digit_stop {buf : List Nat} {q c : Nat} (hc : buf.getD q 0 = c)
    (hnd : isDigitCode c = false) :
    ¬(q < buf.length ∧ isDigitCode (buf.getD q 0) = true) := by
  rw [hc, hnd]
  simp

theorem enc_cont_head (v : Value) (h : isCont v = true) :
    (enc v).headD 0 ∈ ([91, 123, 40, 61, 126, 63, 33, 124, 38] : List Nat) := by
  cases v <;> simp only [isCont] at h <;> first
  | exact absurd h (by decide)
  | (rw [show (enc (.arr _)).headD 0 = 91 from rfl]; decide)
  | (rw [show (enc (.obj _)).headD 0 = 123 from rfl]; decide)
  | (rw [show (enc (.call _)).headD 0 = 40 from rfl]; decide)
  | (rw [show (enc (.setv _ _)).headD 0 = 61 from rfl]; decide)
  | (rw [show (enc (.delv _)).headD 0 = 126 from rfl]; decide)
  | (rw [show (enc (.whenv _ _ _)).headD 0 = 63 from rfl]; decide)
  | (rw [show (enc (.unlessv _ _ _)).headD 0 = 33 from rfl]; decide)
  | (rw [show (enc (.altv _ _)).headD 0 = 124 from rfl]; decide)
  | (rw [show (enc (.allv _ _)).headD 0 = 38 from rfl]; decide)

/-! ## Round-trip groundwork: a digit prefix before a container opener is
skipped (the decoder's digit run swallows it and dispatch happens at the
opener, independent of where the run began). -/

theorem decOne_skip (buf : List Nat) (f p q : Nat) (hpq : p ≤ q)
    (hdig : ∀ k, p ≤ k → k < q → isDigitCode (buf.getD k 0) = true)
    (hq : q < buf.length)
    (hop : buf.getD q 0 ∈ ([91, 123, 40, 61, 126, 63, 33, 124, 38] : List Nat)) :
    decOne buf f p = decOne buf f q := by
  cases f with
  | zero => rfl
  | succ f =>
    have hnd : isDigitCode (buf.getD q 0) = false := by
      rcases (by simpa using hop : buf.getD q 0 = 91 ∨ buf.getD q 0 = 123 ∨
          buf.getD q 0 = 40 ∨ buf.getD q 0 = 61 ∨ buf.getD q 0 = 126 ∨
          buf.getD q 0 = 63 ∨ buf.getD q 0 = 33 ∨ buf.getD q 0 = 124 ∨
          buf.getD q 0 = 38) with h|h|h|h|h|h|h|h|h <;> rw [h] <;> decide
    have h1 : digEnd buf p = q :=
      digEnd_stop buf p q hpq (le_of_lt hq) hdig (by rw [hnd]; simp)
    have h2 : digEnd buf q = q :=
      digEnd_stop buf q q (le_refl q) (le_of_lt hq)
        (fun k hk1 hk2 => absurd (lt_of_le_of_lt hk1 hk2) (lt_irrefl q))
        (by rw [hnd]; simp)
    simp only [decOne]
    rw [h1, h2]
    rcases (by simpa using hop : buf.getD q 0 = 91 ∨ buf.getD q 0 = 123 ∨
        buf.getD q 0 = 40 ∨ buf.getD q 0 = 61 ∨ buf.getD q 0 = 126 ∨
        buf.getD q 0 = 63 ∨ buf.getD q 0 = 33 ∨ buf.getD q 0 = 124 ∨
        buf.getD q 0 = 38) with h|h|h|h|h|h|h|h|h <;> rw [h] <;> norm_num

theorem rt_integer (buf pre post : List Nat) (n : Int) (f p : Nat)
    (hbuf : buf = pre ++ enc (.integer n) ++ post) (hp : p = pre.length) :
    decOne buf (f + 1) p = some (.integer n, p + (enc (.integer n)).length) := by
  subst hp
  have hbuf2 : buf = pre ++ digitsZ n ++ 43 :: post := by
    rw [hbuf]; simp [enc]
  subst hbuf2
  have hq1 : digEnd (pre ++ digitsZ n ++ 43 :: post) pre.length =
      pre.length + (digitsZ n).length :=
    digEnd_tag pre (digitsZ n) 43 post (fun d hd => digitsN_digit d hd) (by decide)
  have hlen : pre.length + (digitsZ n).length < (pre ++ digitsZ n ++ 43 :: post).length := by
    simp only [List.length_append, List.length_cons]; omega
  have hc : (pre ++ digitsZ n ++ 43 :: post).getD (pre.length + (digitsZ n).length) 0 = 43 := by
    have := getD_head (pre ++ digitsZ n) (43 :: post) [] (by simp)
    simpa using this
  simp only [decOne]
  rw [hq1, if_pos hlen, hc, if_pos rfl]
  have hdr : decodeRun (pre ++ digitsZ n ++ 43 :: post) pre.length
      (pre.length + (digitsZ n).length) = ((zz n).toNat : Int) :=
    decodeRun_digitsN pre (43 :: post) (zz n).toNat
  rw [hdr, zz_toNat, unzz_zz]
  have hL : (enc (.integer n)).length = (digitsZ n).length + 1 := by simp [enc]
  rw [hL]
  have harith : pre.length + (digitsZ n).length + 1 = pre.length + ((digitsZ n).length + 1) := by
    omega
  rw [harith]

theorem rt_opcode (buf pre post : List Nat) (m : Nat) (f p : Nat)
    (hbuf : buf = pre ++ enc (.opcode m) ++ post) (hp : p = pre.length) :
    decOne buf (f + 1) p = some (.opcode m, p + (enc (.opcode m)).length) := by
  subst hp
  have hbuf2 : buf = pre ++ digitsN m ++ 37 :: post := by
    rw [hbuf]; simp [enc]
  subst hbuf2
  have hq1 : digEnd (pre ++ digitsN m ++ 37 :: post) pre.length =
      pre.length + (digitsN m).length :=
    digEnd_tag pre (digitsN m) 37 post digitsN_digit (by decide)
  have hlen : pre.length + (digitsN m).length < (pre ++ digitsN m ++ 37 :: post).length := by
    simp only [List.length_append, List.length_cons]; omega
  have hc : (pre ++ digitsN m ++ 37 :: post).getD (pre.length + (digitsN m).length) 0 = 37 := by
    have := getD_head (pre ++ digitsN m) (37 :: post) [] (by simp)
    simpa using this
  simp only [decOne]
  rw [hq1, if_pos hlen, hc, if_neg (by decide), if_neg (by decide), if_neg (by decide),
    if_pos rfl]
  have hdr : decodeRun (pre ++ digitsN m ++ 37 :: post) pre.length
      (pre.length + (digitsN m).length) = (m : Int) :=
    decodeRun_digitsN pre (37 :: post) m
  rw [hdr, Int.toNat_natCast]
  have hL : (enc (.opcode m)).length = (digitsN m).length + 1 := by simp [enc]
  rw [hL]
  have harith : pre.length + (digitsN m).length + 1 =
      pre.length + ((digitsN m).length + 1) := by omega
  rw [harith]

theorem rt_ref (buf pre post : List Nat) (m : Nat) (f p : Nat)
    (hbuf : buf = pre ++ enc (.ref m) ++ post) (hp : p = pre.length) :
    decOne buf (f + 1) p = some (.ref m, p + (enc (.ref m)).length) := by
  subst hp
  have hbuf2 : buf = pre ++ digitsN m ++ 64 :: post := by
    rw [hbuf]; simp [enc]
  subst hbuf2
  have hq1 : digEnd (pre ++ digitsN m ++ 64 :: post) pre.length =
      pre.length + (digitsN m).length :=
    digEnd_tag pre (digitsN m) 64 post digitsN_digit (by decide)
  have hlen : pre.length + (digitsN m).length < (pre ++ digitsN m ++ 64 :: post).length := by
    simp only [List.length_append, List.length_cons]; omega
  have hc : (pre ++ digitsN m ++ 64 :: post).getD (pre.length + (digitsN m).length) 0 = 64 := by
    have := getD_head (pre ++ digitsN m) (64 :: post) [] (by simp)
    simpa using this
  simp only [decOne]
  rw [hq1, if_pos hlen, hc, if_neg (by decide), if_neg (by decide), if_neg (by decide),
    if_neg (by decide), if_pos rfl]
  have hdr : decodeRun (pre ++ digitsN m ++ 64 :: post) pre.length
      (pre.length + (digitsN m).length) = (m : Int) :=
    decodeRun_digitsN pre (64 :: post) m
  rw [hdr, Int.toNat_natCast]
  have hL : (enc (.ref m)).length = (digitsN m).length + 1 := by simp [enc]
  rw [hL]
  have harith : pre.length + (digitsN m).length + 1 =
      pre.length + ((digitsN m).length + 1) := by omega
  rw [harith]

theorem rt_bare (buf pre post : List Nat) (cs : List (Fin 64)) (f p : Nat)
    (hbuf : buf = pre ++ enc (.bare cs) ++ post) (hp : p = pre.length) :
    decOne buf (f + 1) p = some (.bare cs, p + (enc (.bare cs)).length) := by
  subst hp
  have hbuf2 : buf = pre ++ cs.map (fun d => alphaCode d.val) ++ 58 :: post := by
    rw [hbuf]; simp [enc]
  subst hbuf2
  have hq1 : digEnd (pre ++ cs.map (fun d => alphaCode d.val) ++ 58 :: post) pre.length =
      pre.length + (cs.map (fun d => alphaCode d.val)).length :=
    digEnd_tag pre (cs.map (fun d => alphaCode d.val)) 58 post (alphaMap_digit cs) (by decide)
  have hq1' : digEnd (pre ++ cs.map (fun d => alphaCode d.val) ++ 58 :: post) pre.length =
      pre.length + cs.length := by simpa using hq1
  have hlen : pre.length + cs.length <
      (pre ++ cs.map (fun d => alphaCode d.val) ++ 58 :: post).length := by
    simp only [List.length_append, List.length_cons, List.length_map]; omega
  have hc : (pre ++ cs.map (fun d => alphaCode d.val) ++ 58 :: post).getD
      (pre.length + cs.length) 0 = 58 := by
    have := getD_head (pre ++ cs.map (fun d => alphaCode d.val)) (58 :: post) [] (by simp)
    simpa using this
  simp only [decOne]
  rw [hq1', if_pos hlen, hc, if_neg (by decide), if_neg (by decide), if_pos rfl]
  rw [runVals_render pre (58 :: post) cs]
  have hL : (enc (.bare cs)).length = cs.length + 1 := by simp [enc]
  rw [hL]
  have harith : pre.length + cs.length + 1 = pre.length + (cs.length + 1) := by omega
  rw [harith]

theorem rt_varv (buf pre post : List Nat) (cs : List (Fin 64)) (f p : Nat)
    (hbuf : buf = pre ++ enc (.varv cs) ++ post) (hp : p = pre.length) :
    decOne buf (f + 1) p = some (.varv cs, p + (enc (.varv cs)).length) := by
  subst hp
  have hbuf2 : buf = pre ++ cs.map (fun d => alphaCode d.val) ++ 36 :: post := by
    rw [hbuf]; simp [enc]
  subst hbuf2
  have hq1 : digEnd (pre ++ cs.map (fun d => alphaCode d.val) ++ 36 :: post) pre.length =
      pre.length + (cs.map (fun d => alphaCode d.val)).length :=
    digEnd_tag pre (cs.map (fun d => alphaCode d.val)) 36 post (alphaMap_digit cs) (by decide)
  have hq1' : digEnd (pre ++ cs.map (fun d => alphaCode d.val) ++ 36 :: post) pre.length =
      pre.length + cs.length := by simpa using hq1
  have hlen : pre.length + cs.length <
      (pre ++ cs.map (fun d => alphaCode d.val) ++ 36 :: post).length := by
    simp only [List.length_append, List.length_cons, List.length_map]; omega
  have hc : (pre ++ cs.map (fun d => alphaCode d.val) ++ 36 :: post).getD
      (pre.length + cs.length) 0 = 36 := by
    have := getD_head (pre ++ cs.map (fun d => alphaCode d.val)) (36 :: post) [] (by simp)
    simpa using this
  simp only [decOne]
  rw [hq1', if_pos hlen, hc, if_neg (by decide), if_neg (by decide), if_neg (by decide),
    if_neg (by decide), if_neg (by decide), if_pos rfl]
  rw [runVals_render pre (36 :: post) cs]
  have hL : (enc (.varv cs)).length = cs.length + 1 := by simp [enc]
  rw [hL]
  have harith : pre.length + cs.length + 1 = pre.length + (cs.length + 1) := by omega
  rw [harith]

theorem rt_raw (buf pre post : List Nat) (bs : List Nat) (f p : Nat)
    (hbuf : buf = pre ++ enc (.raw bs) ++ post) (hp : p = pre.length) :
    decOne buf (f + 1) p = some (.raw bs, p + (enc (.raw bs)).length) := by
  subst hp
  have hbuf2 : buf = pre ++ digitsN bs.length ++ 44 :: (bs ++ post) := by
    rw [hbuf]; simp [enc]
  subst hbuf2
  have hq1 : digEnd (pre ++ digitsN bs.length ++ 44 :: (bs ++ post)) pre.length =
      pre.length + (digitsN bs.length).length :=
    digEnd_tag pre (digitsN bs.length) 44 (bs ++ post) digitsN_digit (by decide)
  have hlen : pre.length + (digitsN bs.length).length <
      (pre ++ digitsN bs.length ++ 44 :: (bs ++ post)).length := by
    simp only [List.length_append, List.length_cons]; omega
  have hc : (pre ++ digitsN bs.length ++ 44 :: (bs ++ post)).getD
      (pre.length + (digitsN bs.length).length) 0 = 44 := by
    have := getD_head (pre ++ digitsN bs.length) (44 :: (bs ++ post)) [] (by simp)
    simpa using this
  simp only [decOne]
  rw [hq1, if_pos hlen, hc, if_neg (by decide), if_neg (by decide), if_neg (by decide),
    if_neg (by decide), if_neg (by decide), if_neg (by decide), if_neg (by decide),
    if_pos rfl]
  have hdr : decodeRun (pre ++ digitsN bs.length ++ 44 :: (bs ++ post)) pre.length
      (pre.length + (digitsN bs.length).length) = (bs.length : Int) :=
    decodeRun_digitsN pre (44 :: (bs ++ post)) bs.length
  rw [hdr, Int.toNat_natCast]
  rw [if_pos (by simp only [List.length_append, List.length_cons]; omega)]
  have hslice : (List.range' (pre.length + (digitsN bs.length).length + 1) bs.length).map
      (fun i => (pre ++ digitsN bs.length ++ 44 :: (bs ++ post)).getD i 0) = bs := by
    have hshape : pre ++ digitsN bs.length ++ 44 :: (bs ++ post) =
        (pre ++ digitsN bs.length ++ [44]) ++ bs ++ post := by simp
    have hpos : pre.length + (digitsN bs.length).length + 1 =
        (pre ++ digitsN bs.length ++ [44]).length := by
      simp only [List.length_append, List.length_cons, List.length_nil]
    rw [hshape, hpos]
    exact sliceD_append (pre ++ digitsN bs.length ++ [44]) bs post
  rw [hslice]
  have hL : (enc (.raw bs)).length = (digitsN bs.length).length + 1 + bs.length := by
    simp [enc]; omega
  rw [hL]
  have harith : pre.length + (digitsN bs.length).length + 1 + bs.length =
      pre.length + ((digitsN bs.length).length + 1 + bs.length) := by omega
  rw [harith]

theorem rt_decimal (buf pre post : List Nat) (a b : Int) (f p : Nat) (hf : 1 ≤ f)
    (hbuf : buf = pre ++ enc (.decimal a b) ++ post) (hp : p = pre.length) :
    decOne buf (f + 1) p = some (.decimal a b, p + (enc (.decimal a b)).length) := by
  subst hp
  have hbuf2 : buf = pre ++ digitsZ a ++ 42 :: (digitsZ b ++ 43 :: post) := by
    rw [hbuf]; simp [enc]
  subst hbuf2
  have hq1 : digEnd (pre ++ digitsZ a ++ 42 :: (digitsZ b ++ 43 :: post)) pre.length =
      pre.length + (digitsZ a).length :=
    digEnd_tag pre (digitsZ a) 42 (digitsZ b ++ 43 :: post)
      (fun d hd => digitsN_digit d hd) (by decide)
  have hlen : pre.length + (digitsZ a).length <
      (pre ++ digitsZ a ++ 42 :: (digitsZ b ++ 43 :: post)).length := by
    simp only [List.length_append, List.length_cons]; omega
  have hc : (pre ++ digitsZ a ++ 42 :: (digitsZ b ++ 43 :: post)).getD
      (pre.length + (digitsZ a).length) 0 = 42 := by
    have := getD_head (pre ++ digitsZ a) (42 :: (digitsZ b ++ 43 :: post)) [] (by simp)
    simpa using this
  simp only [decOne]
  rw [hq1, if_pos hlen, hc, if_neg (by decide), if_pos rfl]
  obtain ⟨f1, rfl⟩ : ∃ f1, f = f1 + 1 := ⟨f - 1, by omega⟩
  have hint := rt_integer (pre ++ digitsZ a ++ 42 :: (digitsZ b ++ 43 :: post))
    (pre ++ digitsZ a ++ [42]) post b f1 (pre.length + (digitsZ a).length + 1)
    (by simp [enc]) (by
      simp only [List.length_append, List.length_cons, List.length_nil])
  rw [hint]
  have hdr : decodeRun (pre ++ digitsZ a ++ 42 :: (digitsZ b ++ 43 :: post)) pre.length
      (pre.length + (digitsZ a).length) = ((zz a).toNat : Int) :=
    decodeRun_digitsN pre (42 :: (digitsZ b ++ 43 :: post)) (zz a).toNat
  rw [hdr, zz_toNat, unzz_zz]
  have harith : pre.length + (digitsZ a).length + 1 + (enc (.integer b)).length =
      pre.length + (enc (.decimal a b)).length := by
    simp only [enc, List.length_append, List.length_cons]
    omega
  rw [harith]

/-! ## The round-trip induction: decoding an encoding — plain, in skip
position, and as a container body — recovers the value, children and
positions exactly.  Strong induction on the decoder fuel measure `sz`. -/

theorem rtAll :
    ∀ n : Nat,
      (∀ v : Value, sz v ≤ n → ∀ (buf pre post : List Nat) (f p : Nat), sz v ≤ f →
        buf = pre ++ enc v ++ post → p = pre.length →
        decOne buf f p = some (v, p + (enc v).length)) ∧
      (∀ v : Value, sz v ≤ n →
        ∀ (buf pre post : List Nat) (f p : Nat) (b : Bool), sz v ≤ f →
        buf = pre ++ segB b v ++ post → p = pre.length →
        decOne buf f p = some (v, p + (segB b v).length)) ∧
      (∀ l : List (Bool × Value), szSegs l ≤ n →
        ∀ (buf pre post : List Nat) (closer f p : Nat), szSegs l ≤ f →
          closer = 41 ∨ closer = 93 ∨ closer = 125 →
          buf = pre ++ concatSegs l ++ closer :: post → p = pre.length →
          decSeq buf closer f p = some (l.map Prod.snd, p + (concatSegs l).length + 1)) := by
  intro n
  induction n using Nat.strong_induction_on with
  | _ n ih =>
  have hRT1 : ∀ v : Value, sz v ≤ n → ∀ (buf pre post : List Nat) (f p : Nat), sz v ≤ f →
      buf = pre ++ enc v ++ post → p = pre.length →
      decOne buf f p = some (v, p + (enc v).length) := by
    intro v hv buf pre post f p hf hbuf hp
    cases v with
    | integer m =>
      simp only [sz] at hf
      obtain ⟨f1, rfl⟩ : ∃ f1, f = f1 + 1 := ⟨f - 1, by omega⟩
      exact rt_integer buf pre post m f1 p hbuf hp
    | decimal a b =>
      simp only [sz] at hf
      obtain ⟨f1, rfl⟩ : ∃ f1, f = f1 + 1 := ⟨f - 1, by omega⟩
      exact rt_decimal buf pre post a b f1 p (by omega) hbuf hp
    | bare cs =>
      simp only [sz] at hf
      obtain ⟨f1, rfl⟩ : ∃ f1, f = f1 + 1 := ⟨f - 1, by omega⟩
      exact rt_bare buf pre post cs f1 p hbuf hp
    | raw bs =>
      simp only [sz] at hf
      obtain ⟨f1, rfl⟩ : ∃ f1, f = f1 + 1 := ⟨f - 1, by omega⟩
      exact rt_raw buf pre post bs f1 p hbuf hp
    | opcode m =>
      simp only [sz] at hf
      obtain ⟨f1, rfl⟩ : ∃ f1, f = f1 + 1 := ⟨f - 1, by omega⟩
      exact rt_opcode buf pre post m f1 p hbuf hp
    | ref m =>
      simp only [sz] at hf
      obtain ⟨f1, rfl⟩ : ∃ f1, f = f1 + 1 := ⟨f - 1, by omega⟩
      exact rt_ref buf pre post m f1 p hbuf hp
    | varv cs =>
      simp only [sz] at hf
      obtain ⟨f1, rfl⟩ : ∃ f1, f = f1 + 1 := ⟨f - 1, by omega⟩
      exact rt_varv buf pre post cs f1 p hbuf hp
    | arr vs =>
      simp only [sz] at hv hf
      obtain ⟨f1, rfl⟩ : ∃ f1, f = f1 + 1 := ⟨f - 1, by omega⟩
      subst hp
      have hc : buf.getD pre.length 0 = 91 := by
        rw [hbuf, getD_head pre (enc (.arr vs)) post (enc_ne_nil _)]
        rfl
      have hlen : pre.length < buf.length := by
        rw [hbuf]
        simp only [List.length_append]
        have := List.length_pos.mpr (enc_ne_nil (Value.arr vs))
        omega
      have hq1 : digEnd buf pre.length = pre.length :=
        digEnd_stop buf pre.length pre.length (le_refl _) (le_of_lt hlen)
          (fun k hk1 hk2 => absurd (lt_of_le_of_lt hk1 hk2) (lt_irrefl _))
          (not_digit_stop hc (by decide))
      simp only [decOne]
      rw [hq1, if_pos hlen, hc, if_neg (by decide), if_neg (by decide), if_neg (by decide),
        if_neg (by decide), if_neg (by decide), if_neg (by decide), if_neg (by decide),
        if_neg (by decide), if_pos rfl]
      have hseq := (ih (n - 1) (by omega)).2.2 (segsOf true vs)
        (by rw [szSegs_segsOf]; omega)
        buf (pre ++ [91]) post 93 f1 (pre.length + 1)
        (by rw [szSegs_segsOf]; omega)
        (Or.inr (Or.inl rfl))
        (by rw [hbuf, ← encElems_segs]; simp [enc])
        (by simp)
      rw [hseq]
      simp only [mapSnd_segsOf, ofList_toList]
      have harith : pre.length + 1 + (concatSegs (segsOf true vs)).length + 1 =
          pre.length + (enc (.arr vs)).length := by
        rw [← encElems_segs]
        simp only [enc, List.length_cons, List.length_append, List.length_nil]
        omega
      rw [harith]
    | obj ps =>
      simp only [sz] at hv hf
      obtain ⟨f1, rfl⟩ : ∃ f1, f = f1 + 1 := ⟨f - 1, by omega⟩
      subst hp
      have hc : buf.getD pre.length 0 = 123 := by
        rw [hbuf, getD_head pre (enc (.obj ps)) post (enc_ne_nil _)]
        rfl
      have hlen : pre.length < buf.length := by
        rw [hbuf]
        simp only [List.length_append]
        have := List.length_pos.mpr (enc_ne_nil (Value.obj ps))
        omega
      have hq1 : digEnd buf pre.length = pre.length :=
        digEnd_stop buf pre.length pre.length (le_refl _) (le_of_lt hlen)
          (fun k hk1 hk2 => absurd (lt_of_le_of_lt hk1 hk2) (lt_irrefl _))
          (not_digit_stop hc (by decide))
      simp only [decOne]
      rw [hq1, if_pos hlen, hc, if_neg (by decide), if_neg (by decide), if_neg (by decide),
        if_neg (by decide), if_neg (by decide), if_neg (by decide), if_neg (by decide),
        if_neg (by decide), if_neg (by decide), if_pos rfl]
      have hseq := (ih (n - 1) (by omega)).2.2 (flatP ps)
        (by rw [szSegs_flatP]; omega)
        buf (pre ++ [123]) post 125 f1 (pre.length + 1)
        (by rw [szSegs_flatP]; omega)
        (Or.inr (Or.inr rfl))
        (by rw [hbuf, ← encPairs_segs]; simp [enc])
        (by simp)
      rw [hseq]
      simp only []
      rw [pairUp_flatP]
      have harith : pre.length + 1 + (concatSegs (flatP ps)).length + 1 =
          pre.length + (enc (.obj ps)).length := by
        rw [← encPairs_segs]
        simp only [enc, List.length_cons, List.length_append, List.length_nil]
        omega
      rw [harith]
    | call vs =>
      simp only [sz] at hv hf
      obtain ⟨f1, rfl⟩ : ∃ f1, f = f1 + 1 := ⟨f - 1, by omega⟩
      subst hp
      have hc : buf.getD pre.length 0 = 40 := by
        rw [hbuf, getD_head pre (enc (.call vs)) post (enc_ne_nil _)]
        rfl
      have hlen : pre.length < buf.length := by
        rw [hbuf]
        simp only [List.length_append]
        have := List.length_pos.mpr (enc_ne_nil (Value.call vs))
        omega
      have hq1 : digEnd buf pre.length = pre.length :=
        digEnd_stop buf pre.length pre.length (le_refl _) (le_of_lt hlen)
          (fun k hk1 hk2 => absurd (lt_of_le_of_lt hk1 hk2) (lt_irrefl _))
          (not_digit_stop hc (by decide))
      simp only [decOne]
      rw [hq1, if_pos hlen, hc, if_neg (by decide), if_neg (by decide), if_neg (by decide),
        if_neg (by decide), if_neg (by decide), if_neg (by decide), if_neg (by decide),
        if_neg (by decide), if_neg (by decide), if_neg (by decide), if_pos rfl]
      have hseq := (ih (n - 1) (by omega)).2.2 (segsOf false vs)
        (by rw [szSegs_segsOf]; omega)
        buf (pre ++ [40]) post 41 f1 (pre.length + 1)
        (by rw [szSegs_segsOf]; omega)
        (Or.inl rfl)
        (by rw [hbuf, ← encArgs_segs]; simp [enc])
        (by simp)
      rw [hseq]
      simp only [mapSnd_segsOf, ofList_toList]
      have harith : pre.length + 1 + (concatSegs (segsOf false vs)).length + 1 =
          pre.length + (enc (.call vs)).length := by
        rw [← encArgs_segs]
        simp only [enc, List.length_cons, List.length_append, List.length_nil]
        omega
      rw [harith]
    | setv pl v2 =>
      simp only [sz] at hv hf
      obtain ⟨f1, rfl⟩ : ∃ f1, f = f1 + 1 := ⟨f - 1, by omega⟩
      subst hp
      have hc : buf.getD pre.length 0 = 61 := by
        rw [hbuf, getD_head pre (enc (.setv pl v2)) post (enc_ne_nil _)]
        rfl
      have hlen : pre.length < buf.length := by
        rw [hbuf]
        simp only [List.length_append]
        have := List.length_pos.mpr (enc_ne_nil (Value.setv pl v2))
        omega
      have hq1 : digEnd buf pre.length = pre.length :=
        digEnd_stop buf pre.length pre.length (le_refl _) (le_of_lt hlen)
          (fun k hk1 hk2 => absurd (lt_of_le_of_lt hk1 hk2) (lt_irrefl _))
          (not_digit_stop hc (by decide))
      simp only [decOne]
      rw [hq1, if_pos hlen, hc, if_neg (by decide), if_neg (by decide), if_neg (by decide),
        if_neg (by decide), if_neg (by decide), if_neg (by decide), if_neg (by decide),
        if_neg (by decide), if_neg (by decide), if_neg (by decide), if_neg (by decide),
        if_pos rfl]
      have hch1 := (ih (n - 1) (by omega)).1 pl (by omega) buf (pre ++ [61])
        (enc v2 ++ post) f1 (pre.length + 1) (by omega)
        (by rw [hbuf]; simp [enc]) (by simp)
      rw [hch1]
      simp only []
      have hch2 := (ih (n - 1) (by omega)).1 v2 (by omega) buf (pre ++ [61] ++ enc pl)
        post f1 (pre.length + 1 + (enc pl).length) (by omega)
        (by rw [hbuf]; simp [enc])
        (by simp only [List.length_append, List.length_cons, List.length_nil])
      rw [hch2]
      simp only []
      have harith : pre.length + 1 + (enc pl).length + (enc v2).length =
          pre.length + (enc (.setv pl v2)).length := by
        simp only [enc, List.length_cons, List.length_append, List.length_nil]
        omega
      rw [harith]
    | delv pl =>
      simp only [sz] at hv hf
      obtain ⟨f1, rfl⟩ : ∃ f1, f = f1 + 1 := ⟨f - 1, by omega⟩
      subst hp
      have hc : buf.getD pre.length 0 = 126 := by
        rw [hbuf, getD_head pre (enc (.delv pl)) post (enc_ne_nil _)]
        rfl
      have hlen : pre.length < buf.length := by
        rw [hbuf]
        simp only [List.length_append]
        have := List.length_pos.mpr (enc_ne_nil (Value.delv pl))
        omega
      have hq1 : digEnd buf pre.length = pre.length :=
        digEnd_stop buf pre.length pre.length (le_refl _) (le_of_lt hlen)
          (fun k hk1 hk2 => absurd (lt_of_le_of_lt hk1 hk2) (lt_irrefl _))
          (not_digit_stop hc (by decide))
      simp only [decOne]
      rw [hq1, if_pos hlen, hc, if_neg (by decide), if_neg (by decide), if_neg (by decide),
        if_neg (by decide), if_neg (by decide), if_neg (by decide), if_neg (by decide),
        if_neg (by decide), if_neg (by decide), if_neg (by decide), if_neg (by decide),
        if_neg (by decide), if_pos rfl]
      have hch1 := (ih (n - 1) (by omega)).1 pl (by omega) buf (pre ++ [126])
        post f1 (pre.length + 1) (by omega)
        (by rw [hbuf]; simp [enc]) (by simp)
      rw [hch1]
      simp only []
      have harith : pre.length + 1 + (enc pl).length =
          pre.length + (enc (.delv pl)).length := by
        simp only [enc, List.length_cons, List.length_append, List.length_nil]
        omega
      rw [harith]
    | whenv cv th e =>
      cases e with
      | onone =>
        simp only [sz, szO] at hv hf
        obtain ⟨f1, rfl⟩ : ∃ f1, f = f1 + 1 := ⟨f - 1, by omega⟩
        subst hp
        have hc : buf.getD pre.length 0 = 63 := by
          rw [hbuf, getD_head pre (enc (.whenv cv th .onone)) post (enc_ne_nil _)]
          rfl
        have hlen : pre.length < buf.length := by
          rw [hbuf]
          simp only [List.length_append]
          have := List.length_pos.mpr (enc_ne_nil (Value.whenv cv th .onone))
          omega
        have hq1 : digEnd buf pre.length = pre.length :=
          digEnd_stop buf pre.length pre.length (le_refl _) (le_of_lt hlen)
            (fun k hk1 hk2 => absurd (lt_of_le_of_lt hk1 hk2) (lt_irrefl _))
            (not_digit_stop hc (by decide))
        have hc2 : buf.getD (pre.length + 1) 0 = 40 := by
          rw [hbuf, getD_append_at pre (enc (.whenv cv th .onone)) post 1
            (by simp only [enc, List.length_cons]; omega)]
          rfl
        have hlen2 : pre.length + 1 < buf.length := by
          rw [hbuf]
          simp only [enc, List.length_append, List.length_cons, List.length_nil]
          omega
        simp only [decOne]
        rw [hq1, if_pos hlen, hc, if_neg (by decide), if_neg (by decide),
          if_neg (by decide), if_neg (by decide), if_neg (by decide), if_neg (by decide),
          if_neg (by decide), if_neg (by decide), if_neg (by decide), if_neg (by decide),
          if_neg (by decide), if_neg (by decide), if_neg (by decide),
          if_pos (Or.inl rfl), if_pos ⟨hlen2, hc2⟩]
        have hseq := (ih (n - 1) (by omega)).2.2 [(false, cv), (true, th)]
          (by simp only [szSegs]; omega)
          buf (pre ++ [63, 40]) post 41 f1 (pre.length + 2)
          (by simp only [szSegs]; omega)
          (Or.inl rfl)
          (by rw [hbuf]; simp [enc, concatSegs, segB, encOpt])
          (by simp)
        rw [hseq]
        simp only [List.map_cons, List.map_nil]
        simp only [true_or, if_true]
        have harith : pre.length + 2 + (concatSegs [(false, cv), (true, th)]).length + 1 =
            pre.length + (enc (.whenv cv th .onone)).length := by
          simp only [concatSegs, segB, if_pos, if_neg, enc, encOpt, List.length_append,
            List.length_cons, List.length_nil, List.append_nil, Bool.false_eq_true,
            if_false, if_true]
          omega
        rw [harith]
      | osome x =>
        simp only [sz, szO] at hv hf
        obtain ⟨f1, rfl⟩ : ∃ f1, f = f1 + 1 := ⟨f - 1, by omega⟩
        subst hp
        have hc : buf.getD pre.length 0 = 63 := by
          rw [hbuf, getD_head pre (enc (.whenv cv th (.osome x))) post (enc_ne_nil _)]
          rfl
        have hlen : pre.length < buf.length := by
          rw [hbuf]
          simp only [List.length_append]
          have := List.length_pos.mpr (enc_ne_nil (Value.whenv cv th (.osome x)))
          omega
        have hq1 : digEnd buf pre.length = pre.length :=
          digEnd_stop buf pre.length pre.length (le_refl _) (le_of_lt hlen)
            (fun k hk1 hk2 => absurd (lt_of_le_of_lt hk1 hk2) (lt_irrefl _))
            (not_digit_stop hc (by decide))
        have hc2 : buf.getD (pre.length + 1) 0 = 40 := by
          rw [hbuf, getD_append_at pre (enc (.whenv cv th (.osome x))) post 1
            (by simp only [enc, List.length_cons]; omega)]
          rfl
        have hlen2 : pre.length + 1 < buf.length := by
          rw [hbuf]
          simp only [enc, List.length_append, List.length_cons, List.length_nil]
          omega
        simp only [decOne]
        rw [hq1, if_pos hlen, hc, if_neg (by decide), if_neg (by decide),
          if_neg (by decide), if_neg (by decide), if_neg (by decide), if_neg (by decide),
          if_neg (by decide), if_neg (by decide), if_neg (by decide), if_neg (by decide),
          if_neg (by decide), if_neg (by decide), if_neg (by decide),
          if_pos (Or.inl rfl), if_pos ⟨hlen2, hc2⟩]
        have hseq := (ih (n - 1) (by omega)).2.2 [(false, cv), (true, th), (true, x)]
          (by simp only [szSegs]; omega)
          buf (pre ++ [63, 40]) post 41 f1 (pre.length + 2)
          (by simp only [szSegs]; omega)
          (Or.inl rfl)
          (by rw [hbuf]; simp [enc, concatSegs, segB, encOpt])
          (by simp)
        rw [hseq]
        simp only [List.map_cons, List.map_nil]
        simp only [true_or, if_true]
        have harith :
            pre.length + 2 + (concatSegs [(false, cv), (true, th), (true, x)]).length + 1 =
            pre.length + (enc (.whenv cv th (.osome x))).length := by
          simp only [concatSegs, segB, enc, encOpt, List.length_append,
            List.length_cons, List.length_nil, List.append_nil, Bool.false_eq_true,
            if_false, if_true]
          omega
        rw [harith]
    | unlessv cv th e =>
      cases e with
      | onone =>
        simp only [sz, szO] at hv hf
        obtain ⟨f1, rfl⟩ : ∃ f1, f = f1 + 1 := ⟨f - 1, by omega⟩
        subst hp
        have hc : buf.getD pre.length 0 = 33 := by
          rw [hbuf, getD_head pre (enc (.unlessv cv th .onone)) post (enc_ne_nil _)]
          rfl
        have hlen : pre.length < buf.length := by
          rw [hbuf]
          simp only [List.length_append]
          have := List.length_pos.mpr (enc_ne_nil (Value.unlessv cv th .onone))
          omega
        have hq1 : digEnd buf pre.length = pre.length :=
          digEnd_stop buf pre.length pre.length (le_refl _) (le_of_lt hlen)
            (fun k hk1 hk2 => absurd (lt_of_le_of_lt hk1 hk2) (lt_irrefl _))
            (not_digit_stop hc (by decide))
        have hc2 : buf.getD (pre.length + 1) 0 = 40 := by
          rw [hbuf, getD_append_at pre (enc (.unlessv cv th .onone)) post 1
            (by simp only [enc, List.length_cons]; omega)]
          rfl
        have hlen2 : pre.length + 1 < buf.length := by
          rw [hbuf]
          simp only [enc, List.length_append, List.length_cons, List.length_nil]
          omega
        simp only [decOne]
        rw [hq1, if_pos hlen, hc, if_neg (by decide), if_neg (by decide),
          if_neg (by decide), if_neg (by decide), if_neg (by decide), if_neg (by decide),
          if_neg (by decide), if_neg (by decide), if_neg (by decide), if_neg (by decide),
          if_neg (by decide), if_neg (by decide), if_neg (by decide),
          if_pos (Or.inr (Or.inl rfl)), if_pos ⟨hlen2, hc2⟩]
        have hseq := (ih (n - 1) (by omega)).2.2 [(false, cv), (true, th)]
          (by simp only [szSegs]; omega)
          buf (pre ++ [33, 40]) post 41 f1 (pre.length + 2)
          (by simp only [szSegs]; omega)
          (Or.inl rfl)
          (by rw [hbuf]; simp [enc, concatSegs, segB, encOpt])
          (by simp)
        rw [hseq]
        simp only [List.map_cons, List.map_nil]
        simp only [or_true, if_true]
        rw [if_neg (by decide)]
        have harith : pre.length + 2 + (concatSegs [(false, cv), (true, th)]).length + 1 =
            pre.length + (enc (.unlessv cv th .onone)).length := by
          simp only [concatSegs, segB, enc, encOpt, List.length_append,
            List.length_cons, List.length_nil, List.append_nil, Bool.false_eq_true,
            if_false, if_true]
          omega
        rw [harith]
      | osome x =>
        simp only [sz, szO] at hv hf
        obtain ⟨f1, rfl⟩ : ∃ f1, f = f1 + 1 := ⟨f - 1, by omega⟩
        subst hp
        have hc : buf.getD pre.length 0 = 33 := by
          rw [hbuf, getD_head pre (enc (.unlessv cv th (.osome x))) post (enc_ne_nil _)]
          rfl
        have hlen : pre.length < buf.length := by
          rw [hbuf]
          simp only [List.length_append]
          have := List.length_pos.mpr (enc_ne_nil (Value.unlessv cv th (.osome x)))
          omega
        have hq1 : digEnd buf pre.length = pre.length :=
          digEnd_stop buf pre.length pre.length (le_refl _) (le_of_lt hlen)
            (fun k hk1 hk2 => absurd (lt_of_le_of_lt hk1 hk2) (lt_irrefl _))
            (not_digit_stop hc (by decide))
        have hc2 : buf.getD (pre.length + 1) 0 = 40 := by
          rw [hbuf, getD_append_at pre (enc (.unlessv cv th (.osome x))) post 1
            (by simp only [enc, List.length_cons]; omega)]
          rfl
        have hlen2 : pre.length + 1 < buf.length := by
          rw [hbuf]
          simp only [enc, List.length_append, List.length_cons, List.length_nil]
          omega
        simp only [decOne]
        rw [hq1, if_pos hlen, hc, if_neg (by decide), if_neg (by decide),
          if_neg (by decide), if_neg (by decide), if_neg (by decide), if_neg (by decide),
          if_neg (by decide), if_neg (by decide), if_neg (by decide), if_neg (by decide),
          if_neg (by decide), if_neg (by decide), if_neg (by decide),
          if_pos (Or.inr (Or.inl rfl)), if_pos ⟨hlen2, hc2⟩]
        have hseq := (ih (n - 1) (by omega)).2.2 [(false, cv), (true, th), (true, x)]
          (by simp only [szSegs]; omega)
          buf (pre ++ [33, 40]) post 41 f1 (pre.length + 2)
          (by simp only [szSegs]; omega)
          (Or.inl rfl)
          (by rw [hbuf]; simp [enc, concatSegs, segB, encOpt])
          (by simp)
        rw [hseq]
        simp only [List.map_cons, List.map_nil]
        simp only [or_true, if_true]
        rw [if_neg (by decide)]
        have harith :
            pre.length + 2 + (concatSegs [(false, cv), (true, th), (true, x)]).length + 1 =
            pre.length + (enc (.unlessv cv th (.osome x))).length := by
          simp only [concatSegs, segB, enc, encOpt, List.length_append,
            List.length_cons, List.length_nil, List.append_nil, Bool.false_eq_true,
            if_false, if_true]
          omega
        rw [harith]
    | altv vh tl =>
      simp only [sz] at hv hf
      obtain ⟨f1, rfl⟩ : ∃ f1, f = f1 + 1 := ⟨f - 1, by omega⟩
      subst hp
      have hc : buf.getD pre.length 0 = 124 := by
        rw [hbuf, getD_head pre (enc (.altv vh tl)) post (enc_ne_nil _)]
        rfl
      have hlen : pre.length < buf.length := by
        rw [hbuf]
        simp only [List.length_append]
        have := List.length_pos.mpr (enc_ne_nil (Value.altv vh tl))
        omega
      have hq1 : digEnd buf pre.length = pre.length :=
        digEnd_stop buf pre.length pre.length (le_refl _) (le_of_lt hlen)
          (fun k hk1 hk2 => absurd (lt_of_le_of_lt hk1 hk2) (lt_irrefl _))
          (not_digit_stop hc (by decide))
      have hc2 : buf.getD (pre.length + 1) 0 = 40 := by
        rw [hbuf, getD_append_at pre (enc (.altv vh tl)) post 1
          (by simp only [enc, List.length_cons]; omega)]
        rfl
      have hlen2 : pre.length + 1 < buf.length := by
        rw [hbuf]
        simp only [enc, List.length_append, List.length_cons, List.length_nil]
        omega
      simp only [decOne]
      rw [hq1, if_pos hlen, hc, if_neg (by decide), if_neg (by decide),
        if_neg (by decide), if_neg (by decide), if_neg (by decide), if_neg (by decide),
        if_neg (by decide), if_neg (by decide), if_neg (by decide), if_neg (by decide),
        if_neg (by decide), if_neg (by decide), if_neg (by decide),
        if_pos (Or.inr (Or.inr (Or.inl rfl))), if_pos ⟨hlen2, hc2⟩]
      have hseq := (ih (n - 1) (by omega)).2.2 ((false, vh) :: segsOf true tl)
        (by simp only [szSegs]; rw [szSegs_segsOf]; omega)
        buf (pre ++ [124, 40]) post 41 f1 (pre.length + 2)
        (by simp only [szSegs]; rw [szSegs_segsOf]; omega)
        (Or.inl rfl)
        (by rw [hbuf]; rw [concatSegs, segB_false, ← encElems_segs]; simp [enc])
        (by simp)
      rw [hseq]
      simp only [List.map_cons, mapSnd_segsOf]
      rw [if_neg (by decide)]
      simp only [if_true, ofList_toList]
      have harith :
          pre.length + 2 + (concatSegs ((false, vh) :: segsOf true tl)).length + 1 =
          pre.length + (enc (.altv vh tl)).length := by
        rw [concatSegs, segB_false, ← encElems_segs]
        simp only [enc, List.length_append, List.length_cons, List.length_nil]
        omega
      rw [harith]
    | allv vh tl =>
      simp only [sz] at hv hf
      obtain ⟨f1, rfl⟩ : ∃ f1, f = f1 + 1 := ⟨f - 1, by omega⟩
      subst hp
      have hc : buf.getD pre.length 0 = 38 := by
        rw [hbuf, getD_head pre (enc (.allv vh tl)) post (enc_ne_nil _)]
        rfl
      have hlen : pre.length < buf.length := by
        rw [hbuf]
        simp only [List.length_append]
        have := List.length_pos.mpr (enc_ne_nil (Value.allv vh tl))
        omega
      have hq1 : digEnd buf pre.length = pre.length :=
        digEnd_stop buf pre.length pre.length (le_refl _) (le_of_lt hlen)
          (fun k hk1 hk2 => absurd (lt_of_le_of_lt hk1 hk2) (lt_irrefl _))
          (not_digit_stop hc (by decide))
      have hc2 : buf.getD (pre.length + 1) 0 = 40 := by
        rw [hbuf, getD_append_at pre (enc (.allv vh tl)) post 1
          (by simp only [enc, List.length_cons]; omega)]
        rfl
      have hlen2 : pre.length + 1 < buf.length := by
        rw [hbuf]
        simp only [enc, List.length_append, List.length_cons, List.length_nil]
        omega
      simp only [decOne]
      rw [hq1, if_pos hlen, hc, if_neg (by decide), if_neg (by decide),
        if_neg (by decide), if_neg (by decide), if_neg (by decide), if_neg (by decide),
        if_neg (by decide), if_neg (by decide), if_neg (by decide), if_neg (by decide),
        if_neg (by decide), if_neg (by decide), if_neg (by decide),
        if_pos (Or.inr (Or.inr (Or.inr rfl))), if_pos ⟨hlen2, hc2⟩]
      have hseq := (ih (n - 1) (by omega)).2.2 ((false, vh) :: segsOf true tl)
        (by simp only [szSegs]; rw [szSegs_segsOf]; omega)
        buf (pre ++ [38, 40]) post 41 f1 (pre.length + 2)
        (by simp only [szSegs]; rw [szSegs_segsOf]; omega)
        (Or.inl rfl)
        (by rw [hbuf]; rw [concatSegs, segB_false, ← encElems_segs]; simp [enc])
        (by simp)
      rw [hseq]
      simp only [List.map_cons, mapSnd_segsOf]
      rw [if_neg (by decide)]
      rw [if_neg (by decide)]
      simp only [ofList_toList]
      have harith :
          pre.length + 2 + (concatSegs ((false, vh) :: segsOf true tl)).length + 1 =
          pre.length + (enc (.allv vh tl)).length := by
        rw [concatSegs, segB_false, ← encElems_segs]
        simp only [enc, List.length_append, List.length_cons, List.length_nil]
        omega
      rw [harith]
  have hRTS : ∀ v : Value, sz v ≤ n →
      ∀ (buf pre post : List Nat) (f p : Nat) (b : Bool), sz v ≤ f →
      buf = pre ++ segB b v ++ post → p = pre.length →
      decOne buf f p = some (v, p + (segB b v).length) := by
    intro v hv buf pre post f p b hf hbuf hp
    cases b with
    | false =>
      rw [segB_false] at hbuf ⊢
      exact hRT1 v hv buf pre post f p hf hbuf hp
    | true =>
      by_cases hcv : isCont v = true
      case neg =>
        rw [segB_true, prefIf, if_neg hcv] at hbuf ⊢
        exact hRT1 v hv buf pre post f p hf hbuf hp
      case pos =>
        rw [segB_true, prefIf, if_pos hcv] at hbuf ⊢
        subst hp
        have hlen1 : pre.length + (digitsN ((enc v).length - overhead v)).length <
            buf.length := by
          rw [hbuf]
          simp only [List.length_append]
          have := List.length_pos.mpr (enc_ne_nil v)
          omega
        have hdig : ∀ k, pre.length ≤ k →
            k < pre.length + (digitsN ((enc v).length - overhead v)).length →
            isDigitCode (buf.getD k 0) = true := by
          intro k hk1 hk2
          have hi : k - pre.length < (digitsN ((enc v).length - overhead v)).length := by
            omega
          have hshape : buf = pre ++ digitsN ((enc v).length - overhead v) ++
              (enc v ++ post) := by
            rw [hbuf]; simp
          rw [hshape, show k = pre.length + (k - pre.length) by omega,
            getD_append_at _ _ _ _ hi]
          apply digitsN_digit
          rw [List.getD_eq_getElem _ _ hi]
          exact List.getElem_mem hi
        have hop : buf.getD (pre.length + (digitsN ((enc v).length - overhead v)).length)
            0 = (enc v).headD 0 := by
          have hshape : buf = (pre ++ digitsN ((enc v).length - overhead v)) ++
              enc v ++ post := by
            rw [hbuf]; simp
          rw [hshape]
          have := getD_head (pre ++ digitsN ((enc v).length - overhead v)) (enc v) post
            (enc_ne_nil v)
          simpa using this
        have hskip := decOne_skip buf f pre.length
          (pre.length + (digitsN ((enc v).length - overhead v)).length)
          (by omega) hdig hlen1 (by rw [hop]; exact enc_cont_head v hcv)
        rw [hskip]
        have happ := hRT1 v hv buf (pre ++ digitsN ((enc v).length - overhead v)) post f
          (pre.length + (digitsN ((enc v).length - overhead v)).length) hf
          (by rw [hbuf]; simp) (by simp)
        rw [happ]
        have harith : pre.length + (digitsN ((enc v).length - overhead v)).length +
            (enc v).length =
            pre.length + (digitsN ((enc v).length - overhead v) ++ enc v).length := by
          simp only [List.length_append]
          omega
        rw [harith]
  have hRTSeq : ∀ l : List (Bool × Value), szSegs l ≤ n →
      ∀ (buf pre post : List Nat) (closer f p : Nat), szSegs l ≤ f →
        closer = 41 ∨ closer = 93 ∨ closer = 125 →
        buf = pre ++ concatSegs l ++ closer :: post → p = pre.length →
        decSeq buf closer f p = some (l.map Prod.snd, p + (concatSegs l).length + 1) := by
    intro l hl buf pre post closer f p hf hcl hbuf hp
    subst hp
    cases l with
    | nil =>
      obtain ⟨f1, rfl⟩ : ∃ f1, f = f1 + 1 :=
        ⟨f - 1, by simp only [szSegs] at hf; omega⟩
      have hlen : pre.length < buf.length := by
        rw [hbuf]
        simp only [concatSegs, List.length_append, List.length_cons, List.length_nil]
        omega
      have hc : buf.getD pre.length 0 = closer := by
        rw [hbuf]
        have := getD_head pre (closer :: post) [] (by simp)
        simpa [concatSegs] using this
      simp only [decSeq]
      rw [if_pos hlen, hc, if_pos rfl]
      simp [concatSegs]
    | cons bv r =>
      obtain ⟨b, v⟩ := bv
      simp only [szSegs] at hl hf
      obtain ⟨f1, rfl⟩ : ∃ f1, f = f1 + 1 := ⟨f - 1, by omega⟩
      have hsegne := segB_ne_nil b v
      have hlen : pre.length < buf.length := by
        rw [hbuf]
        simp only [concatSegs, List.length_append, List.length_cons]
        have := List.length_pos.mpr hsegne
        omega
      have hgd : buf.getD pre.length 0 = (segB b v).headD 0 := by
        have hshape : buf = pre ++ segB b v ++ (concatSegs r ++ closer :: post) := by
          rw [hbuf]; simp [concatSegs]
        rw [hshape]
        exact getD_head pre (segB b v) _ hsegne
      have hne : ¬(buf.getD pre.length 0 = closer) := by
        rw [hgd]
        intro heq
        apply segB_headD_not_closer b v
        rcases hcl with rfl | rfl | rfl
        · exact Or.inl heq
        · exact Or.inr (Or.inl heq)
        · exact Or.inr (Or.inr heq)
      simp only [decSeq]
      rw [if_pos hlen, if_neg hne]
      have hchild := (ih (n - 1) (by omega)).2.1 v (by omega) buf pre
        (concatSegs r ++ closer :: post) f1 pre.length b (by omega)
        (by rw [hbuf]; simp [concatSegs]) rfl
      rw [hchild]
      simp only []
      have hrest := (ih (n - 1) (by omega)).2.2 r (by omega) buf (pre ++ segB b v) post
        closer f1 (pre.length + (segB b v).length) (by omega) hcl
        (by rw [hbuf]; simp [concatSegs]) (by simp)
      rw [hrest]
      simp only [concatSegs, List.map_cons, List.length_append]
      have harith : pre.length + (segB b v).length + (concatSegs r).length + 1 =
          pre.length + ((segB b v).length + (concatSegs r).length) + 1 := by omega
      rw [harith]
  exact ⟨hRT1, hRTS, hRTSeq⟩

/-! ## Claim C1 -/

/-- C1: for every constructible `Value` tree (the model has no pointer
constructor, so "no internal pointer nodes" is intrinsic), decoding the
encoder's output yields the original value: `decode (enc v) = some v`.
Dedup pointers are resolved transparently by the decoder and never surface
as values: on the spec's own dedup output `"[^2+]"` the decoder follows
the pointer and returns the array of two equal integers `1`. -/
theorem decode_encode_roundtrip :
    (∀ v : Value, decode (enc v) = some v) ∧
    decode [91, 94, 50, 43, 93] =
      some (.arr (.cons (.integer 1) (.cons (.integer 1) .nil))) := by
  constructor
  · intro v
    have h := (rtAll (sz v)).1 v (le_refl _) (enc v) [] [] (2 * (enc v).length + 1) 0
      (by have := sz_lt_twice v; omega) (by simp) rfl
    rw [decode, h]
    simp
  · decide

/-! ## Dedup pointer groundwork: item-list invariant preservation -/

theorem enc_headD_ne94 (v : Value) : (enc v).headD 0 ≠ 94 := by
  rcases enc_headD_mem v with h | h
  · intro heq
    rw [heq] at h
    exact absurd h (by decide)
  · intro heq
    rw [heq] at h
    exact absurd h (by decide)

theorem mem_of_getD {α : Type} (l : List α) (i : Nat) (d : α) (h : i < l.length) :
    l.getD i d ∈ l := by
  rw [List.getD_eq_getElem l d h]
  exact List.getElem_mem h

theorem getD_of_mem {α : Type} (l : List α) (x : α) (d : α) (h : x ∈ l) :
    ∃ i, i < l.length ∧ l.getD i d = x := by
  obtain ⟨i, hi, hx⟩ := List.getElem_of_mem h
  exact ⟨i, hi, by rw [List.getD_eq_getElem l d hi, hx]⟩

theorem getD_drop {α : Type} (l : List α) (k n : Nat) (d : α) :
    (l.drop k).getD n d = l.getD (k + n) d := by
  by_cases h : k + n < l.length
  · have h2 : n < (l.drop k).length := by simp only [List.length_drop]; omega
    rw [List.getD_eq_getElem _ d h2, List.getD_eq_getElem l d h]
    exact List.getElem_drop _
  · have h2 : ¬(n < (l.drop k).length) := by simp only [List.length_drop]; omega
    rw [List.getD_eq_default _ d (by omega), List.getD_eq_default _ d (by omega)]

theorem emok_prep (st : EmSt) (h : EmOK st) (bs : List Nat) (hne : bs ≠ [])
    (h94 : bs.headD 0 ≠ 94) (m : Option Value) :
    EmOK ⟨.lit bs m :: st.items, st.seen⟩ := by
  obtain ⟨h1, h2, h3⟩ := h
  refine ⟨?_, ?_, ?_⟩
  · intro bs' m' hmem
    rcases List.mem_cons.mp hmem with heq | hmem'
    · obtain ⟨rfl, rfl⟩ : bs = bs' ∧ m = m' := by
        constructor <;> injection heq.symm
      exact ⟨hne, h94⟩
    · exact h1 bs' m' hmem'
  · intro w hw
    obtain ⟨bs', hbs'⟩ := h2 w hw
    exact ⟨bs', List.mem_cons_of_mem _ hbs'⟩
  · intro i tgt hi hget
    cases i with
    | zero => simp at hget
    | succ i' =>
      rw [List.getD_cons_succ] at hget
      obtain ⟨j, hij, hjl, bs', hj⟩ := h3 i' tgt (by simp at hi; omega) hget
      exact ⟨j + 1, by omega, by simp; omega, bs', by rw [List.getD_cons_succ]; exact hj⟩

theorem emok_prep_mark (st : EmSt) (h : EmOK st) (bs : List Nat) (hne : bs ≠ [])
    (h94 : bs.headD 0 ≠ 94) (v : Value) :
    EmOK ⟨.lit bs (some v) :: st.items, v :: st.seen⟩ := by
  obtain ⟨h1, h2, h3⟩ := h
  refine ⟨?_, ?_, ?_⟩
  · intro bs' m' hmem
    rcases List.mem_cons.mp hmem with heq | hmem'
    · obtain ⟨rfl, _⟩ : bs = bs' ∧ some v = m' := by
        constructor <;> injection heq.symm
      exact ⟨hne, h94⟩
    · exact h1 bs' m' hmem'
  · intro w hw
    rcases List.mem_cons.mp hw with rfl | hw'
    · exact ⟨bs, List.mem_cons_self _ _⟩
    · obtain ⟨bs', hbs'⟩ := h2 w hw'
      exact ⟨bs', List.mem_cons_of_mem _ hbs'⟩
  · intro i tgt hi hget
    cases i with
    | zero => simp at hget
    | succ i' =>
      rw [List.getD_cons_succ] at hget
      obtain ⟨j, hij, hjl, bs', hj⟩ := h3 i' tgt (by simp at hi; omega) hget
      exact ⟨j + 1, by omega, by simp; omega, bs', by rw [List.getD_cons_succ]; exact hj⟩

theorem emok_prep_ptr (st : EmSt) (h : EmOK st) (v : Value) (hseen : v ∈ st.seen) :
    EmOK ⟨.ptr v :: st.items, st.seen⟩ := by
  obtain ⟨h1, h2, h3⟩ := h
  refine ⟨?_, ?_, ?_⟩
  · intro bs' m' hmem
    rcases List.mem_cons.mp hmem with heq | hmem'
    · exact absurd heq (by intro hx; injection hx)
    · exact h1 bs' m' hmem'
  · intro w hw
    obtain ⟨bs', hbs'⟩ := h2 w hw
    exact ⟨bs', List.mem_cons_of_mem _ hbs'⟩
  · intro i tgt hi hget
    cases i with
    | zero =>
      have htv : v = tgt := by
        rw [List.getD_cons_zero] at hget
        injection hget
      subst htv
      obtain ⟨bs', hbs'⟩ := h2 v hseen
      obtain ⟨j, hjl, hj⟩ := getD_of_mem st.items (Item.lit bs' (some v)) (.lit [] none) hbs'
      exact ⟨j + 1, by omega, by simp; omega, bs', by rw [List.getD_cons_succ]; exact hj⟩
    | succ i' =>
      rw [List.getD_cons_succ] at hget
      obtain ⟨j, hij, hjl, bs', hj⟩ := h3 i' tgt (by simp at hi; omega) hget
      exact ⟨j + 1, by omega, by simp; omega, bs', by rw [List.getD_cons_succ]; exact hj⟩

theorem emok_empty : EmOK ⟨[], []⟩ := by
  refine ⟨?_, ?_, ?_⟩
  · intro bs m hmem
    exact absurd hmem (List.not_mem_nil _)
  · intro w hw
    exact absurd hw (List.not_mem_nil _)
  · intro i tgt hi _
    simp at hi

theorem emit_preserves (cand : Value → Bool) :
    ∀ n : Nat,
      (∀ v : Value, sz v ≤ n → ∀ st, EmOK st → EmOK (emitV cand v st)) ∧
      (∀ vs : VList, szL vs ≤ n → ∀ st, EmOK st → EmOK (emitVL cand vs st)) ∧
      (∀ ps : PList, szP ps ≤ n → ∀ st, EmOK st → EmOK (emitPL cand ps st)) ∧
      (∀ e : VOpt, szO e ≤ n → ∀ st, EmOK st → EmOK (emitVO cand e st)) := by
  intro n
  induction n using Nat.strong_induction_on with
  | _ n ih =>
  refine ⟨?_, ?_, ?_, ?_⟩
  · intro v hv st hst
    rw [emitV.eq_def]
    simp only []
    by_cases hp : cand v = true ∧ st.seen.any (fun w => w == v) = true
    · rw [if_pos hp]
      have hseen : v ∈ st.seen := by
        obtain ⟨w, hw, hwv⟩ := List.any_eq_true.mp hp.2
        rwa [show w = v from by simpa using hwv] at hw
      exact emok_prep_ptr st hst v hseen
    · rw [if_neg hp]
      cases v with
      | integer m' =>
        simp only []
        by_cases hcv : cand (Value.integer m') = true
        · rw [if_pos hcv, if_pos hcv]
          exact emok_prep_mark st hst _ (enc_ne_nil _) (enc_headD_ne94 _) _
        · rw [if_neg hcv, if_neg hcv]
          exact emok_prep st hst _ (enc_ne_nil _) (enc_headD_ne94 _) none
      | decimal a b =>
        simp only []
        by_cases hcv : cand (Value.decimal a b) = true
        · rw [if_pos hcv, if_pos hcv]
          exact emok_prep_mark st hst _ (enc_ne_nil _) (enc_headD_ne94 _) _
        · rw [if_neg hcv, if_neg hcv]
          exact emok_prep st hst _ (enc_ne_nil _) (enc_headD_ne94 _) none
      | bare cs =>
        simp only []
        by_cases hcv : cand (Value.bare cs) = true
        · rw [if_pos hcv, if_pos hcv]
          exact emok_prep_mark st hst _ (enc_ne_nil _) (enc_headD_ne94 _) _
        · rw [if_neg hcv, if_neg hcv]
          exact emok_prep st hst _ (enc_ne_nil _) (enc_headD_ne94 _) none
      | raw bs =>
        simp only []
        by_cases hcv : cand (Value.raw bs) = true
        · rw [if_pos hcv, if_pos hcv]
          exact emok_prep_mark st hst _ (enc_ne_nil _) (enc_headD_ne94 _) _
        · rw [if_neg hcv, if_neg hcv]
          exact emok_prep st hst _ (enc_ne_nil _) (enc_headD_ne94 _) none
      | opcode m' =>
        simp only []
        by_cases hcv : cand (Value.opcode m') = true
        · rw [if_pos hcv, if_pos hcv]
          exact emok_prep_mark st hst _ (enc_ne_nil _) (enc_headD_ne94 _) _
        · rw [if_neg hcv, if_neg hcv]
          exact emok_prep st hst _ (enc_ne_nil _) (enc_headD_ne94 _) none
      | ref m' =>
        simp only []
        by_cases hcv : cand (Value.ref m') = true
        · rw [if_pos hcv, if_pos hcv]
          exact emok_prep_mark st hst _ (enc_ne_nil _) (enc_headD_ne94 _) _
        · rw [if_neg hcv, if_neg hcv]
          exact emok_prep st hst _ (enc_ne_nil _) (enc_headD_ne94 _) none
      | varv cs =>
        simp only []
        by_cases hcv : cand (Value.varv cs) = true
        · rw [if_pos hcv, if_pos hcv]
          exact emok_prep_mark st hst _ (enc_ne_nil _) (enc_headD_ne94 _) _
        · rw [if_neg hcv, if_neg hcv]
          exact emok_prep st hst _ (enc_ne_nil _) (enc_headD_ne94 _) none
      | arr vs =>
        simp only [sz] at hv
        simp only []
        have h1 : EmOK ⟨.lit [93] none :: st.items, st.seen⟩ :=
          emok_prep st hst [93] (by simp) (by decide) none
        have h2 := (ih (n - 1) (by omega)).2.1 vs (by omega) _ h1
        by_cases hcv : cand (Value.arr vs) = true
        · rw [if_pos hcv, if_pos hcv]
          exact emok_prep_mark _ h2 [91] (by simp) (by decide) (Value.arr vs)
        · rw [if_neg hcv, if_neg hcv]
          exact emok_prep _ h2 [91] (by simp) (by decide) none
      | obj ps =>
        simp only [sz] at hv
        simp only []
        have h1 : EmOK ⟨.lit [125] none :: st.items, st.seen⟩ :=
          emok_prep st hst [125] (by simp) (by decide) none
        have h2 := (ih (n - 1) (by omega)).2.2.1 ps (by omega) _ h1
        by_cases hcv : cand (Value.obj ps) = true
        · rw [if_pos hcv, if_pos hcv]
          exact emok_prep_mark _ h2 [123] (by simp) (by decide) (Value.obj ps)
        · rw [if_neg hcv, if_neg hcv]
          exact emok_prep _ h2 [123] (by simp) (by decide) none
      | call vs =>
        simp only [sz] at hv
        simp only []
        have h1 : EmOK ⟨.lit [41] none :: st.items, st.seen⟩ :=
          emok_prep st hst [41] (by simp) (by decide) none
        have h2 := (ih (n - 1) (by omega)).2.1 vs (by omega) _ h1
        by_cases hcv : cand (Value.call vs) = true
        · rw [if_pos hcv, if_pos hcv]
          exact emok_prep_mark _ h2 [40] (by simp) (by decide) (Value.call vs)
        · rw [if_neg hcv, if_neg hcv]
          exact emok_prep _ h2 [40] (by simp) (by decide) none
      | setv pl w =>
        simp only [sz] at hv
        simp only []
        have h1 := (ih (n - 1) (by omega)).1 w (by omega) st hst
        have h2 := (ih (n - 1) (by omega)).1 pl (by omega) _ h1
        by_cases hcv : cand (Value.setv pl w) = true
        · rw [if_pos hcv, if_pos hcv]
          exact emok_prep_mark _ h2 [61] (by simp) (by decide) (Value.setv pl w)
        · rw [if_neg hcv, if_neg hcv]
          exact emok_prep _ h2 [61] (by simp) (by decide) none
      | delv pl =>
        simp only [sz] at hv
        simp only []
        have h1 := (ih (n - 1) (by omega)).1 pl (by omega) st hst
        by_cases hcv : cand (Value.delv pl) = true
        · rw [if_pos hcv, if_pos hcv]
          exact emok_prep_mark _ h1 [126] (by simp) (by decide) (Value.delv pl)
        · rw [if_neg hcv, if_neg hcv]
          exact emok_prep _ h1 [126] (by simp) (by decide) none
      | whenv c th e =>
        simp only [sz] at hv
        simp only []
        have h0 : EmOK ⟨.lit [41] none :: st.items, st.seen⟩ :=
          emok_prep st hst [41] (by simp) (by decide) none
        have h1 := (ih (n - 1) (by omega)).2.2.2 e (by omega) _ h0
        have h2 := (ih (n - 1) (by omega)).1 th (by omega) _ h1
        have h3 := (ih (n - 1) (by omega)).1 c (by omega) _ h2
        by_cases hcv : cand (Value.whenv c th e) = true
        · rw [if_pos hcv, if_pos hcv]
          exact emok_prep_mark _ h3 [63, 40] (by simp) (by decide) (Value.whenv c th e)
        · rw [if_neg hcv, if_neg hcv]
          exact emok_prep _ h3 [63, 40] (by simp) (by decide) none
      | unlessv c th e =>
        simp only [sz] at hv
        simp only []
        have h0 : EmOK ⟨.lit [41] none :: st.items, st.seen⟩ :=
          emok_prep st hst [41] (by simp) (by decide) none
        have h1 := (ih (n - 1) (by omega)).2.2.2 e (by omega) _ h0
        have h2 := (ih (n - 1) (by omega)).1 th (by omega) _ h1
        have h3 := (ih (n - 1) (by omega)).1 c (by omega) _ h2
        by_cases hcv : cand (Value.unlessv c th e) = true
        · rw [if_pos hcv, if_pos hcv]
          exact emok_prep_mark _ h3 [33, 40] (by simp) (by decide) (Value.unlessv c th e)
        · rw [if_neg hcv, if_neg hcv]
          exact emok_prep _ h3 [33, 40] (by simp) (by decide) none
      | altv vh tl =>
        simp only [sz] at hv
        simp only []
        have h0 : EmOK ⟨.lit [41] none :: st.items, st.seen⟩ :=
          emok_prep st hst [41] (by simp) (by decide) none
        have h1 := (ih (n - 1) (by omega)).2.1 tl (by omega) _ h0
        have h2 := (ih (n - 1) (by omega)).1 vh (by omega) _ h1
        by_cases hcv : cand (Value.altv vh tl) = true
        · rw [if_pos hcv, if_pos hcv]
          exact emok_prep_mark _ h2 [124, 40] (by simp) (by decide) (Value.altv vh tl)
        · rw [if_neg hcv, if_neg hcv]
          exact emok_prep _ h2 [124, 40] (by simp) (by decide) none
      | allv vh tl =>
        simp only [sz] at hv
        simp only []
        have h0 : EmOK ⟨.lit [41] none :: st.items, st.seen⟩ :=
          emok_prep st hst [41] (by simp) (by decide) none
        have h1 := (ih (n - 1) (by omega)).2.1 tl (by omega) _ h0
        have h2 := (ih (n - 1) (by omega)).1 vh (by omega) _ h1
        by_cases hcv : cand (Value.allv vh tl) = true
        · rw [if_pos hcv, if_pos hcv]
          exact emok_prep_mark _ h2 [38, 40] (by simp) (by decide) (Value.allv vh tl)
        · rw [if_neg hcv, if_neg hcv]
          exact emok_prep _ h2 [38, 40] (by simp) (by decide) none
  · intro vs hvs st hst
    cases vs with
    | nil =>
      simp only [emitVL]
      exact hst
    | cons v vs' =>
      simp only [emitVL]
      simp only [szL] at hvs
      exact (ih (n - 1) (by omega)).1 v (by omega) _
        ((ih (n - 1) (by omega)).2.1 vs' (by omega) st hst)
  · intro ps hps st hst
    cases ps with
    | nil =>
      simp only [emitPL]
      exact hst
    | cons k v ps' =>
      simp only [emitPL]
      simp only [szP] at hps
      exact (ih (n - 1) (by omega)).1 k (by omega) _
        ((ih (n - 1) (by omega)).1 v (by omega) _
          ((ih (n - 1) (by omega)).2.2.1 ps' (by omega) st hst))
  · intro e he st hst
    cases e with
    | onone =>
      simp only [emitVO]
      exact hst
    | osome v =>
      simp only [emitVO]
      simp only [szO] at he
      exact (ih (n - 1) (by omega)).1 v (by omega) st hst

/-! ## Dedup pointer groundwork: the resolution pass -/

theorem resolveItems_length : ∀ items, (resolveItems items).length = items.length := by
  intro items
  induction items with
  | nil => rfl
  | cons it rest ih =>
    cases it with
    | lit bs m => simp only [resolveItems, List.length_cons, ih]
    | ptr tgt => simp only [resolveItems, List.length_cons, ih]

theorem resolveItems_drop : ∀ (items : List Item) (k : Nat),
    (resolveItems items).drop k = resolveItems (items.drop k) := by
  intro items
  induction items with
  | nil => intro k; simp [resolveItems]
  | cons it rest ih =>
    intro k
    cases k with
    | zero => simp
    | succ k' =>
      cases it with
      | lit bs m =>
        simp only [resolveItems, List.drop_succ_cons]
        exact ih k'
      | ptr tgt =>
        simp only [resolveItems, List.drop_succ_cons]
        exact ih k'

theorem resolveItems_getD_lit : ∀ (items : List Item) (i : Nat) (bs : List Nat)
    (m : Option Value), i < items.length → items.getD i (.lit [] none) = .lit bs m →
    (resolveItems items).getD i ([], none) = (bs, m) := by
  intro items
  induction items with
  | nil => intro i bs m hi _; simp at hi
  | cons it rest ih =>
    intro i bs m hi hget
    cases i with
    | zero =>
      rw [List.getD_cons_zero] at hget
      subst hget
      simp only [resolveItems, List.getD_cons_zero]
    | succ i' =>
      rw [List.getD_cons_succ] at hget
      have hi' : i' < rest.length := by simp at hi; omega
      cases it with
      | lit bs' m' =>
        simp only [resolveItems, List.getD_cons_succ]
        exact ih i' bs m hi' hget
      | ptr tgt =>
        simp only [resolveItems, List.getD_cons_succ]
        exact ih i' bs m hi' hget

theorem resolveItems_getD_ptr : ∀ (items : List Item) (i : Nat) (tgt : Value),
    i < items.length → items.getD i (.lit [] none) = .ptr tgt →
    (resolveItems items).getD i ([], none) =
      (digitsN (offsetTo tgt (resolveItems (items.drop (i + 1)))) ++ [94], none) := by
  intro items
  induction items with
  | nil => intro i tgt hi _; simp at hi
  | cons it rest ih =>
    intro i tgt hi hget
    cases i with
    | zero =>
      rw [List.getD_cons_zero] at hget
      subst hget
      simp only [resolveItems, List.getD_cons_zero, List.drop_succ_cons, List.drop_zero]
    | succ i' =>
      rw [List.getD_cons_succ] at hget
      have hi' : i' < rest.length := by simp at hi; omega
      cases it with
      | lit bs' m' =>
        simp only [resolveItems, List.getD_cons_succ, List.drop_succ_cons]
        exact ih i' tgt hi' hget
      | ptr tgt' =>
        simp only [resolveItems, List.getD_cons_succ, List.drop_succ_cons]
        exact ih i' tgt hi' hget

theorem chunk_marker_lit : ∀ (items : List Item) (j : Nat) (w : Value),
    j < items.length → ((resolveItems items).getD j ([], none)).2 = some w →
    ∃ bs, items.getD j (.lit [] none) = Item.lit bs (some w) ∧
      ((resolveItems items).getD j ([], none)).1 = bs := by
  intro items j w hj hm
  rcases hit : items.getD j (.lit [] none) with ⟨bs, m⟩ | tgt
  · have hres := resolveItems_getD_lit items j bs m hj hit
    rw [hres] at hm
    simp only at hm
    refine ⟨bs, ?_, ?_⟩
    · rw [hm]
    · rw [hres]
  · have hres := resolveItems_getD_ptr items j tgt hj hit
    rw [hres] at hm
    simp at hm

theorem offsetTo_spec : ∀ (cs : List (List Nat × Option Value)) (v : Value),
    (∃ c ∈ cs, c.2 = some v) →
    ∃ j, j < cs.length ∧ (cs.getD j ([], none)).2 = some v ∧
      offsetTo v cs = chunkPos cs j := by
  intro cs
  induction cs with
  | nil => intro v hex; simp at hex
  | cons c rest ih =>
    intro v hex
    by_cases hc : c.2 = some v
    · refine ⟨0, by simp, by simpa using hc, ?_⟩
      rw [offsetTo, if_pos hc]
      rfl
    · obtain ⟨c', hc', hm⟩ := hex
      rcases List.mem_cons.mp hc' with rfl | hmem
      · exact absurd hm hc
      · obtain ⟨j, hjl, hjm, hoff⟩ := ih v ⟨c', hmem, hm⟩
        refine ⟨j + 1, by simp; omega, by rw [List.getD_cons_succ]; exact hjm, ?_⟩
        rw [offsetTo, if_neg hc, hoff]
        simp only [chunkPos, List.take_succ_cons, List.map_cons, List.sum_cons]

theorem chunkPos_zero (cs : List (List Nat × Option Value)) : chunkPos cs 0 = 0 := rfl

theorem chunkPos_succ : ∀ (cs : List (List Nat × Option Value)) (j : Nat), j < cs.length →
    chunkPos cs (j + 1) = chunkPos cs j + ((cs.getD j ([], none)).1).length := by
  intro cs
  induction cs with
  | nil => intro j hj; simp at hj
  | cons c rest ih =>
    intro j hj
    cases j with
    | zero =>
      simp [chunkPos, List.take_succ_cons]
    | succ j' =>
      have hrec := ih j' (by simp at hj; omega)
      simp only [chunkPos, List.take_succ_cons, List.map_cons, List.sum_cons,
        List.getD_cons_succ] at hrec ⊢
      omega

theorem chunkPos_add : ∀ (cs : List (List Nat × Option Value)) (k j : Nat),
    chunkPos cs (k + j) = chunkPos cs k + chunkPos (cs.drop k) j := by
  intro cs k j
  simp only [chunkPos, List.take_add, List.map_append, List.sum_append]

theorem chunkPos_le_total : ∀ (cs : List (List Nat × Option Value)) (j : Nat),
    chunkPos cs j ≤ ((cs.map (fun c => c.1)).flatten).length := by
  intro cs j
  rw [List.length_flatten, List.map_map]
  conv_rhs => rw [← List.take_append_drop j cs]
  rw [List.map_append, List.sum_append]
  have hfun : (List.length ∘ fun (c : List Nat × Option Value) => c.1) =
      fun (c : List Nat × Option Value) => c.1.length := rfl
  rw [hfun]
  exact Nat.le_add_right _ _

theorem flatten_getD_head : ∀ (cs : List (List Nat × Option Value)) (j : Nat),
    j < cs.length → (cs.getD j ([], none)).1 ≠ [] →
    ((cs.map (fun c => c.1)).flatten).getD (chunkPos cs j) 0 =
      ((cs.getD j ([], none)).1).headD 0 := by
  intro cs
  induction cs with
  | nil => intro j hj _; simp at hj
  | cons c rest ih =>
    intro j hj hne
    cases j with
    | zero =>
      simp only [List.getD_cons_zero] at hne ⊢
      rw [chunkPos_zero]
      simp only [List.map_cons, List.flatten_cons]
      cases hc : c.1 with
      | nil => exact absurd hc hne
      | cons b bs => simp [hc]
    | succ j' =>
      have hj' : j' < rest.length := by simp at hj; omega
      simp only [List.getD_cons_succ] at hne ⊢
      simp only [List.map_cons, List.flatten_cons]
      have hcp : chunkPos (c :: rest) (j' + 1) = c.1.length + chunkPos rest j' := by
        simp only [chunkPos, List.take_succ_cons, List.map_cons, List.sum_cons]
      rw [hcp, List.getD_append_right _ _ _ _ (Nat.le_add_right _ _),
        Nat.add_sub_cancel_left]
      exact ih j' hj' hne

theorem chunkPos_lt_total : ∀ (cs : List (List Nat × Option Value)) (j : Nat),
    j < cs.length → (cs.getD j ([], none)).1 ≠ [] →
    chunkPos cs j < ((cs.map (fun c => c.1)).flatten).length := by
  intro cs j hj hne
  have h1 := chunkPos_succ cs j hj
  have h2 := chunkPos_le_total cs (j + 1)
  have h3 : 0 < ((cs.getD j ([], none)).1).length := List.length_pos.mpr hne
  omega

/-! ## Claim C8 -/

/-- C8: control flow is opened by exactly the two-character sequences
`?(` (When), `!(` (Unless), `|(` (Alt), `&(` (All) and closed by `)`: the
modelled encoder's output for the four forms starts with exactly those two
characters and ends with `)`; the source tokenizer recognizes a two-length
opener token only when the tag is immediately followed by `(` (on `"?("`
etc. it emits the single two-character opener token, while on a tag not
followed by `(` it emits nothing); and the modelled decoder enforces the
arities: When/Unless bodies decode only with 2 or 3 children (0, 1 and 4
fail, and a missing `)` fails), Alt/All only with at least one child. -/
theorem ctl_two_char_openers :
    (∀ (c th : Value) (e : VOpt),
      (enc (.whenv c th e)).take 2 = [63, 40] ∧
      (enc (.unlessv c th e)).take 2 = [33, 40] ∧
      (enc (.whenv c th e)).getLast? = some 41 ∧
      (enc (.unlessv c th e)).getLast? = some 41) ∧
    (∀ (vh : Value) (tl : VList),
      (enc (.altv vh tl)).take 2 = [124, 40] ∧
      (enc (.allv vh tl)).take 2 = [38, 40] ∧
      (enc (.altv vh tl)).getLast? = some 41 ∧
      (enc (.allv vh tl)).getLast? = some 41) ∧
    (tokenize [63, 40] = [⟨0, 0, 2, 1⟩] ∧ tokenize [33, 40] = [⟨0, 0, 2, 1⟩] ∧
      tokenize [124, 40] = [⟨0, 0, 2, 1⟩] ∧ tokenize [38, 40] = [⟨0, 0, 2, 1⟩] ∧
      tokenize [63, 120] = [] ∧ tokenize [33, 120] = [] ∧
      tokenize [124, 120] = [] ∧ tokenize [38, 120] = []) ∧
    ((decOne [63, 40, 41] 9 0).isNone ∧ (decOne [63, 40, 43, 41] 9 0).isNone ∧
      decOne [63, 40, 43, 43, 41] 9 0 =
        some (.whenv (.integer 0) (.integer 0) .onone, 5) ∧
      decOne [63, 40, 43, 43, 43, 41] 19 0 =
        some (.whenv (.integer 0) (.integer 0) (.osome (.integer 0)), 6) ∧
      (decOne [63, 40, 43, 43, 43, 43, 41] 19 0).isNone ∧
      (decOne [63, 40, 43, 43] 9 0).isNone ∧
      decOne [33, 40, 43, 43, 41] 9 0 =
        some (.unlessv (.integer 0) (.integer 0) .onone, 5) ∧
      (decOne [124, 40, 41] 9 0).isNone ∧
      decOne [124, 40, 43, 41] 9 0 = some (.altv (.integer 0) .nil, 4) ∧
      (decOne [38, 40, 41] 9 0).isNone ∧
      decOne [38, 40, 43, 41] 9 0 = some (.allv (.integer 0) .nil, 4)) := by
  refine ⟨?_, ?_, by decide, by decide⟩
  · intro c th e
    refine ⟨rfl, rfl, ?_, ?_⟩
    · have hsh : enc (.whenv c th e) =
          (63 :: 40 :: (enc c ++ prefIf th (enc th) ++ encOpt e)) ++ [41] := by
        simp [enc]
      rw [hsh, List.getLast?_concat]
    · have hsh : enc (.unlessv c th e) =
          (33 :: 40 :: (enc c ++ prefIf th (enc th) ++ encOpt e)) ++ [41] := by
        simp [enc]
      rw [hsh, List.getLast?_concat]
  · intro vh tl
    refine ⟨rfl, rfl, ?_, ?_⟩
    · have hsh : enc (.altv vh tl) =
          (124 :: 40 :: (enc vh ++ encElems tl)) ++ [41] := by
        simp [enc]
      rw [hsh, List.getLast?_concat]
    · have hsh : enc (.allv vh tl) =
          (38 :: 40 :: (enc vh ++ encElems tl)) ++ [41] := by
        simp [enc]
      rw [hsh, List.getLast?_concat]

/-! ## Claim C2 -/

/-- C2: for every pointer item in the dedup emitter's output, the resolved
target offset — counted in bytes forward from the first byte after the
pointer's own token, i.e. from `chunkPos cs (i+1)` — stays strictly inside
the buffer and strictly after the pointer token's last byte (the token
spans `[chunkPos cs i, chunkPos cs (i+1))` and is nonempty), the byte at
the resolved offset is never the pointer tag `94`, and the offset lands
exactly on the first byte of a literal (non-pointer) token: the canonical
occurrence of the pointer's target. -/
theorem dedup_pointer_invariants (cand : Value → Bool) (v : Value) (i : Nat) (tgt : Value)
    (hi : i < (dedupItems cand v).length)
    (hptr : (dedupItems cand v).getD i (.lit [] none) = Item.ptr tgt) :
    chunkPos (resolveItems (dedupItems cand v)) i <
      chunkPos (resolveItems (dedupItems cand v)) (i + 1) ∧
    chunkPos (resolveItems (dedupItems cand v)) (i + 1) +
        offsetTo tgt ((resolveItems (dedupItems cand v)).drop (i + 1)) <
      (dedupEncode cand v).length ∧
    (dedupEncode cand v).getD
        (chunkPos (resolveItems (dedupItems cand v)) (i + 1) +
          offsetTo tgt ((resolveItems (dedupItems cand v)).drop (i + 1))) 0 ≠ 94 ∧
    ∃ j, i < j ∧ j < (dedupItems cand v).length ∧
      chunkPos (resolveItems (dedupItems cand v)) (i + 1) +
          offsetTo tgt ((resolveItems (dedupItems cand v)).drop (i + 1)) =
        chunkPos (resolveItems (dedupItems cand v)) j ∧
      ∃ bs, (dedupItems cand v).getD j (.lit [] none) = Item.lit bs (some tgt) ∧
        bs ≠ [] ∧ bs.headD 0 ≠ 94 := by
  obtain ⟨hI1, hI2, hI3⟩ := (emit_preserves cand (sz v)).1 v (le_refl _) ⟨[], []⟩ emok_empty
  obtain ⟨j, hij, hjlen, bs, hlitj⟩ := hI3 i tgt hi hptr
  have hitems : (emitV cand v (⟨[], []⟩ : EmSt)).items = dedupItems cand v := rfl
  rw [hitems] at hjlen hlitj
  have hcslen : (resolveItems (dedupItems cand v)).length = (dedupItems cand v).length :=
    resolveItems_length _
  have hdropped : ((dedupItems cand v).drop (i + 1)).getD (j - (i + 1)) (.lit [] none) =
      Item.lit bs (some tgt) := by
    rw [getD_drop, show i + 1 + (j - (i + 1)) = j by omega]
    exact hlitj
  have hjrel_len : j - (i + 1) < ((dedupItems cand v).drop (i + 1)).length := by
    simp only [List.length_drop]
    omega
  have hchunk_rel := resolveItems_getD_lit ((dedupItems cand v).drop (i + 1)) (j - (i + 1))
    bs (some tgt) hjrel_len hdropped
  have hexists : ∃ c ∈ (resolveItems (dedupItems cand v)).drop (i + 1),
      c.2 = some tgt := by
    rw [resolveItems_drop]
    refine ⟨_, mem_of_getD _ (j - (i + 1)) ([], none) ?_, ?_⟩
    · rw [resolveItems_length]
      exact hjrel_len
    · rw [hchunk_rel]
  obtain ⟨jr, hjr_len, hjr_mark, hoff⟩ :=
    offsetTo_spec ((resolveItems (dedupItems cand v)).drop (i + 1)) tgt hexists
  have hres_eq : chunkPos (resolveItems (dedupItems cand v)) (i + 1) +
      offsetTo tgt ((resolveItems (dedupItems cand v)).drop (i + 1)) =
      chunkPos (resolveItems (dedupItems cand v)) (i + 1 + jr) := by
    rw [hoff, chunkPos_add _ (i + 1) jr]
  have hjabs_len : i + 1 + jr < (resolveItems (dedupItems cand v)).length := by
    have hdl : ((resolveItems (dedupItems cand v)).drop (i + 1)).length =
        (resolveItems (dedupItems cand v)).length - (i + 1) := List.length_drop _ _
    omega
  have hjabs_chunk : (resolveItems (dedupItems cand v)).getD (i + 1 + jr) ([], none) =
      ((resolveItems (dedupItems cand v)).drop (i + 1)).getD jr ([], none) := by
    rw [getD_drop]
  have hmarkabs : ((resolveItems (dedupItems cand v)).getD (i + 1 + jr) ([], none)).2 =
      some tgt := by
    rw [hjabs_chunk]
    exact hjr_mark
  obtain ⟨bs2, hit2, hbytes2⟩ := chunk_marker_lit (dedupItems cand v) (i + 1 + jr) tgt
    (by omega) hmarkabs
  have hmem2 : Item.lit bs2 (some tgt) ∈ dedupItems cand v :=
    hit2 ▸ mem_of_getD (dedupItems cand v) (i + 1 + jr) (.lit [] none) (by omega)
  obtain ⟨hbs2ne, hbs2h⟩ := hI1 bs2 (some tgt) hmem2
  have hptr_chunk := resolveItems_getD_ptr (dedupItems cand v) i tgt hi hptr
  have hptr_ne : ((resolveItems (dedupItems cand v)).getD i ([], none)).1 ≠ [] := by
    rw [hptr_chunk]
    simp
  have hc1 : chunkPos (resolveItems (dedupItems cand v)) i <
      chunkPos (resolveItems (dedupItems cand v)) (i + 1) := by
    rw [chunkPos_succ _ i (by omega)]
    have := List.length_pos.mpr hptr_ne
    omega
  have hchunkne : ((resolveItems (dedupItems cand v)).getD (i + 1 + jr) ([], none)).1 ≠ [] := by
    rw [hbytes2]
    exact hbs2ne
  have hc2 : chunkPos (resolveItems (dedupItems cand v)) (i + 1) +
      offsetTo tgt ((resolveItems (dedupItems cand v)).drop (i + 1)) <
      (dedupEncode cand v).length := by
    rw [hres_eq]
    exact chunkPos_lt_total _ _ hjabs_len hchunkne
  have hc3 : (dedupEncode cand v).getD
      (chunkPos (resolveItems (dedupItems cand v)) (i + 1) +
        offsetTo tgt ((resolveItems (dedupItems cand v)).drop (i + 1))) 0 ≠ 94 := by
    rw [hres_eq]
    have hfl := flatten_getD_head (resolveItems (dedupItems cand v)) (i + 1 + jr)
      hjabs_len hchunkne
    rw [show dedupEncode cand v =
      ((resolveItems (dedupItems cand v)).map (fun c => c.1)).flatten from rfl, hfl, hbytes2]
    exact hbs2h
  exact ⟨hc1, hc2, hc3, i + 1 + jr, by omega, by omega, hres_eq, bs2, hit2, hbs2ne, hbs2h⟩

/-- Witness for C2 on the spec's dedup example: `[1, 1]` with integer-1 as
the only dedup candidate emits `"[^2+]"`; the pointer item sits at index 1
and targets the canonical `"2+"` literal. -/
theorem dedup_pointer_invariants_witness :
    (1 < (dedupItems (fun w => w == Value.integer 1)
        (.arr (.cons (.integer 1) (.cons (.integer 1) .nil)))).length ∧
      (dedupItems (fun w => w == Value.integer 1)
          (.arr (.cons (.integer 1) (.cons (.integer 1) .nil)))).getD 1 (.lit [] none) =
        Item.ptr (.integer 1)) ∧
    (chunkPos (resolveItems (dedupItems (fun w => w == Value.integer 1)
          (.arr (.cons (.integer 1) (.cons (.integer 1) .nil))))) 1 <
      chunkPos (resolveItems (dedupItems (fun w => w == Value.integer 1)
          (.arr (.cons (.integer 1) (.cons (.integer 1) .nil))))) (1 + 1) ∧
    chunkPos (resolveItems (dedupItems (fun w => w == Value.integer 1)
          (.arr (.cons (.integer 1) (.cons (.integer 1) .nil))))) (1 + 1) +
        offsetTo (Value.integer 1) ((resolveItems (dedupItems (fun w => w == Value.integer 1)
          (.arr (.cons (.integer 1) (.cons (.integer 1) .nil))))).drop (1 + 1)) <
      (dedupEncode (fun w => w == Value.integer 1)
          (.arr (.cons (.integer 1) (.cons (.integer 1) .nil)))).length ∧
    (dedupEncode (fun w => w == Value.integer 1)
        (.arr (.cons (.integer 1) (.cons (.integer 1) .nil)))).getD
        (chunkPos (resolveItems (dedupItems (fun w => w == Value.integer 1)
            (.arr (.cons (.integer 1) (.cons (.integer 1) .nil))))) (1 + 1) +
          offsetTo (Value.integer 1)
            ((resolveItems (dedupItems (fun w => w == Value.integer 1)
              (.arr (.cons (.integer 1) (.cons (.integer 1) .nil))))).drop (1 + 1))) 0 ≠ 94 ∧
    ∃ j, 1 < j ∧ j < (dedupItems (fun w => w == Value.integer 1)
        (.arr (.cons (.integer 1) (.cons (.integer 1) .nil)))).length ∧
      chunkPos (resolveItems (dedupItems (fun w => w == Value.integer 1)
            (.arr (.cons (.integer 1) (.cons (.integer 1) .nil))))) (1 + 1) +
          offsetTo (Value.integer 1)
            ((resolveItems (dedupItems (fun w => w == Value.integer 1)
              (.arr (.cons (.integer 1) (.cons (.integer 1) .nil))))).drop (1 + 1)) =
        chunkPos (resolveItems (dedupItems (fun w => w == Value.integer 1)
            (.arr (.cons (.integer 1) (.cons (.integer 1) .nil))))) j ∧
      ∃ bs, (dedupItems (fun w => w == Value.integer 1)
          (.arr (.cons (.integer 1) (.cons (.integer 1) .nil)))).getD j (.lit [] none) =
          Item.lit bs (some (Value.integer 1)) ∧
        bs ≠ [] ∧ bs.headD 0 ≠ 94) :=
  ⟨⟨by decide, by decide⟩,
    dedup_pointer_invariants (fun w => w == Value.integer 1)
      (.arr (.cons (.integer 1) (.cons (.integer 1) .nil))) 1 (.integer 1)
      (by decide) (by decide)⟩

end Rex
